import Mathlib

/-!
# sstl::ideque — the circular-buffer deque core

A shallow embedding of `include/sstl/ideque.h`.

* A cursor (`iterator` / `const_iterator`) is represented by its `index` field, a
  `difference_type`, hence an `Int`; the owning deque and the buffer pointer are the deque
  the operation is applied to.
* The storage `p_buffer` is a map from slot index to element.  Placement construction and
  assignment both store a value in a slot; destruction leaves the stored value in place.
* `size_t` counters are natural numbers reduced modulo `2 ^ 64` where the source increments,
  decrements or adds them; conversions between `size_t` and `difference_type` are the
  functions `to_size_t` and `to_difference_type`.
* `sstl_assert` and the `deque_base` members come from headers that are not part of the
  sources at hand; they are modelled from the specification (see the definitions below).
* The input range of the range forms (`TIterator range_begin, range_end`) is a readable
  sequence `src : Nat → T` together with its length `n`; `src k` is `*(range_begin + k)`
  and the range itself is `src 0, …, src (n - 1)`.
* A `const value_type&` parameter is a `ValueRef` where the source reads it after it has
  written to the storage (`insert(position, value)`, `insert(position, n, value)`): the
  reference may be to an element of the deque itself.  Where every read of the parameter
  yields the value it had at the call (`push_back`, `push_front`, `assign(n, value)`,
  `resize`), the parameter is that value.
* The `const ideque& other` of `operator =` is an `Other`: another deque, or the deque
  itself.
-/

namespace sstl

/-! ## Machine integers -/

/-- Conversion of a `difference_type` to `size_t`. -/
def to_size_t (x : Int) : Nat := (x % 18446744073709551616).toNat

/-- Conversion of a `size_t` to `difference_type` (two's complement). -/
def to_difference_type (n : Nat) : Int :=
  if n % 18446744073709551616 < 9223372036854775808 then ((n % 18446744073709551616 : Nat) : Int)
  else ((n % 18446744073709551616 : Nat) : Int) - 18446744073709551616

/-- The effect of `++x` on a `size_t`. -/
def size_succ (n : Nat) : Nat := (n + 1) % 18446744073709551616

/-- The effect of `--x` on a `size_t`. -/
def size_pred (n : Nat) : Nat := (n + 18446744073709551615) % 18446744073709551616

/-! ## Data model -/

/-- The deque core: the `deque_base` counters, the two cursors and the storage. -/
structure ideque (T : Type) where
  /-- Modelled from the spec: `deque_base::MAX_SIZE` (deque_base.h is absent), the capacity. -/
  MAX_SIZE : Nat
  /-- Modelled from the spec: `deque_base::BUFFER_SIZE` (deque_base.h is absent), the slot count. -/
  BUFFER_SIZE : Nat
  /-- Modelled from the spec: `deque_base::current_size` (deque_base.h is absent). -/
  current_size : Nat
  /-- The field `_begin.index`. -/
  begin_index : Int
  /-- The field `_end.index`. -/
  end_index : Int
  /-- The storage `p_buffer`, slot by slot. -/
  p_buffer : Int → T

/-- The outcome of a public member function: it either ran to completion, leaving the deque
`d` and returning `r`, or a `sstl_assert` failed.
Modelled from the spec: `sstl_assert` (sstl_assert.h is absent) invokes the
contract-violation hook and the operation does nothing further; `violation d` records the
deque at that point. -/
inductive Outcome (T R : Type) where
  | ok (d : ideque T) (r : R)
  | violation (d : ideque T)

/-- The deque an operation leaves behind. -/
def Outcome.deque {T R : Type} : Outcome T R → ideque T
  | .ok d _ => d
  | .violation d => d

/-- Whether the operation reported a contract violation. -/
def Outcome.violated {T R : Type} : Outcome T R → Bool
  | .ok _ _ => false
  | .violation _ => true

/-- The value an operation returned, if it ran to completion. -/
def Outcome.returned {T R : Type} : Outcome T R → Option R
  | .ok _ r => some r
  | .violation _ => none

/-- Store `v` in slot `i` of the storage (`p_buffer[i] = v`, or `new (&p_buffer[i]) T(v)`). -/
def store {T : Type} (buf : Int → T) (i : Int) (v : T) : Int → T :=
  fun j => if j = i then v else buf j

/-- The slot reached from slot `b` by `x` cursor steps (backwards when `x` is negative) in a
buffer of `B` slots. -/
def slot (B : Nat) (b x : Int) : Int := (b + x) % (B : Int)

/-! ## Cursor arithmetic (`iterator`, `const_iterator`) -/

/-- The operator `++` of a cursor. -/
def iterator.inc (B : Nat) (index : Int) : Int :=
  if index = (B : Int) - 1 then 0 else index + 1

/-- The operator `--` of a cursor. -/
def iterator.dec (B : Nat) (index : Int) : Int :=
  if index = 0 then (B : Int) - 1 else index - 1

/-- The operator `+=` of a cursor (`operator +` is `+=` on a copy). -/
def iterator.add (B : Nat) (index offset : Int) : Int :=
  if offset > 0 then
    let j := index + offset
    if (to_size_t j : Int) > (B : Int) - 1 then j - B else j
  else if offset < 0 then
    let j := index - (-offset)
    if j < 0 then j + B else j
  else index

/-- The operator `-=` of a cursor (`operator -` with an offset is `-=` on a copy). -/
def iterator.sub (B : Nat) (index offset : Int) : Int :=
  if offset > 0 then
    let j := index - offset
    if j < 0 then j + B else j
  else if offset < 0 then
    let j := index + (-offset)
    if (to_size_t j : Int) > (B : Int) - 1 then j - B else j
  else index

/-- A `TIterator` argument of the function templates: either a cursor into an external
readable sequence, or a cursor of this deque. -/
inductive TIterator (T : Type) where
  | range (src : Nat → T) (k : Nat)
  | own (index : Int)

namespace ideque

variable {T : Type}

/-- Modelled from the spec: `deque_base::empty()` (deque_base.h is absent). -/
def empty (d : ideque T) : Bool := d.current_size == 0

/-- Modelled from the spec: `deque_base::full()` (deque_base.h is absent). -/
def full (d : ideque T) : Bool := d.current_size == d.MAX_SIZE

/-- Modelled from the spec: `deque_base::size()` (deque_base.h is absent). -/
def size (d : ideque T) : Nat := d.current_size

/-- Modelled from the spec: `deque_base::capacity()` (deque_base.h is absent). -/
def capacity (d : ideque T) : Nat := d.MAX_SIZE

/-- Modelled from the spec: the state a concrete `deque<T, c>` starts in (deque.h is absent):
capacity `c`, `c + 1` slots, the constructor of `ideque` having run `clear()`. -/
def init (c : Nat) (buf : Int → T) : ideque T :=
  { MAX_SIZE := c, BUFFER_SIZE := c + 1, current_size := 0,
    begin_index := 0, end_index := 0, p_buffer := buf }

/-- The one-argument `distance(other)`: steps from `_begin` to the cursor. -/
def distance1 (d : ideque T) (index : Int) : Int :=
  if index < d.begin_index then (d.BUFFER_SIZE : Int) + index - d.begin_index
  else index - d.begin_index

/-- The two-argument `distance(range_begin, range_end)`, also `range_end - range_begin`. -/
def distance (d : ideque T) (range_begin range_end : Int) : Int :=
  d.distance1 range_end - d.distance1 range_begin

/-- Dereference a `TIterator`. -/
def deref (d : ideque T) : TIterator T → T
  | .range src k => src k
  | .own index => d.p_buffer index

/-- Advance a `TIterator` by `k`. -/
def advance (d : ideque T) : TIterator T → Nat → TIterator T
  | .range src j, k => .range src (j + k)
  | .own index, k => .own (iterator.add d.BUFFER_SIZE index (to_difference_type k))

/-- The operator `++` of a `TIterator`. -/
def next (d : ideque T) : TIterator T → TIterator T
  | .range src j => .range src (j + 1)
  | .own index => .own (iterator.inc d.BUFFER_SIZE index)

/-- A `const value_type&` argument of a mutator.  The object it refers to lies outside the
storage of the deque (`object v`: a temporary, a local variable, an element of another
container), or it is the element in slot `index` of the deque's own buffer (`element index`:
`d[3]`, `d.front()`, `*it`), and then the value read through it changes when the mutator
writes that slot. -/
inductive ValueRef (T : Type) where
  | object (v : T)
  | element (index : Int)

/-- The value read through a `const value_type&` in state `d`. -/
def read (d : ideque T) : ValueRef T → T
  | .object v => v
  | .element index => d.p_buffer index

/-! ## Construction and destruction of elements -/

/-- The function template `create_element_front(Args&&...)`, called with a value. -/
def create_element_front (d : ideque T) (value : T) : ideque T :=
  let b := iterator.dec d.BUFFER_SIZE d.begin_index
  { d with begin_index := b, p_buffer := store d.p_buffer b value,
           current_size := size_succ d.current_size }

/-- The non-template `create_element_front()`, which default-constructs (`dflt` is `T()`). -/
def create_element_front_default (d : ideque T) (dflt : T) : ideque T :=
  let b := if !d.empty then iterator.dec d.BUFFER_SIZE d.begin_index else d.begin_index
  { d with begin_index := b, p_buffer := store d.p_buffer b dflt,
           current_size := size_succ d.current_size }

/-- The function template `create_element_back(Args&&...)`, called with a value. -/
def create_element_back (d : ideque T) (value : T) : ideque T :=
  { d with p_buffer := store d.p_buffer d.end_index value,
           end_index := iterator.inc d.BUFFER_SIZE d.end_index,
           current_size := size_succ d.current_size }

/-- The function `destroy_element_front()`. -/
def destroy_element_front (d : ideque T) : ideque T :=
  { d with begin_index := iterator.inc d.BUFFER_SIZE d.begin_index,
           current_size := size_pred d.current_size }

/-- The function `destroy_element_back()`. -/
def destroy_element_back (d : ideque T) : ideque T :=
  { d with end_index := iterator.dec d.BUFFER_SIZE d.end_index,
           current_size := size_pred d.current_size }

/-- The body of the `do … while (n-- != 0)` loop of `copy_range_front`, run `k` times. -/
def copy_range_front_loop : Nat → ideque T → Int → TIterator T → ideque T
  | 0, d, _, _ => d
  | k + 1, d, item, src =>
    copy_range_front_loop k
      { d with p_buffer := store d.p_buffer item (d.deref src),
               current_size := size_succ d.current_size }
      (iterator.inc d.BUFFER_SIZE item) (d.next src)

/-- The function template `copy_range_front(n, from)`.  After the two adjustments of `n`
the `do … while (n-- != 0)` loop runs its body `n + 1` times. -/
def copy_range_front (d : ideque T) (n : Nat) (src : TIterator T) : ideque T :=
  if n = 0 then d
  else
    let b1 := if !d.empty then iterator.dec d.BUFFER_SIZE d.begin_index else d.begin_index
    let n1 := if !d.empty then size_pred n else n
    let b2 := if n1 > 0 then iterator.sub d.BUFFER_SIZE b1 (to_difference_type n1) else b1
    copy_range_front_loop (n1 + 1) { d with begin_index := b2 } b2 src

/-- Apply `f` to the deque `k` times (a counted `for` loop whose body is `f`). -/
def repeat_op (f : ideque T → ideque T) : Nat → ideque T → ideque T
  | 0, d => d
  | k + 1, d => repeat_op f k (f d)

/-- The loop `for (i = 0; i < k; ++i) create_element_back(*item++)`. -/
def create_back_from : Nat → ideque T → TIterator T → ideque T
  | 0, d, _ => d
  | k + 1, d, src => create_back_from k (d.create_element_back (d.deref src)) (d.next src)

/-- The loop `for (i = 0; i < k; ++i) create_element_front(*from--)`. -/
def create_front_from : Nat → ideque T → Int → ideque T
  | 0, d, _ => d
  | k + 1, d, src =>
    create_front_from k (d.create_element_front (d.p_buffer src))
      (iterator.dec d.BUFFER_SIZE src)

/-! ## The standard algorithms on cursors -/

/-- The assignment loop `*dst++ = *src++`, run `k` times. -/
def copy_loop : Nat → ideque T → TIterator T → Int → ideque T
  | 0, d, _, _ => d
  | k + 1, d, src, dst =>
    copy_loop k { d with p_buffer := store d.p_buffer dst (d.deref src) } (d.next src)
      (iterator.inc d.BUFFER_SIZE dst)

/-- The assignment loop `*--d_last = *--last`, run `k` times. -/
def copy_backward_loop : Nat → ideque T → Int → Int → ideque T
  | 0, d, _, _ => d
  | k + 1, d, last, d_last =>
    let l := iterator.dec d.BUFFER_SIZE last
    let t := iterator.dec d.BUFFER_SIZE d_last
    copy_backward_loop k { d with p_buffer := store d.p_buffer t (d.p_buffer l) } l t

/-- The assignment loop `*dst++ = value`, run `k` times; `value` is a reference and is read
at every assignment. -/
def fill_loop : Nat → ideque T → Int → ValueRef T → ideque T
  | 0, d, _, _ => d
  | k + 1, d, dst, value =>
    fill_loop k { d with p_buffer := store d.p_buffer dst (d.read value) }
      (iterator.inc d.BUFFER_SIZE dst) value

/-- The algorithm `std::copy(first, last, d_first)` on cursors of the deque: `last - first`
assignments, front to back. -/
def std_copy (d : ideque T) (first last d_first : Int) : ideque T :=
  copy_loop (d.distance first last).toNat d (.own first) d_first

/-- The algorithm `std::copy_backward(first, last, d_last)` on cursors of the deque:
`last - first` assignments, back to front. -/
def std_copy_backward (d : ideque T) (first last d_last : Int) : ideque T :=
  copy_backward_loop (d.distance first last).toNat d last d_last

/-- The algorithm `std::copy_n(first, count, result)` into the deque. -/
def std_copy_n (d : ideque T) (first : TIterator T) (count : Nat) (result : Int) : ideque T :=
  copy_loop count d first result

/-- The algorithm `std::fill_n(first, count, value)` on a cursor of the deque. -/
def std_fill_n (d : ideque T) (first : Int) (count : Nat) (value : ValueRef T) :
    ideque T :=
  fill_loop count d first value

/-- The value of `std::distance(a, b)` stored in a `size_t`. -/
def std_distance (d : ideque T) (a b : Int) : Nat := to_size_t (d.distance a b)

/-! ## Public mutators -/

/-- The member `insert(insert_position, value)`; `value` is a `const value_type&`, read
where the source reads it. -/
def insert (d : ideque T) (insert_position : Int) (value : ValueRef T) : Outcome T Int :=
  if d.full then .violation d
  else if insert_position = d.begin_index then
    let d1 := d.create_element_front (d.read value)
    .ok d1 d1.begin_index
  else if insert_position = d.end_index then
    let d1 := d.create_element_back (d.read value)
    .ok d1 (iterator.sub d1.BUFFER_SIZE d1.end_index 1)
  else
    let position := insert_position
    -- Are we closer to the front?
    if d.distance d.begin_index position
        < d.distance position (iterator.sub d.BUFFER_SIZE d.end_index 1) then
      -- Construct the first.
      let d1 := d.create_element_front (d.p_buffer d.begin_index)
      -- Move the values.
      let d2 := d1.std_copy (iterator.add d1.BUFFER_SIZE d1.begin_index 1) position d1.begin_index
      -- Write the new value.
      let position := iterator.dec d2.BUFFER_SIZE position
      .ok { d2 with p_buffer := store d2.p_buffer position (d2.read value) } position
    else
      -- Construct the last.
      let d1 := d.create_element_back (d.p_buffer (iterator.sub d.BUFFER_SIZE d.end_index 1))
      -- Move the values.
      let d2 := d1.std_copy_backward position (iterator.sub d1.BUFFER_SIZE d1.end_index 2)
        (iterator.sub d1.BUFFER_SIZE d1.end_index 1)
      -- Write the new value.
      .ok { d2 with p_buffer := store d2.p_buffer position (d2.read value) } position

/-- The member `insert(insert_position, n, value)`; `value` is a `const value_type&`, read
at every construction and assignment that uses it. -/
def insert_n (d : ideque T) (insert_position : Int) (n : Nat) (value : ValueRef T) :
    Outcome T Int :=
  if ¬ ((d.current_size + n) % 18446744073709551616 ≤ d.MAX_SIZE) then .violation d
  else if insert_position = d.begin_index then
    let d1 := repeat_op (fun e => e.create_element_front (e.read value)) n d
    .ok d1 d1.begin_index
  else if insert_position = d.end_index then
    let d1 := repeat_op (fun e => e.create_element_back (e.read value)) n d
    .ok d1 (iterator.sub d1.BUFFER_SIZE d1.end_index (to_difference_type n))
  else
    let position := insert_position
    -- Are we closer to the front?
    if d.distance d.begin_index insert_position ≤ to_difference_type (d.current_size / 2) then
      let n_insert := n
      let n_move := d.std_distance d.begin_index position
      let n_create_copy := min n_insert n_move
      let n_create_new := if n_insert > n_create_copy then n_insert - n_create_copy else 0
      let n_copy_new := if n_insert > n_create_new then n_insert - n_create_new else 0
      let n_copy_old := n_move - n_create_copy
      -- Remember the original start.
      let src := iterator.sub d.BUFFER_SIZE
        (iterator.add d.BUFFER_SIZE d.begin_index (to_difference_type n_create_copy)) 1
      -- Create new.
      let d1 := repeat_op (fun e => e.create_element_front (e.read value)) n_create_new d
      -- Create copy.
      let d2 := create_front_from n_create_copy d1 src
      -- Copy old.
      let src := iterator.sub d2.BUFFER_SIZE position (to_difference_type n_copy_old)
      let dst := iterator.add d2.BUFFER_SIZE d2.begin_index (to_difference_type n_create_copy)
      let d3 := d2.std_copy_n (.own src) n_copy_old dst
      -- Copy new.
      let dst := iterator.sub d3.BUFFER_SIZE position (to_difference_type n_create_copy)
      let d4 := d3.std_fill_n dst n_copy_new value
      .ok d4 (iterator.add d4.BUFFER_SIZE d4.begin_index (to_difference_type n_move))
    else
      let n_insert := n
      let n_move := d.std_distance position d.end_index
      let n_create_copy := min n_insert n_move
      let n_create_new := if n_insert > n_create_copy then n_insert - n_create_copy else 0
      let n_copy_new := if n_insert > n_create_new then n_insert - n_create_new else 0
      let n_copy_old := n_move - n_create_copy
      -- Create new.
      let d1 := repeat_op (fun e => e.create_element_back (e.read value)) n_create_new d
      -- Create copy.
      let src := iterator.add d1.BUFFER_SIZE position (to_difference_type n_copy_old)
      let d2 := create_back_from n_create_copy d1 (.own src)
      -- Copy old.
      let d3 := d2.std_copy_backward position
        (iterator.add d2.BUFFER_SIZE position (to_difference_type n_copy_old))
        (iterator.add d2.BUFFER_SIZE
          (iterator.add d2.BUFFER_SIZE position (to_difference_type n_insert))
          (to_difference_type n_copy_old))
      -- Copy new.
      let d4 := d3.std_fill_n position n_copy_new value
      .ok d4 position

/-- The member template `insert(insert_position, range_begin, range_end)`; the range is
`src 0, …, src (n - 1)`, so that `std::distance(range_begin, range_end)` is `n`. -/
def insert_range (d : ideque T) (insert_position : Int) (src : Nat → T) (n : Nat) :
    Outcome T Int :=
  let range_begin : TIterator T := .range src 0
  if ¬ ((d.current_size + n) % 18446744073709551616 ≤ d.MAX_SIZE) then .violation d
  else if insert_position = d.begin_index then
    let d1 := d.copy_range_front n range_begin
    .ok d1 d1.begin_index
  else if insert_position = d.end_index then
    let d1 := create_back_from n d range_begin
    .ok d1 (iterator.sub d1.BUFFER_SIZE d1.end_index (to_difference_type n))
  else
    let position := insert_position
    -- Are we closer to the front?
    if d.distance d.begin_index insert_position < to_difference_type (d.current_size / 2) then
      let n_insert := n
      let n_move := d.std_distance d.begin_index position
      let n_create_copy := min n_insert n_move
      let n_create_new := if n_insert > n_create_copy then n_insert - n_create_copy else 0
      let n_copy_new := if n_insert > n_create_new then n_insert - n_create_new else 0
      let n_copy_old := n_move - n_create_copy
      -- Create new.
      let d1 := d.copy_range_front n_create_new range_begin
      -- Create copy.
      let d2 := d1.copy_range_front n_create_copy
        (.own (iterator.add d1.BUFFER_SIZE d1.begin_index (to_difference_type n_create_new)))
      -- Copy old.
      let from_ := iterator.sub d2.BUFFER_SIZE position (to_difference_type n_copy_old)
      let dst := iterator.add d2.BUFFER_SIZE d2.begin_index (to_difference_type n_create_copy)
      let d3 := d2.std_copy_n (.own from_) n_copy_old dst
      -- Copy new.
      let dst := iterator.sub d3.BUFFER_SIZE position (to_difference_type n_create_copy)
      let range_begin := d3.advance range_begin n_create_new
      let d4 := d3.std_copy_n range_begin n_copy_new dst
      .ok d4 (iterator.add d4.BUFFER_SIZE d4.begin_index (to_difference_type n_move))
    else
      let n_insert := n
      let n_move := d.std_distance position d.end_index
      let n_create_copy := min n_insert n_move
      let n_create_new := if n_insert > n_create_copy then n_insert - n_create_copy else 0
      let n_copy_new := if n_insert > n_create_new then n_insert - n_create_new else 0
      let n_copy_old := n_move - n_create_copy
      -- Create new.
      let item := d.advance range_begin (n - n_create_new)
      let d1 := create_back_from n_create_new d item
      -- Create copy.
      let from_ := iterator.add d1.BUFFER_SIZE position (to_difference_type n_copy_old)
      let d2 := create_back_from n_create_copy d1 (.own from_)
      -- Copy old.
      let d3 := d2.std_copy_backward position
        (iterator.add d2.BUFFER_SIZE position (to_difference_type n_copy_old))
        (iterator.add d2.BUFFER_SIZE
          (iterator.add d2.BUFFER_SIZE position (to_difference_type n_insert))
          (to_difference_type n_copy_old))
      -- Copy new.
      let item := range_begin
      let d4 := d3.std_copy_n item n_copy_new position
      .ok d4 position

/-- The member `erase(erase_position)`. -/
def erase (d : ideque T) (erase_position : Int) : Outcome T Int :=
  let position := erase_position
  if ¬ (d.distance1 position ≤ to_difference_type d.current_size) then .violation d
  else if position = d.begin_index then
    let d1 := d.destroy_element_front
    .ok d1 d1.begin_index
  else if position = iterator.sub d.BUFFER_SIZE d.end_index 1 then
    let d1 := d.destroy_element_back
    .ok d1 d1.end_index
  else
    -- Are we closer to the front?
    if d.distance d.begin_index position < to_difference_type (d.current_size / 2) then
      let d1 := d.std_copy_backward d.begin_index position
        (iterator.add d.BUFFER_SIZE position 1)
      let d2 := d1.destroy_element_front
      .ok d2 (iterator.inc d2.BUFFER_SIZE position)
    else
      let d1 := d.std_copy (iterator.add d.BUFFER_SIZE position 1) d.end_index position
      let d2 := d1.destroy_element_back
      .ok d2 position

/-- The member `erase(range_begin, range_end)`. -/
def erase_range (d : ideque T) (range_begin range_end : Int) : Outcome T Int :=
  if ¬ (d.distance1 range_begin ≤ to_difference_type d.current_size
        ∧ d.distance1 range_end ≤ to_difference_type d.current_size) then .violation d
  else
    let position := range_begin
    -- How many to erase?
    let length := d.std_distance range_begin range_end
    -- At the beginning?
    if position = d.begin_index then
      let d1 := repeat_op destroy_element_front length d
      .ok d1 d1.begin_index
    -- At the end?
    else if position = iterator.sub d.BUFFER_SIZE d.end_index (to_difference_type length) then
      let d1 := repeat_op destroy_element_back length d
      .ok d1 d1.end_index
    else
      -- Are we closer to the front?
      if d.distance d.begin_index position < to_difference_type (d.current_size / 2) then
        -- Move the items.
        let d1 := d.std_copy_backward d.begin_index position
          (iterator.add d.BUFFER_SIZE position (to_difference_type length))
        let d2 := repeat_op destroy_element_front length d1
        .ok d2 (iterator.add d2.BUFFER_SIZE position (to_difference_type length))
      -- Must be closer to the back.
      else
        -- Move the items.
        let d1 := d.std_copy
          (iterator.add d.BUFFER_SIZE position (to_difference_type length)) d.end_index position
        let d2 := repeat_op destroy_element_back length d1
        .ok d2 position

/-- The member `push_back(item)`. -/
def push_back (d : ideque T) (item : T) : Outcome T Unit :=
  if d.full then .violation d else .ok (d.create_element_back item) ()

/-- The member `push_front(item)`. -/
def push_front (d : ideque T) (item : T) : Outcome T Unit :=
  if d.full then .violation d else .ok (d.create_element_front item) ()

/-- The member `push_front()`, which default-constructs the new element (`dflt` is `T()`)
and returns a reference to it, here the slot `_begin.index`. -/
def push_front_default (d : ideque T) (dflt : T) : Outcome T Int :=
  if d.full then .violation d
  else
    let d1 := d.create_element_front_default dflt
    .ok d1 d1.begin_index

/-- The member `pop_back()`. -/
def pop_back (d : ideque T) : Outcome T Unit :=
  if d.empty then .violation d else .ok d.destroy_element_back ()

/-- The member `pop_front()`. -/
def pop_front (d : ideque T) : Outcome T Unit :=
  if !d.empty then .ok d.destroy_element_front () else .ok d ()

/-- The loop `while (current_size > bound) destroy_element_back();`, with `fuel` bounding
the number of iterations; `fuel = current_size` always suffices, since every iteration
lowers `current_size`. -/
def destroy_back_while (bound : Nat) : Nat → ideque T → ideque T
  | 0, d => d
  | fuel + 1, d =>
    if d.current_size > bound then destroy_back_while bound fuel d.destroy_element_back else d

/-- The function `initialise()`. -/
def initialise (d : ideque T) : ideque T :=
  let d1 := destroy_back_while 0 d.current_size d
  { d1 with begin_index := 0, end_index := 0 }

/-- The member `clear()`. -/
def clear (d : ideque T) : ideque T := d.initialise

/-- The loop `while (range_begin != range_end) push_back(*range_begin++);` over the `k`
remaining elements `src j, src (j + 1), …`; a contract violation reported by `push_back`
ends the call. -/
def assign_loop (src : Nat → T) : Nat → Nat → ideque T → Outcome T Unit
  | 0, _, d => .ok d ()
  | k + 1, j, d =>
    match d.push_back (src j) with
    | .ok d1 _ => assign_loop src k (j + 1) d1
    | .violation d1 => .violation d1

/-- The member template `assign(range_begin, range_end)`; the range is
`src 0, …, src (n - 1)`. -/
def assign_range (d : ideque T) (src : Nat → T) (n : Nat) : Outcome T Unit :=
  assign_loop src n 0 d.initialise

/-- The member `assign(n, value)`. -/
def assign_n (d : ideque T) (n : Nat) (value : T) : Outcome T Unit :=
  if ¬ (n ≤ d.MAX_SIZE) then .violation d
  else
    let d1 := d.initialise
    let d2 := { d1 with begin_index := 0, end_index := 0 }
    .ok (repeat_op (fun e => e.create_element_back value) n d2) ()

/-- The member `resize(new_size, value)`. -/
def resize (d : ideque T) (new_size : Nat) (value : T) : Outcome T Unit :=
  if ¬ (new_size ≤ d.MAX_SIZE) then .violation d
  -- Make it smaller?
  else if new_size < d.current_size then
    .ok (destroy_back_while new_size d.current_size d) ()
  -- Make it larger?
  else if new_size > d.current_size then
    let count := (new_size + 18446744073709551616 - d.current_size) % 18446744073709551616
    .ok (repeat_op (fun e => e.create_element_back value) count d) ()
  else .ok d ()

/-! ## Element access -/

/-- The non-const member `at(index)`; the reference it returns is modelled by the element. -/
def at_ (d : ideque T) (index : Nat) : Outcome T T :=
  if ¬ (index < d.current_size) then .violation d
  else .ok d (d.p_buffer (iterator.add d.BUFFER_SIZE d.begin_index (to_difference_type index)))

/-- The const member `at(index)`. -/
def at_const (d : ideque T) (index : Nat) : Outcome T T :=
  if ¬ (index < d.current_size) then .violation d
  else .ok d (d.p_buffer (iterator.add d.BUFFER_SIZE d.begin_index (to_difference_type index)))

/-- The non-const member `operator[](index)`. -/
def subscript (d : ideque T) (index : Nat) : Outcome T T :=
  if ¬ (index < d.current_size) then .violation d
  else .ok d (d.p_buffer (iterator.add d.BUFFER_SIZE d.begin_index (to_difference_type index)))

/-- The const member `operator[](index)`, which has no `sstl_assert`. -/
def subscript_const (d : ideque T) (index : Nat) : Outcome T T :=
  .ok d (d.p_buffer (iterator.add d.BUFFER_SIZE d.begin_index (to_difference_type index)))

/-- The member `front()`. -/
def front (d : ideque T) : T := d.p_buffer d.begin_index

/-- The member `back()`. -/
def back (d : ideque T) : T := d.p_buffer (iterator.sub d.BUFFER_SIZE d.end_index 1)

/-! ## Cursor differences and comparisons -/

/-- The friend `operator ==(lhs, rhs)` of two cursors, which compares the indices. -/
def iterator_eq (lhs rhs : Int) : Bool := decide (lhs = rhs)

/-- The friend `operator !=(lhs, rhs)` of two cursors. -/
def iterator_ne (lhs rhs : Int) : Bool := !iterator_eq lhs rhs

/-- The friend `operator -(lhs, rhs)` of two cursors, which is `distance(rhs, lhs)`. -/
def iterator_minus (d : ideque T) (lhs rhs : Int) : Int := d.distance rhs lhs

/-- The member `operator <(other)` of a cursor, which is `distance(*this, other) > 0`. -/
def iterator_lt (d : ideque T) (index other : Int) : Bool := decide (d.distance index other > 0)

/-! ## Assignment from another deque -/

/-- The deque a `const ideque& other` refers to: another object, or the very deque the
member function is called on (`d = d`, `d.assign(d.begin(), d.end())`). -/
inductive Other (T : Type) where
  | another (other : ideque T)
  | itself

/-- The state of the deque `other` refers to while the deque assigned to is in state `d`. -/
def resolve (d : ideque T) : Other T → ideque T
  | .another other => other
  | .itself => d

/-- The loop `while (range_begin != range_end) push_back(*range_begin++);` of
`assign(range_begin, range_end)` when the range is a cursor range of the deque `other`; the
cursor reads the buffer of `other` as it is at that moment.  A contract violation reported
by `push_back` ends the call, and the result is `none` when the fuel runs out before
`range_begin` meets `range_end`. -/
def assign_cursor_loop (other : Other T) (range_end : Int) :
    Nat → Int → ideque T → Option (Outcome T Unit)
  | 0, _, _ => none
  | fuel + 1, range_begin, d =>
    if range_begin = range_end then some (.ok d ())
    else
      match d.push_back ((d.resolve other).p_buffer range_begin) with
      | .ok d1 _ =>
        assign_cursor_loop other range_end fuel
          (iterator.inc (d.resolve other).BUFFER_SIZE range_begin) d1
      | .violation d1 => some (.violation d1)

/-- The call `assign(other.begin(), other.end())`: the two cursors are taken from `other`
before `assign` runs `initialise()`.  A cursor of `other` cycles through at most
`BUFFER_SIZE` slots, so `BUFFER_SIZE + 1` tests decide the loop. -/
def assign_from (d : ideque T) (other : Other T) : Option (Outcome T Unit) :=
  assign_cursor_loop other (d.resolve other).end_index ((d.resolve other).BUFFER_SIZE + 1)
    (d.resolve other).begin_index d.initialise

/-- The copy assignment `operator =(other)`, which has no test for `this == &other`. -/
def operator_assign (d : ideque T) (other : Other T) : Option (Outcome T Unit) :=
  d.assign_from other

/-! ## Comparison operators -/

/-- Modelled from the spec: the standard algorithm `std::equal(first1, last1, first2)` of
the C++ library, which the repository calls but does not contain (the spec's element-wise
comparison); it walks both cursors and answers `false` at the first pair of unequal
elements, `true` when `first1` meets `last1`.  The result is `none` when the fuel runs out
first. -/
def std_equal [DecidableEq T] (lhs rhs : ideque T) (last1 : Int) : Nat → Int → Int → Option Bool
  | 0, _, _ => none
  | fuel + 1, first1, first2 =>
    if first1 = last1 then some true
    else if lhs.p_buffer first1 = rhs.p_buffer first2 then
      std_equal lhs rhs last1 fuel (iterator.inc lhs.BUFFER_SIZE first1)
        (iterator.inc rhs.BUFFER_SIZE first2)
    else some false

/-- The free function `operator ==(lhs, rhs)`. -/
def operator_eq [DecidableEq T] (lhs rhs : ideque T) : Option Bool :=
  if lhs.size = rhs.size then
    std_equal lhs rhs lhs.end_index (lhs.BUFFER_SIZE + 1) lhs.begin_index rhs.begin_index
  else some false

/-- The free function `operator !=(lhs, rhs)`. -/
def operator_ne [DecidableEq T] (lhs rhs : ideque T) : Option Bool :=
  (operator_eq lhs rhs).map (fun b => !b)

/-- Modelled from the spec: the standard algorithm
`std::lexicographical_compare(first1, last1, first2, last2, comp)` of the C++ library,
which the repository calls but does not contain (the spec's lexicographic ordering); while
both ranges have elements it answers `true` if `comp(*first1, *first2)`, `false` if
`comp(*first2, *first1)`, and otherwise steps both cursors; when a range is used up it
answers whether the first range, and not the second, is exhausted.  The result is `none`
when the fuel runs out first. -/
def std_lexicographical_compare (comp : T → T → Bool) (lhs rhs : ideque T)
    (last1 last2 : Int) : Nat → Int → Int → Option Bool
  | 0, _, _ => none
  | fuel + 1, first1, first2 =>
    if first1 ≠ last1 ∧ first2 ≠ last2 then
      if comp (lhs.p_buffer first1) (rhs.p_buffer first2) then some true
      else if comp (rhs.p_buffer first2) (lhs.p_buffer first1) then some false
      else
        std_lexicographical_compare comp lhs rhs last1 last2 fuel
          (iterator.inc lhs.BUFFER_SIZE first1) (iterator.inc rhs.BUFFER_SIZE first2)
    else some (decide (first1 = last1) && decide (first2 ≠ last2))

/-- The free function `operator <(lhs, rhs)`: `std::lexicographical_compare` with the
default comparison `<`. -/
def operator_lt [LinearOrder T] (lhs rhs : ideque T) : Option Bool :=
  std_lexicographical_compare (fun a b => decide (a < b)) lhs rhs lhs.end_index rhs.end_index
    (lhs.BUFFER_SIZE + rhs.BUFFER_SIZE + 1) lhs.begin_index rhs.begin_index

/-- The free function `operator >(lhs, rhs)`: `std::lexicographical_compare` with the
comparison `std::greater<T>()`. -/
def operator_gt [LinearOrder T] (lhs rhs : ideque T) : Option Bool :=
  std_lexicographical_compare (fun a b => decide (a > b)) lhs rhs lhs.end_index rhs.end_index
    (lhs.BUFFER_SIZE + rhs.BUFFER_SIZE + 1) lhs.begin_index rhs.begin_index

/-! ## Sequences of end operations -/

/-- A call of one of the four operations on the ends of the deque. -/
inductive EndOp (T : Type) where
  | push_back (x : T)
  | push_front (x : T)
  | pop_back
  | pop_front

/-- Run the call on the deque. -/
def EndOp.apply : EndOp T → ideque T → Outcome T Unit
  | .push_back x, d => d.push_back x
  | .push_front x, d => d.push_front x
  | .pop_back, d => d.pop_back
  | .pop_front, d => d.pop_front

/-- Run the calls one after the other, each on the deque the previous one left. -/
def run_ops (d : ideque T) : List (EndOp T) → ideque T
  | [] => d
  | op :: ops => run_ops (op.apply d).deque ops

/-- Whether some call of the sequence reports a contract violation. -/
def run_violates (d : ideque T) : List (EndOp T) → Bool
  | [] => false
  | op :: ops => (op.apply d).violated || run_violates (op.apply d).deque ops

/-! ## Iteration -/

/-- The loop `for (it = …; it != end(); ++it)` collecting `*it`; `none` when the fuel runs
out before the cursor meets `end()`. -/
def iterate (d : ideque T) : Nat → Int → Option (List T)
  | 0, _ => none
  | fuel + 1, index =>
    if index = d.end_index then some []
    else (iterate d fuel (iterator.inc d.BUFFER_SIZE index)).map (fun l => d.p_buffer index :: l)

/-- The iteration sequence: the elements met going from `begin()` to `end()`.  A cursor
cycles through at most `BUFFER_SIZE` slots, so `BUFFER_SIZE + 1` tests decide the loop. -/
def to_list (d : ideque T) : Option (List T) :=
  iterate d (d.BUFFER_SIZE + 1) d.begin_index

/-! ## Specification vocabulary -/

/-- The data-model invariant of the deque core: `BUFFER_SIZE = capacity + 1`, both cursors
address a slot of the buffer, the size is within the capacity, and `size` forward steps from
`begin` lead to `end`. -/
def Inv (d : ideque T) : Prop :=
  d.BUFFER_SIZE = d.MAX_SIZE + 1 ∧
  0 ≤ d.begin_index ∧ d.begin_index < d.BUFFER_SIZE ∧
  0 ≤ d.end_index ∧ d.end_index < d.BUFFER_SIZE ∧
  d.current_size ≤ d.MAX_SIZE ∧
  d.end_index = (d.begin_index + d.current_size) % (d.BUFFER_SIZE : Int)

instance (d : ideque T) : Decidable (Inv d) := by
  unfold Inv; infer_instance

/-- The buffer fits the machine types: every slot index is a `difference_type` and every
count a `size_t`. -/
def Representable (d : ideque T) : Prop := d.BUFFER_SIZE < 9223372036854775808

instance (d : ideque T) : Decidable (Representable d) := by
  unfold Representable; infer_instance

/-- The cursor at logical index `i`, that is `begin() + i`. -/
def cursor (d : ideque T) (i : Nat) : Int :=
  iterator.add d.BUFFER_SIZE d.begin_index (to_difference_type i)

/-- The elements in the `current_size` slots that start at `begin`. -/
def contents (d : ideque T) : List T :=
  (List.range d.current_size).map
    (fun (k : Nat) => d.p_buffer (slot d.BUFFER_SIZE d.begin_index (k : Int)))

/-- The input range `src 0, …, src (n - 1)` of a range form, as a list. -/
def range_list (src : Nat → T) (n : Nat) : List T := (List.range n).map src

/-- The postcondition of an insertion of the elements `r` at logical index `i`: the deque
stays well formed, the capacity and the buffer are the same, the size has grown by the
number of inserted elements, the contents are the old ones with `r` spliced in at `i`, and
the returned cursor `pos` is `begin() + i`, at distance `i` from `begin()`, and addresses
the first inserted element. -/
def InsertPost (d d' : ideque T) (pos : Int) (i : Nat) (r : List T) : Prop :=
  Inv d' ∧ d'.MAX_SIZE = d.MAX_SIZE ∧ d'.BUFFER_SIZE = d.BUFFER_SIZE ∧
  d'.current_size = d.current_size + r.length ∧
  contents d' = (contents d).take i ++ r ++ (contents d).drop i ∧
  pos = d'.cursor i ∧ d'.distance1 pos = i ∧
  (∀ x, r.head? = some x → d'.p_buffer pos = x)

/-- The postcondition of an erasure of `len` elements from logical index `i` on: the deque
stays well formed, the capacity and the buffer are the same, the size has shrunk by `len`,
the contents are the old ones without the erased run, and the returned cursor `pos` is
`begin() + i`, at distance `i` from `begin()`; it is `end()` exactly when the erased run
reached the old end. -/
def ErasePost (d d' : ideque T) (pos : Int) (i len : Nat) : Prop :=
  Inv d' ∧ d'.MAX_SIZE = d.MAX_SIZE ∧ d'.BUFFER_SIZE = d.BUFFER_SIZE ∧
  d'.current_size + len = d.current_size ∧
  contents d' = (contents d).take i ++ (contents d).drop (i + len) ∧
  pos = d'.cursor i ∧ d'.distance1 pos = i ∧
  (pos = d'.end_index ↔ i + len = d.current_size)

/-- A sample deque of capacity 5: `push_back(1)`, `push_back(2)`, `push_back(3)` and
`push_front(0)` applied to the empty deque leave `begin` at slot 5, `end` at slot 3 and the
elements 0, 1, 2, 3 in slots 5, 0, 1, 2. -/
def sample : ideque Nat :=
  { MAX_SIZE := 5, BUFFER_SIZE := 6, current_size := 4, begin_index := 5, end_index := 3,
    p_buffer := fun j => if j = 5 then 0 else (j + 1).toNat }

/-- An empty deque of capacity 3 whose cursors both sit at slot 2, as left by two
`push_back` calls followed by two `pop_front` calls on the freshly initialised deque. -/
def drained : ideque Nat :=
  { MAX_SIZE := 3, BUFFER_SIZE := 4, current_size := 0, begin_index := 2, end_index := 2,
    p_buffer := fun j => (j + 1).toNat }

/-- A full deque of capacity 2 holding 5, 6 in slots 1, 2. -/
def filled : ideque Nat :=
  { MAX_SIZE := 2, BUFFER_SIZE := 3, current_size := 2, begin_index := 1, end_index := 0,
    p_buffer := fun j => (j + 4).toNat }

/-- The loop `for (x : xs) push_back(x);` of a queue being filled. -/
def push_all (d : ideque T) : List T → ideque T
  | [] => d
  | x :: xs => push_all (d.push_back x).deque xs

/-- The loop that reads `front()` and then calls `pop_front()`, `k` times: the values read,
in order, and the deque left. -/
def drain : Nat → ideque T → List T × ideque T
  | 0, d => ([], d)
  | k + 1, d => (d.front :: (drain k (d.pop_front).deque).1, (drain k (d.pop_front).deque).2)

/-- The plain-list counterpart of a call: append, prepend, drop the last element, drop the
first element. -/
def EndOp.on_list : EndOp T → List T → List T
  | .push_back x, l => l ++ [x]
  | .push_front x, l => [x] ++ l
  | .pop_back, l => l.dropLast
  | .pop_front, l => l.tail

/-- The plain list after the calls, one after the other. -/
def list_ops (l : List T) : List (EndOp T) → List T
  | [] => l
  | op :: ops => list_ops (op.on_list l) ops

/-- Whether the call is allowed on a deque of capacity `cap` holding `l`: no push when
full, no `pop_back` when empty. -/
def EndOp.allowed (cap : Nat) : EndOp T → List T → Bool
  | .push_back _, l => decide (l.length < cap)
  | .push_front _, l => decide (l.length < cap)
  | .pop_back, l => decide (0 < l.length)
  | .pop_front, _ => true

/-- Whether every call of the sequence is allowed at the moment it is issued. -/
def allowed_ops (cap : Nat) (l : List T) : List (EndOp T) → Bool
  | [] => true
  | op :: ops => op.allowed cap l && allowed_ops cap (op.on_list l) ops

/-- The deque moves its front when `begin` changes and `end` stays. -/
def shifts_front (d d' : ideque T) : Prop :=
  d'.begin_index ≠ d.begin_index ∧ d'.end_index = d.end_index

instance (d d' : ideque T) : Decidable (shifts_front d d') := by
  unfold shifts_front; infer_instance

/-- The deque moves its back when `end` changes and `begin` stays. -/
def shifts_back (d d' : ideque T) : Prop :=
  d'.end_index ≠ d.end_index ∧ d'.begin_index = d.begin_index

instance (d d' : ideque T) : Decidable (shifts_back d d') := by
  unfold shifts_back; infer_instance

/-- The first step of the concrete scenario: `push_back(1)`, `push_back(2)`,
`push_back(3)`, `push_front(0)` on the empty deque of capacity 5. -/
def scenario_pushed : ideque Nat :=
  (((((init 5 (fun _ => 0)).push_back 1).deque.push_back 2).deque.push_back 3).deque.push_front
    0).deque

/-- The second step of the scenario: `insert(begin() + 2, 99)`. -/
def scenario_inserted : Outcome Nat Int :=
  scenario_pushed.insert (scenario_pushed.cursor 2) (.object 99)

/-- The third step of the scenario: a further `push_back`. -/
def scenario_overfull : Outcome Nat Unit :=
  scenario_inserted.deque.push_back 7

/-- The last step of the scenario: `erase(begin() + 1)`. -/
def scenario_erased : Outcome Nat Int :=
  scenario_overfull.deque.erase (scenario_overfull.deque.cursor 1)

/-- A deque of capacity 5 holding 0, 1, 2 in slots 5, 0, 1 (the deque `sample` after
`pop_back()`). -/
def trio : ideque Nat :=
  { MAX_SIZE := 5, BUFFER_SIZE := 6, current_size := 3, begin_index := 5, end_index := 2,
    p_buffer := fun j => if j = 5 then 0 else (j + 1).toNat }

/-! ## Slot lifetimes -/

/-- The lifetime state of the slots: `live j` tells whether slot `j` holds a constructed
object, and `sound` is false once a placement construction has targeted a live slot or an
assignment an uninitialized one. -/
structure Life where
  /-- Whether the slot holds a constructed object. -/
  live : Int → Bool
  /-- Whether every construction and assignment so far found its target in the right state. -/
  sound : Bool

/-- A placement construction `new (&p_buffer[j]) T(…)`: the slot must be uninitialized and
becomes live. -/
def Life.construct (l : Life) (j : Int) : Life :=
  { live := store l.live j true, sound := l.sound && !l.live j }

/-- An assignment `p_buffer[j] = …`: the slot must be live and stays live. -/
def Life.assign (l : Life) (j : Int) : Life :=
  { live := l.live, sound := l.sound && l.live j }

/-- A deque together with the lifetime state of its slots. -/
structure Tracked (T : Type) where
  /-- The deque. -/
  d : ideque T
  /-- The lifetime state of its slots. -/
  life : Life

/-- The function template `create_element_front(Args&&...)` with the lifetime of the slot it
constructs into, the one before `_begin`. -/
def Tracked.create_element_front (t : Tracked T) (value : T) : Tracked T :=
  { d := t.d.create_element_front value,
    life := t.life.construct (iterator.dec t.d.BUFFER_SIZE t.d.begin_index) }

/-- The function template `create_element_back(Args&&...)` with the lifetime of the slot it
constructs into, the one at `_end`. -/
def Tracked.create_element_back (t : Tracked T) (value : T) : Tracked T :=
  { d := t.d.create_element_back value, life := t.life.construct t.d.end_index }

/-- A counted `for` loop whose body is `f`, on a tracked deque. -/
def Tracked.repeat_op (f : Tracked T → Tracked T) : Nat → Tracked T → Tracked T
  | 0, t => t
  | k + 1, t => Tracked.repeat_op f k (f t)

/-- The loop `for (i = 0; i < k; ++i) create_element_back(*item++)`, tracked. -/
def Tracked.create_back_from : Nat → Tracked T → TIterator T → Tracked T
  | 0, t, _ => t
  | k + 1, t, src =>
    Tracked.create_back_from k (t.create_element_back (t.d.deref src)) (t.d.next src)

/-- The loop `for (i = 0; i < k; ++i) create_element_front(*from--)`, tracked. -/
def Tracked.create_front_from : Nat → Tracked T → Int → Tracked T
  | 0, t, _ => t
  | k + 1, t, src =>
    Tracked.create_front_from k (t.create_element_front (t.d.p_buffer src))
      (iterator.dec t.d.BUFFER_SIZE src)

/-- The body of the `do … while (n-- != 0)` loop of `copy_range_front`, run `k` times,
tracked: each run constructs into the slot at `item`. -/
def Tracked.copy_range_front_loop : Nat → Tracked T → Int → TIterator T → Tracked T
  | 0, t, _, _ => t
  | k + 1, t, item, src =>
    Tracked.copy_range_front_loop k
      { d := { t.d with p_buffer := store t.d.p_buffer item (t.d.deref src),
                        current_size := size_succ t.d.current_size },
        life := t.life.construct item }
      (iterator.inc t.d.BUFFER_SIZE item) (t.d.next src)

/-- The function template `copy_range_front(n, from)`, tracked. -/
def Tracked.copy_range_front (t : Tracked T) (n : Nat) (src : TIterator T) : Tracked T :=
  if n = 0 then t
  else
    let b1 := if !t.d.empty then iterator.dec t.d.BUFFER_SIZE t.d.begin_index
      else t.d.begin_index
    let n1 := if !t.d.empty then size_pred n else n
    let b2 := if n1 > 0 then iterator.sub t.d.BUFFER_SIZE b1 (to_difference_type n1) else b1
    Tracked.copy_range_front_loop (n1 + 1)
      { d := { t.d with begin_index := b2 }, life := t.life } b2 src

/-- The assignment loop `*dst++ = *src++`, run `k` times, tracked. -/
def Tracked.copy_loop : Nat → Tracked T → TIterator T → Int → Tracked T
  | 0, t, _, _ => t
  | k + 1, t, src, dst =>
    Tracked.copy_loop k
      { d := { t.d with p_buffer := store t.d.p_buffer dst (t.d.deref src) },
        life := t.life.assign dst }
      (t.d.next src) (iterator.inc t.d.BUFFER_SIZE dst)

/-- The assignment loop `*--d_last = *--last`, run `k` times, tracked. -/
def Tracked.copy_backward_loop : Nat → Tracked T → Int → Int → Tracked T
  | 0, t, _, _ => t
  | k + 1, t, last, d_last =>
    let l := iterator.dec t.d.BUFFER_SIZE last
    let w := iterator.dec t.d.BUFFER_SIZE d_last
    Tracked.copy_backward_loop k
      { d := { t.d with p_buffer := store t.d.p_buffer w (t.d.p_buffer l) },
        life := t.life.assign w } l w

/-- The assignment loop `*dst++ = value`, run `k` times, tracked. -/
def Tracked.fill_loop : Nat → Tracked T → Int → ValueRef T → Tracked T
  | 0, t, _, _ => t
  | k + 1, t, dst, value =>
    Tracked.fill_loop k
      { d := { t.d with p_buffer := store t.d.p_buffer dst (t.d.read value) },
        life := t.life.assign dst }
      (iterator.inc t.d.BUFFER_SIZE dst) value

/-- The algorithm `std::copy_backward(first, last, d_last)` on cursors of the deque,
tracked. -/
def Tracked.std_copy_backward (t : Tracked T) (first last d_last : Int) : Tracked T :=
  Tracked.copy_backward_loop (t.d.distance first last).toNat t last d_last

/-- The algorithm `std::copy_n(first, count, result)` into the deque, tracked. -/
def Tracked.std_copy_n (t : Tracked T) (first : TIterator T) (count : Nat) (result : Int) :
    Tracked T :=
  Tracked.copy_loop count t first result

/-- The algorithm `std::fill_n(first, count, value)` on a cursor of the deque, tracked. -/
def Tracked.std_fill_n (t : Tracked T) (first : Int) (count : Nat) (value : ValueRef T) :
    Tracked T :=
  Tracked.fill_loop count t first value

/-- The member `insert(insert_position, n, value)`, tracked; a contract violation leaves
the tracked deque as it is. -/
def Tracked.insert_n (t : Tracked T) (insert_position : Int) (n : Nat)
    (value : ValueRef T) :
    Tracked T :=
  if ¬ ((t.d.current_size + n) % 18446744073709551616 ≤ t.d.MAX_SIZE) then t
  else if insert_position = t.d.begin_index then
    Tracked.repeat_op (fun e => e.create_element_front (e.d.read value)) n t
  else if insert_position = t.d.end_index then
    Tracked.repeat_op (fun e => e.create_element_back (e.d.read value)) n t
  else
    let position := insert_position
    -- Are we closer to the front?
    if t.d.distance t.d.begin_index insert_position
        ≤ to_difference_type (t.d.current_size / 2) then
      let n_insert := n
      let n_move := t.d.std_distance t.d.begin_index position
      let n_create_copy := min n_insert n_move
      let n_create_new := if n_insert > n_create_copy then n_insert - n_create_copy else 0
      let n_copy_new := if n_insert > n_create_new then n_insert - n_create_new else 0
      let n_copy_old := n_move - n_create_copy
      -- Remember the original start.
      let src := iterator.sub t.d.BUFFER_SIZE
        (iterator.add t.d.BUFFER_SIZE t.d.begin_index (to_difference_type n_create_copy)) 1
      -- Create new.
      let t1 := Tracked.repeat_op (fun e => e.create_element_front (e.d.read value))
        n_create_new t
      -- Create copy.
      let t2 := Tracked.create_front_from n_create_copy t1 src
      -- Copy old.
      let src := iterator.sub t2.d.BUFFER_SIZE position (to_difference_type n_copy_old)
      let dst := iterator.add t2.d.BUFFER_SIZE t2.d.begin_index
        (to_difference_type n_create_copy)
      let t3 := t2.std_copy_n (.own src) n_copy_old dst
      -- Copy new.
      let dst := iterator.sub t3.d.BUFFER_SIZE position (to_difference_type n_create_copy)
      t3.std_fill_n dst n_copy_new value
    else
      let n_insert := n
      let n_move := t.d.std_distance position t.d.end_index
      let n_create_copy := min n_insert n_move
      let n_create_new := if n_insert > n_create_copy then n_insert - n_create_copy else 0
      let n_copy_new := if n_insert > n_create_new then n_insert - n_create_new else 0
      let n_copy_old := n_move - n_create_copy
      -- Create new.
      let t1 := Tracked.repeat_op (fun e => e.create_element_back (e.d.read value))
        n_create_new t
      -- Create copy.
      let src := iterator.add t1.d.BUFFER_SIZE position (to_difference_type n_copy_old)
      let t2 := Tracked.create_back_from n_create_copy t1 (.own src)
      -- Copy old.
      let t3 := t2.std_copy_backward position
        (iterator.add t2.d.BUFFER_SIZE position (to_difference_type n_copy_old))
        (iterator.add t2.d.BUFFER_SIZE
          (iterator.add t2.d.BUFFER_SIZE position (to_difference_type n_insert))
          (to_difference_type n_copy_old))
      -- Copy new.
      t3.std_fill_n position n_copy_new value

/-- The member template `insert(insert_position, range_begin, range_end)`, tracked; the
range is `src 0, …, src (n - 1)`, and a contract violation leaves the tracked deque as it
is. -/
def Tracked.insert_range (t : Tracked T) (insert_position : Int) (src : Nat → T) (n : Nat) :
    Tracked T :=
  let range_begin : TIterator T := .range src 0
  if ¬ ((t.d.current_size + n) % 18446744073709551616 ≤ t.d.MAX_SIZE) then t
  else if insert_position = t.d.begin_index then
    t.copy_range_front n range_begin
  else if insert_position = t.d.end_index then
    Tracked.create_back_from n t range_begin
  else
    let position := insert_position
    -- Are we closer to the front?
    if t.d.distance t.d.begin_index insert_position
        < to_difference_type (t.d.current_size / 2) then
      let n_insert := n
      let n_move := t.d.std_distance t.d.begin_index position
      let n_create_copy := min n_insert n_move
      let n_create_new := if n_insert > n_create_copy then n_insert - n_create_copy else 0
      let n_copy_new := if n_insert > n_create_new then n_insert - n_create_new else 0
      let n_copy_old := n_move - n_create_copy
      -- Create new.
      let t1 := t.copy_range_front n_create_new range_begin
      -- Create copy.
      let t2 := t1.copy_range_front n_create_copy
        (.own (iterator.add t1.d.BUFFER_SIZE t1.d.begin_index
          (to_difference_type n_create_new)))
      -- Copy old.
      let from_ := iterator.sub t2.d.BUFFER_SIZE position (to_difference_type n_copy_old)
      let dst := iterator.add t2.d.BUFFER_SIZE t2.d.begin_index
        (to_difference_type n_create_copy)
      let t3 := t2.std_copy_n (.own from_) n_copy_old dst
      -- Copy new.
      let dst := iterator.sub t3.d.BUFFER_SIZE position (to_difference_type n_create_copy)
      let range_begin := t3.d.advance range_begin n_create_new
      t3.std_copy_n range_begin n_copy_new dst
    else
      let n_insert := n
      let n_move := t.d.std_distance position t.d.end_index
      let n_create_copy := min n_insert n_move
      let n_create_new := if n_insert > n_create_copy then n_insert - n_create_copy else 0
      let n_copy_new := if n_insert > n_create_new then n_insert - n_create_new else 0
      let n_copy_old := n_move - n_create_copy
      -- Create new.
      let item := t.d.advance range_begin (n - n_create_new)
      let t1 := Tracked.create_back_from n_create_new t item
      -- Create copy.
      let from_ := iterator.add t1.d.BUFFER_SIZE position (to_difference_type n_copy_old)
      let t2 := Tracked.create_back_from n_create_copy t1 (.own from_)
      -- Copy old.
      let t3 := t2.std_copy_backward position
        (iterator.add t2.d.BUFFER_SIZE position (to_difference_type n_copy_old))
        (iterator.add t2.d.BUFFER_SIZE
          (iterator.add t2.d.BUFFER_SIZE position (to_difference_type n_insert))
          (to_difference_type n_copy_old))
      -- Copy new.
      let item := range_begin
      t3.std_copy_n item n_copy_new position

/-- The lifetime effect of `k` placement constructions into consecutive slots, going
forwards from `j`. -/
def Life.construct_up (B : Nat) : Nat → Life → Int → Life
  | 0, l, _ => l
  | k + 1, l, j => Life.construct_up B k (l.construct j) (iterator.inc B j)

/-- The lifetime effect of `k` placement constructions into consecutive slots, going
backwards from the slot before `j`. -/
def Life.construct_down (B : Nat) : Nat → Life → Int → Life
  | 0, l, _ => l
  | k + 1, l, j => Life.construct_down B k (l.construct (iterator.dec B j)) (iterator.dec B j)

/-- The lifetime effect of `k` assignments to consecutive slots, going forwards from `j`. -/
def Life.assign_up (B : Nat) : Nat → Life → Int → Life
  | 0, l, _ => l
  | k + 1, l, j => Life.assign_up B k (l.assign j) (iterator.inc B j)

/-- The lifetime effect of `k` assignments to consecutive slots, going backwards from the
slot before `j`. -/
def Life.assign_down (B : Nat) : Nat → Life → Int → Life
  | 0, l, _ => l
  | k + 1, l, j => Life.assign_down B k (l.assign (iterator.dec B j)) (iterator.dec B j)

/-- The live slots are exactly the `size` slots that start at `begin`. -/
def LiveWindow (d : ideque T) (l : Life) : Prop :=
  ∀ k : Nat, k < d.BUFFER_SIZE →
    (l.live (slot d.BUFFER_SIZE d.begin_index k) = true ↔ k < d.current_size)

instance (d : ideque T) (l : Life) : Decidable (LiveWindow d l) := by
  unfold LiveWindow; infer_instance

/-- The lifetime state in which exactly the slots of `d` from `begin` on, `size` of them,
are live. -/
def Life.of (d : ideque T) : Life :=
  { live := fun j =>
      decide ((j - d.begin_index) % (d.BUFFER_SIZE : Int) < (d.current_size : Int)),
    sound := true }

end ideque

/-! ## Machine integers and slots -/

theorem to_difference_type_of_lt {n : Nat} (h : n < 9223372036854775808) :
    to_difference_type n = (n : Int) := by
  unfold to_difference_type
  have h1 : n % 18446744073709551616 = n := Nat.mod_eq_of_lt (by omega)
  rw [h1, if_pos h]

theorem to_size_t_of_nat {n : Nat} (h : n < 9223372036854775808) :
    to_size_t (n : Int) = n := by
  unfold to_size_t
  omega

theorem to_size_t_of_nonneg {x : Int} (h0 : 0 ≤ x) (h : x < 18446744073709551616) :
    ((to_size_t x : Nat) : Int) = x := by
  unfold to_size_t
  omega

theorem size_succ_of_lt {n : Nat} (h : n < 9223372036854775808) : size_succ n = n + 1 := by
  unfold size_succ
  omega

theorem size_pred_of_pos {n : Nat} (h0 : 0 < n) (h : n < 9223372036854775808) :
    size_pred n = n - 1 := by
  unfold size_pred
  omega

theorem emod_shift {B : Nat} {r k : Int} (h0 : 0 ≤ r) (h1 : r < B) (hk : -(B : Int) ≤ k)
    (hk2 : k ≤ B) :
    (r + k) % (B : Int) =
      if r + k < 0 then r + k + B else if r + k < B then r + k else r + k - B := by
  split_ifs with h2 h3
  · rw [← Int.add_emod_self (a := r + k) (b := (B : Int))]
    exact Int.emod_eq_of_lt (by omega) (by omega)
  · exact Int.emod_eq_of_lt (by omega) h3
  · have e : r + k = (r + k - B) + B := by ring
    rw [e, Int.add_emod_self]
    have e2 : r + k - ↑B + ↑B - ↑B = r + k - B := by ring
    rw [e2]
    exact Int.emod_eq_of_lt (by omega) (by omega)

theorem slot_nonneg {B : Nat} (hB : 0 < B) (b x : Int) : 0 ≤ slot B b x :=
  Int.emod_nonneg _ (by omega)

theorem slot_lt {B : Nat} (hB : 0 < B) (b x : Int) : slot B b x < B :=
  Int.emod_lt_of_pos _ (by omega)

theorem slot_zero {B : Nat} {b : Int} (h0 : 0 ≤ b) (h1 : b < B) : slot B b 0 = b := by
  unfold slot
  rw [Int.add_zero]
  exact Int.emod_eq_of_lt h0 h1

theorem slot_slot (B : Nat) (b x y : Int) : slot B (slot B b x) y = slot B b (x + y) := by
  unfold slot
  rw [Int.emod_add_emod, Int.add_assoc]

theorem slot_step {B : Nat} (hB : 0 < B) (b x k : Int) (hk : -(B : Int) ≤ k) (hk2 : k ≤ B) :
    slot B b (x + k) =
      if slot B b x + k < 0 then slot B b x + k + B
      else if slot B b x + k < B then slot B b x + k else slot B b x + k - B := by
  have h := emod_shift (slot_nonneg hB b x) (slot_lt hB b x) hk hk2
  rw [← h]
  unfold slot
  rw [Int.emod_add_emod, Int.add_assoc]

theorem slot_inc {B : Nat} (hB : 0 < B) (b x : Int) :
    iterator.inc B (slot B b x) = slot B b (x + 1) := by
  have h := slot_step hB b x 1 (by omega) (by omega)
  have h0 := slot_nonneg hB b x
  have h1 := slot_lt hB b x
  unfold iterator.inc
  rw [h]
  split_ifs <;> omega

theorem slot_dec {B : Nat} (hB : 0 < B) (b x : Int) :
    iterator.dec B (slot B b x) = slot B b (x - 1) := by
  have h := slot_step hB b x (-1) (by omega) (by omega)
  have h0 := slot_nonneg hB b x
  have h1 := slot_lt hB b x
  have e : x - 1 = x + -1 := by ring
  unfold iterator.dec
  rw [e, h]
  split_ifs <;> omega

theorem slot_add {B : Nat} (hB : 0 < B) (hR : B < 9223372036854775808) (b x k : Int)
    (hk : -(B : Int) ≤ k) (hk2 : k ≤ B) :
    iterator.add B (slot B b x) k = slot B b (x + k) := by
  have h := slot_step hB b x k hk hk2
  have h0 := slot_nonneg hB b x
  have h1 := slot_lt hB b x
  unfold iterator.add
  rw [h]
  by_cases hp : k > 0
  · have hc := to_size_t_of_nonneg (x := slot B b x + k) (by omega) (by omega)
    simp only [hp, if_true, hc]
    split_ifs <;> omega
  · by_cases hn : k < 0
    · simp only [hp, hn, if_true, if_false]
      split_ifs <;> omega
    · have hz : k = 0 := by omega
      subst hz
      simp only [hp, hn, if_false]
      split_ifs <;> omega

theorem slot_sub {B : Nat} (hB : 0 < B) (hR : B < 9223372036854775808) (b x k : Int)
    (hk : -(B : Int) ≤ k) (hk2 : k ≤ B) :
    iterator.sub B (slot B b x) k = slot B b (x - k) := by
  have h := slot_step hB b x (-k) (by omega) (by omega)
  have h0 := slot_nonneg hB b x
  have h1 := slot_lt hB b x
  have e : x - k = x + -k := by ring
  unfold iterator.sub
  rw [e, h]
  by_cases hp : k > 0
  · simp only [hp, if_true]
    split_ifs <;> omega
  · by_cases hn : k < 0
    · have hc := to_size_t_of_nonneg (x := slot B b x + -k) (by omega) (by omega)
      simp only [hp, hn, if_true, if_false, hc]
      split_ifs <;> omega
    · have hz : k = 0 := by omega
      subst hz
      simp only [hp, hn, if_false]
      split_ifs <;> omega

theorem slot_inj {B : Nat} (b x y : Int) (h1 : x - y < B) (h2 : y - x < B)
    (h : slot B b x = slot B b y) : x = y := by
  unfold slot at h
  rw [Int.emod_eq_emod_iff_emod_sub_eq_zero] at h
  have hd : (B : Int) ∣ (b + x - (b + y)) := Int.dvd_of_emod_eq_zero h
  have hz : b + x - (b + y) = 0 := by
    apply Int.eq_zero_of_abs_lt_dvd hd
    rw [abs_lt]
    constructor <;> omega
  omega

theorem slot_congr {B : Nat} {b x y : Int} (h : x = y) : slot B b x = slot B b y := by
  rw [h]

theorem app_slot_congr {T : Type} {B : Nat} {b x y : Int} (buf : Int → T) (h : x = y) :
    buf (slot B b x) = buf (slot B b y) := by
  rw [h]

theorem slot_eq_iff {B : Nat} (b x y : Int) (h1 : x - y < B) (h2 : y - x < B) :
    slot B b x = slot B b y ↔ x = y :=
  ⟨slot_inj b x y h1 h2, fun h => by rw [h]⟩

theorem store_slot {T : Type} {B : Nat} (buf : Int → T) (b x y : Int) (v : T)
    (h1 : x - y < B) (h2 : y - x < B) :
    store buf (slot B b x) v (slot B b y) = if y = x then v else buf (slot B b y) := by
  unfold store
  by_cases h : y = x
  · subst h; simp
  · have hne : slot B b y ≠ slot B b x := fun e => h (slot_inj b y x h2 h1 e)
    simp [h, hne]

/-! ## Lists given index by index -/

theorem map_range_getElem? {T : Type} (f : Nat → T) (n k : Nat) :
    ((List.range n).map f)[k]? = if k < n then some (f k) else none := by
  rw [List.getElem?_map]
  by_cases h : k < n
  · rw [List.getElem?_range h, if_pos h]
    rfl
  · rw [if_neg h, List.getElem?_eq_none (by simpa using h)]
    rfl

theorem splice_getElem? {T : Type} (s r : List T) (i k : Nat) (hi : i ≤ s.length) :
    (s.take i ++ r ++ s.drop i)[k]? =
      if k < i then s[k]? else if k < i + r.length then r[k - i]? else s[k - r.length]? := by
  rw [List.append_assoc, List.getElem?_append, List.length_take, Nat.min_eq_left hi,
    List.getElem?_take, List.getElem?_append, List.getElem?_drop]
  by_cases h1 : k < i
  · simp only [h1, if_true]
  · simp only [h1, if_false]
    by_cases h2 : k < i + r.length
    · have h3 : k - i < r.length := by omega
      simp only [h2, h3, if_true]
    · have h3 : ¬ (k - i < r.length) := by omega
      have h4 : i + (k - i - r.length) = k - r.length := by omega
      simp only [h2, h3, if_false, h4]

theorem cut_getElem? {T : Type} (s : List T) (i j k : Nat) (hi : i ≤ s.length) :
    (s.take i ++ s.drop j)[k]? = if k < i then s[k]? else s[j + (k - i)]? := by
  rw [List.getElem?_append, List.length_take, Nat.min_eq_left hi, List.getElem?_take,
    List.getElem?_drop]
  by_cases h1 : k < i
  · simp only [h1, if_true]
  · simp only [h1, if_false]

namespace ideque

variable {T : Type}

/-! ## Well-formed deques -/

theorem Inv.buffer_pos {d : ideque T} (h : Inv d) : 0 < d.BUFFER_SIZE := by
  obtain ⟨h1, _⟩ := h
  omega

theorem Inv.begin_eq {d : ideque T} (h : Inv d) :
    d.begin_index = slot d.BUFFER_SIZE d.begin_index 0 := by
  obtain ⟨_, h2, h3, _⟩ := h
  exact (slot_zero h2 h3).symm

theorem Inv.end_eq {d : ideque T} (h : Inv d) :
    d.end_index = slot d.BUFFER_SIZE d.begin_index d.current_size := by
  obtain ⟨_, _, _, _, _, _, h7⟩ := h
  exact h7

theorem inv_mk (M B c : Nat) (b x0 e : Int) (g : Int → T) (hB : B = M + 1) (hc : c ≤ M)
    (he : e = x0 + c) : Inv ⟨M, B, c, slot B b x0, slot B b e, g⟩ := by
  have hp : 0 < B := by omega
  refine ⟨hB, slot_nonneg hp _ _, slot_lt hp _ _, slot_nonneg hp _ _, slot_lt hp _ _, hc, ?_⟩
  show slot B b e = slot B (slot B b x0) c
  rw [slot_slot, he]

theorem contents_mk (M B c : Nat) (b x0 e : Int) (g : Int → T) :
    contents ⟨M, B, c, slot B b x0, e, g⟩
      = (List.range c).map (fun (k : Nat) => g (slot B b (x0 + (k : Int)))) := by
  simp only [contents, slot_slot]

theorem distance1_slot (d : ideque T) (B : Nat) (b x0 y : Int) (hd : d.BUFFER_SIZE = B)
    (hB : 0 < B) (hb : d.begin_index = slot B b x0) (h1 : x0 ≤ y) (h2 : y < x0 + B) :
    d.distance1 (slot B b y) = y - x0 := by
  have hs := slot_step hB b x0 (y - x0) (by omega) (by omega)
  have e : x0 + (y - x0) = y := by ring
  rw [e] at hs
  have h3 := slot_nonneg hB b x0
  have h4 := slot_lt hB b x0
  unfold distance1
  rw [hb, hd, hs]
  split_ifs <;> omega

theorem iterate_slot (d : ideque T) (B : Nat) (b : Int) (c : Nat) (hd : d.BUFFER_SIZE = B)
    (hB : 0 < B) (he : d.end_index = slot B b c) (hc : c < B) (r x fuel : Nat)
    (hx : x + r = c) (hf : r < fuel) :
    iterate d fuel (slot B b x)
      = some ((List.range r).map (fun (k : Nat) => d.p_buffer (slot B b ((x : Int) + (k : Int))))) := by
  induction r generalizing x fuel with
  | zero =>
    obtain ⟨fuel, rfl⟩ : ∃ f, fuel = f + 1 := ⟨fuel - 1, by omega⟩
    have hxc : x = c := by omega
    subst hxc
    simp [iterate, he]
  | succ r ih =>
    obtain ⟨fuel, rfl⟩ : ∃ f, fuel = f + 1 := ⟨fuel - 1, by omega⟩
    have hne : slot B b x ≠ d.end_index := by
      rw [he]
      intro h
      have := slot_inj b x c (by omega) (by omega) h
      omega
    have h := ih (x + 1) fuel (by omega) (by omega)
    push_cast at h
    simp only [iterate, hne, if_false, hd, slot_inc hB, h, Option.map_some']
    rw [List.range_succ_eq_map, List.map_cons, List.map_map]
    simp only [Nat.cast_zero, add_zero, Option.some.injEq, List.cons.injEq, true_and]
    apply List.map_congr_left
    intro k _
    simp only [Function.comp, Nat.succ_eq_add_one, Nat.cast_add, Nat.cast_one]
    congr 2
    ring

theorem to_list_of_inv {d : ideque T} (h : Inv d) : d.to_list = some (contents d) := by
  have hB := h.buffer_pos
  have hb := h.begin_eq
  have he := h.end_eq
  obtain ⟨h1, _, _, _, _, h6, _⟩ := h
  unfold to_list
  rw [hb]
  have := iterate_slot d d.BUFFER_SIZE d.begin_index d.current_size rfl hB he (by omega)
    d.current_size 0 (d.BUFFER_SIZE + 1) (by omega) (by omega)
  simp only [Nat.cast_zero] at this
  rw [this]
  simp only [contents, zero_add]

theorem contents_getElem? (d : ideque T) (k : Nat) :
    (contents d)[k]? =
      if k < d.current_size then some (d.p_buffer (slot d.BUFFER_SIZE d.begin_index k))
      else none := by
  unfold contents
  rw [map_range_getElem?]

theorem contents_length (d : ideque T) : (contents d).length = d.current_size := by
  simp [contents]

theorem cursor_eq_slot {d : ideque T} (h : Inv d) (hr : Representable d) (i : Nat)
    (hi : i ≤ d.BUFFER_SIZE) : d.cursor i = slot d.BUFFER_SIZE d.begin_index i := by
  unfold Representable at hr
  unfold cursor
  rw [to_difference_type_of_lt (by omega)]
  conv_lhs => rw [h.begin_eq]
  rw [slot_add h.buffer_pos hr _ _ _ (by omega) (by omega), zero_add]

/-! ## The assignment loops -/

theorem copy_loop_range (k : Nat) (d : ideque T) (src : Nat → T) (k0 : Nat) (B : Nat)
    (b w : Int) (hd : d.BUFFER_SIZE = B) (hB : 0 < B) :
    ∃ g, copy_loop k d (.range src k0) (slot B b w) = { d with p_buffer := g } ∧
      ∀ y : Int, w + k ≤ y + B → y < w + B →
        g (slot B b y) =
          if w ≤ y ∧ y < w + k then src (k0 + (y - w).toNat) else d.p_buffer (slot B b y) := by
  induction k generalizing d k0 w with
  | zero =>
    refine ⟨d.p_buffer, rfl, ?_⟩
    intro y _ _
    rw [if_neg]
    omega
  | succ k ih =>
    obtain ⟨M, B0, c, bi, ei, buf⟩ := d
    simp only at hd
    subst hd
    obtain ⟨g, hg, hs⟩ := ih ⟨M, B0, c, bi, ei, store buf (slot B0 b w) (src k0)⟩
      (k0 + 1) (w + 1) rfl
    refine ⟨g, ?_, ?_⟩
    · simp only [copy_loop, deref, next, slot_inc hB]
      exact hg
    · intro y h1 h2
      have h3 := hs y (by push_cast at h1 ⊢; omega) (by omega)
      simp only at h3
      rw [h3, store_slot _ _ _ _ _ (by push_cast at h1; omega) (by omega)]
      by_cases c1 : y = w
      · subst c1
        simp
      · by_cases c2 : w ≤ y ∧ y < w + (k + 1 : Nat)
        · have c3 : w + 1 ≤ y ∧ y < w + 1 + k := by push_cast at c2; omega
          have c4 : k0 + 1 + (y - (w + 1)).toNat = k0 + (y - w).toNat := by omega
          simp only [c1, c2, c3, c4, if_true, if_false, and_self]
        · have c3 : ¬ (w + 1 ≤ y ∧ y < w + 1 + k) := by push_cast at c2; omega
          simp only [c1, c2, c3, if_false]

theorem copy_loop_own (k : Nat) (d : ideque T) (B : Nat) (b f w : Int)
    (hd : d.BUFFER_SIZE = B) (hB : 0 < B)
    (hfw : w ≤ f ∨ f + k ≤ w) (h1 : f + k ≤ w + B) (h2 : w + k ≤ f + B) :
    ∃ g, copy_loop k d (.own (slot B b f)) (slot B b w) = { d with p_buffer := g } ∧
      ∀ y : Int, w + k ≤ y + B → y < w + B →
        g (slot B b y) =
          if w ≤ y ∧ y < w + k then d.p_buffer (slot B b (f + (y - w)))
          else d.p_buffer (slot B b y) := by
  induction k generalizing d f w with
  | zero =>
    refine ⟨d.p_buffer, rfl, ?_⟩
    intro y _ _
    rw [if_neg]
    omega
  | succ k ih =>
    obtain ⟨M, B0, c, bi, ei, buf⟩ := d
    simp only at hd
    subst hd
    obtain ⟨g, hg, hs⟩ := ih
      ⟨M, B0, c, bi, ei, store buf (slot B0 b w) (buf (slot B0 b f))⟩
      (f + 1) (w + 1) rfl (by push_cast at hfw; omega) (by push_cast at h1; omega)
      (by push_cast at h2; omega)
    refine ⟨g, ?_, ?_⟩
    · simp only [copy_loop, deref, next, slot_inc hB]
      exact hg
    · intro y h3 h4
      have h5 := hs y (by push_cast at h3 ⊢; omega) (by omega)
      simp only at h5
      rw [h5]
      push_cast at h1 h2 h3 hfw
      by_cases c1 : y = w
      · subst c1
        have c3 : ¬ (y + 1 ≤ y ∧ y < y + 1 + k) := by omega
        have c2 : y ≤ y ∧ y < y + (k + 1 : Nat) := by push_cast; omega
        rw [if_neg c3, if_pos c2, store_slot _ _ _ _ _ (by omega) (by omega)]
        simp
      · by_cases c2 : w ≤ y ∧ y < w + (k + 1 : Nat)
        · have c3 : w + 1 ≤ y ∧ y < w + 1 + k := by push_cast at c2; omega
          have c4 : f + 1 + (y - (w + 1)) = f + (y - w) := by ring
          rw [if_pos c3, if_pos c2, c4, store_slot _ _ _ _ _ (by omega) (by omega)]
          rw [if_neg (by omega)]
        · have c3 : ¬ (w + 1 ≤ y ∧ y < w + 1 + k) := by push_cast at c2; omega
          rw [if_neg c3, if_neg c2, store_slot _ _ _ _ _ (by omega) (by omega), if_neg c1]

theorem fill_loop_eq (k : Nat) (d : ideque T) (dst : Int) (v : T) (j : Nat) :
    fill_loop k d dst (.object v) = copy_loop k d (.range (fun _ => v) j) dst := by
  induction k generalizing d dst j with
  | zero => rfl
  | succ k ih =>
    simp only [fill_loop, copy_loop, deref, next, read]
    exact ih _ _ _

theorem fill_loop_shape (k : Nat) (d : ideque T) (dst : Int) (value : ValueRef T) :
    ∃ g, fill_loop k d dst value = { d with p_buffer := g } := by
  induction k generalizing d dst with
  | zero => exact ⟨d.p_buffer, rfl⟩
  | succ k ih =>
    obtain ⟨g, hg⟩ := ih { d with p_buffer := store d.p_buffer dst (d.read value) }
      (iterator.inc d.BUFFER_SIZE dst)
    exact ⟨g, by rw [fill_loop, hg]⟩

theorem copy_backward_loop_spec (k : Nat) (d : ideque T) (B : Nat) (b l w : Int)
    (hd : d.BUFFER_SIZE = B) (hB : 0 < B)
    (hlw : l ≤ w ∨ w + k ≤ l) (h1 : l + k ≤ w + B) (h2 : w + k ≤ l + B) :
    ∃ g, copy_backward_loop k d (slot B b l) (slot B b w) = { d with p_buffer := g } ∧
      ∀ y : Int, w ≤ y + B → y + k < w + B →
        g (slot B b y) =
          if w - k ≤ y ∧ y < w then d.p_buffer (slot B b (y - (w - l)))
          else d.p_buffer (slot B b y) := by
  induction k generalizing d l w with
  | zero =>
    refine ⟨d.p_buffer, rfl, ?_⟩
    intro y _ _
    rw [if_neg]
    push_cast
    omega
  | succ k ih =>
    obtain ⟨M, B0, c, bi, ei, buf⟩ := d
    simp only at hd
    subst hd
    obtain ⟨g, hg, hs⟩ := ih
      ⟨M, B0, c, bi, ei, store buf (slot B0 b (w - 1)) (buf (slot B0 b (l - 1)))⟩
      (l - 1) (w - 1) rfl (by push_cast at hlw; omega) (by push_cast at h1; omega)
      (by push_cast at h2; omega)
    refine ⟨g, ?_, ?_⟩
    · simp only [copy_backward_loop, slot_dec hB]
      exact hg
    · intro y h3 h4
      have h5 := hs y (by omega) (by push_cast at h4; omega)
      simp only at h5
      rw [h5]
      push_cast at h1 h2 h3 h4 hlw
      by_cases c1 : y = w - 1
      · subst c1
        have c3 : ¬ (w - 1 - k ≤ w - 1 ∧ w - 1 < w - 1) := by omega
        have c2 : w - (k + 1 : Nat) ≤ w - 1 ∧ w - 1 < w := by push_cast; omega
        have c4 : w - 1 - (w - l) = l - 1 := by ring
        rw [if_neg c3, if_pos c2, store_slot _ _ _ _ _ (by omega) (by omega), c4]
        simp
      · by_cases c2 : w - (k + 1 : Nat) ≤ y ∧ y < w
        · have c3 : w - 1 - k ≤ y ∧ y < w - 1 := by push_cast at c2; omega
          have c4 : y - (w - 1 - (l - 1)) = y - (w - l) := by ring
          rw [if_pos c3, if_pos c2, c4, store_slot _ _ _ _ _ (by omega) (by omega)]
          rw [if_neg (by omega)]
        · have c3 : ¬ (w - 1 - k ≤ y ∧ y < w - 1) := by push_cast at c2; omega
          rw [if_neg c3, if_neg c2, store_slot _ _ _ _ _ (by omega) (by omega), if_neg c1]

/-! ## The construction and destruction loops -/

theorem create_back_from_range (k : Nat) (d : ideque T) (src : Nat → T) (k0 : Nat) (B : Nat)
    (b e0 : Int) (hd : d.BUFFER_SIZE = B) (hB : 0 < B) (he : d.end_index = slot B b e0)
    (hc : d.current_size + k < 9223372036854775808) :
    ∃ g, create_back_from k d (.range src k0)
        = { d with p_buffer := g, end_index := slot B b (e0 + k),
                   current_size := d.current_size + k } ∧
      ∀ y : Int, e0 + k ≤ y + B → y < e0 + B →
        g (slot B b y) =
          if e0 ≤ y ∧ y < e0 + k then src (k0 + (y - e0).toNat) else d.p_buffer (slot B b y) := by
  induction k generalizing d k0 e0 with
  | zero =>
    obtain ⟨M, B0, c, bi, ei, buf⟩ := d
    simp only at hd he
    subst hd he
    refine ⟨buf, ?_, ?_⟩
    · simp [create_back_from]
    · intro y _ _
      rw [if_neg]
      omega
  | succ k ih =>
    obtain ⟨M, B0, c, bi, ei, buf⟩ := d
    simp only at hd he hc
    subst hd he
    obtain ⟨g, hg, hs⟩ := ih
      ⟨M, B0, c + 1, bi, slot B0 b (e0 + 1), store buf (slot B0 b e0) (src k0)⟩
      (k0 + 1) (e0 + 1) rfl rfl (by simp only; omega)
    refine ⟨g, ?_, ?_⟩
    · simp only [create_back_from, create_element_back, deref, next, slot_inc hB,
        size_succ_of_lt (show c < 9223372036854775808 by omega)]
      rw [hg]
      simp only [mk.injEq, true_and, and_true]
      constructor
      · omega
      · congr 1
        push_cast
        ring
    · intro y h1 h2
      have h3 := hs y (by push_cast at h1 ⊢; omega) (by omega)
      simp only at h3
      rw [h3, store_slot _ _ _ _ _ (by push_cast at h1; omega) (by omega)]
      by_cases c1 : y = e0
      · subst c1
        simp
      · by_cases c2 : e0 ≤ y ∧ y < e0 + (k + 1 : Nat)
        · have c3 : e0 + 1 ≤ y ∧ y < e0 + 1 + k := by push_cast at c2; omega
          have c4 : k0 + 1 + (y - (e0 + 1)).toNat = k0 + (y - e0).toNat := by omega
          simp only [c1, c2, c3, c4, if_true, if_false, and_self]
        · have c3 : ¬ (e0 + 1 ≤ y ∧ y < e0 + 1 + k) := by push_cast at c2; omega
          simp only [c1, c2, c3, if_false]

theorem create_back_from_own (k : Nat) (d : ideque T) (B : Nat) (b f e0 : Int)
    (hd : d.BUFFER_SIZE = B) (hB : 0 < B) (he : d.end_index = slot B b e0)
    (hc : d.current_size + k < 9223372036854775808)
    (hfw : e0 ≤ f ∨ f + k ≤ e0) (h1 : f + k ≤ e0 + B) (h2 : e0 + k ≤ f + B) :
    ∃ g, create_back_from k d (.own (slot B b f))
        = { d with p_buffer := g, end_index := slot B b (e0 + k),
                   current_size := d.current_size + k } ∧
      ∀ y : Int, e0 + k ≤ y + B → y < e0 + B →
        g (slot B b y) =
          if e0 ≤ y ∧ y < e0 + k then d.p_buffer (slot B b (f + (y - e0)))
          else d.p_buffer (slot B b y) := by
  induction k generalizing d f e0 with
  | zero =>
    obtain ⟨M, B0, c, bi, ei, buf⟩ := d
    simp only at hd he
    subst hd he
    refine ⟨buf, ?_, ?_⟩
    · simp [create_back_from]
    · intro y _ _
      rw [if_neg]
      omega
  | succ k ih =>
    obtain ⟨M, B0, c, bi, ei, buf⟩ := d
    simp only at hd he hc
    subst hd he
    obtain ⟨g, hg, hs⟩ := ih
      ⟨M, B0, c + 1, bi, slot B0 b (e0 + 1), store buf (slot B0 b e0) (buf (slot B0 b f))⟩
      (f + 1) (e0 + 1) rfl rfl (by simp only; omega) (by push_cast at hfw; omega)
      (by push_cast at h1; omega) (by push_cast at h2; omega)
    refine ⟨g, ?_, ?_⟩
    · simp only [create_back_from, create_element_back, deref, next, slot_inc hB,
        size_succ_of_lt (show c < 9223372036854775808 by omega)]
      rw [hg]
      simp only [mk.injEq, true_and, and_true]
      constructor
      · omega
      · congr 1
        push_cast
        ring
    · intro y h3 h4
      have h5 := hs y (by push_cast at h3 ⊢; omega) (by omega)
      simp only at h5
      rw [h5]
      push_cast at h1 h2 h3 hfw
      by_cases c1 : y = e0
      · subst c1
        have c3 : ¬ (y + 1 ≤ y ∧ y < y + 1 + k) := by omega
        have c2 : y ≤ y ∧ y < y + (k + 1 : Nat) := by push_cast; omega
        rw [if_neg c3, if_pos c2, store_slot _ _ _ _ _ (by omega) (by omega)]
        simp
      · by_cases c2 : e0 ≤ y ∧ y < e0 + (k + 1 : Nat)
        · have c3 : e0 + 1 ≤ y ∧ y < e0 + 1 + k := by push_cast at c2; omega
          have c4 : f + 1 + (y - (e0 + 1)) = f + (y - e0) := by ring
          rw [if_pos c3, if_pos c2, c4, store_slot _ _ _ _ _ (by omega) (by omega)]
          rw [if_neg (by omega)]
        · have c3 : ¬ (e0 + 1 ≤ y ∧ y < e0 + 1 + k) := by push_cast at c2; omega
          rw [if_neg c3, if_neg c2, store_slot _ _ _ _ _ (by omega) (by omega), if_neg c1]

theorem repeat_create_back_eq (k : Nat) (d : ideque T) (v : T) (j : Nat) :
    repeat_op (fun e => e.create_element_back v) k d
      = create_back_from k d (.range (fun _ => v) j) := by
  induction k generalizing d j with
  | zero => rfl
  | succ k ih =>
    simp only [repeat_op, create_back_from, deref, next]
    exact ih _ _

theorem repeat_create_back_shape (k : Nat) (d : ideque T) (f : ideque T → T) (B : Nat)
    (b e0 : Int) (hd : d.BUFFER_SIZE = B) (hB : 0 < B) (he : d.end_index = slot B b e0)
    (hc : d.current_size + k < 9223372036854775808) :
    ∃ g, repeat_op (fun e => e.create_element_back (f e)) k d
        = { d with p_buffer := g, end_index := slot B b (e0 + k),
                   current_size := d.current_size + k } := by
  induction k generalizing d e0 with
  | zero =>
    obtain ⟨M, B0, c, bi, ei, buf⟩ := d
    simp only at hd he
    subst hd he
    exact ⟨buf, by simp [repeat_op]⟩
  | succ k ih =>
    obtain ⟨M, B0, c, bi, ei, buf⟩ := d
    simp only at hd he hc
    subst hd he
    obtain ⟨g, hg⟩ := ih
      ⟨M, B0, c + 1, bi, slot B0 b (e0 + 1),
        store buf (slot B0 b e0) (f ⟨M, B0, c, bi, slot B0 b e0, buf⟩)⟩
      (e0 + 1) rfl rfl (by simp only; omega)
    refine ⟨g, ?_⟩
    have e1 : create_element_back (⟨M, B0, c, bi, slot B0 b e0, buf⟩ : ideque T)
        (f ⟨M, B0, c, bi, slot B0 b e0, buf⟩)
        = ⟨M, B0, c + 1, bi, slot B0 b (e0 + 1),
            store buf (slot B0 b e0) (f ⟨M, B0, c, bi, slot B0 b e0, buf⟩)⟩ := by
      simp only [create_element_back, slot_inc hB,
        size_succ_of_lt (show c < 9223372036854775808 by omega)]
    rw [repeat_op, e1, hg]
    simp only [mk.injEq, true_and, and_true]
    constructor
    · omega
    · congr 1
      push_cast
      ring

theorem repeat_create_front_shape (k : Nat) (d : ideque T) (f : ideque T → T) (B : Nat)
    (b x0 : Int) (hd : d.BUFFER_SIZE = B) (hB : 0 < B) (hb : d.begin_index = slot B b x0)
    (hc : d.current_size + k < 9223372036854775808) :
    ∃ g, repeat_op (fun e => e.create_element_front (f e)) k d
        = { d with p_buffer := g, begin_index := slot B b (x0 - k),
                   current_size := d.current_size + k } := by
  induction k generalizing d x0 with
  | zero =>
    obtain ⟨M, B0, c, bi, ei, buf⟩ := d
    simp only at hd hb
    subst hd hb
    exact ⟨buf, by simp [repeat_op]⟩
  | succ k ih =>
    obtain ⟨M, B0, c, bi, ei, buf⟩ := d
    simp only at hd hb hc
    subst hd hb
    obtain ⟨g, hg⟩ := ih
      ⟨M, B0, c + 1, slot B0 b (x0 - 1), ei,
        store buf (slot B0 b (x0 - 1)) (f ⟨M, B0, c, slot B0 b x0, ei, buf⟩)⟩
      (x0 - 1) rfl rfl (by simp only; omega)
    refine ⟨g, ?_⟩
    have e1 : create_element_front (⟨M, B0, c, slot B0 b x0, ei, buf⟩ : ideque T)
        (f ⟨M, B0, c, slot B0 b x0, ei, buf⟩)
        = ⟨M, B0, c + 1, slot B0 b (x0 - 1), ei,
            store buf (slot B0 b (x0 - 1)) (f ⟨M, B0, c, slot B0 b x0, ei, buf⟩)⟩ := by
      simp only [create_element_front, slot_dec hB,
        size_succ_of_lt (show c < 9223372036854775808 by omega)]
    rw [repeat_op, e1, hg]
    simp only [mk.injEq, true_and, and_true]
    constructor
    · omega
    · congr 1
      push_cast
      ring

theorem repeat_create_front_spec (k : Nat) (d : ideque T) (v : T) (B : Nat) (b x0 : Int)
    (hd : d.BUFFER_SIZE = B) (hB : 0 < B) (hb : d.begin_index = slot B b x0)
    (hc : d.current_size + k < 9223372036854775808) :
    ∃ g, repeat_op (fun e => e.create_element_front v) k d
        = { d with p_buffer := g, begin_index := slot B b (x0 - k),
                   current_size := d.current_size + k } ∧
      ∀ y : Int, x0 ≤ y + B → y + k < x0 + B →
        g (slot B b y) = if x0 - k ≤ y ∧ y < x0 then v else d.p_buffer (slot B b y) := by
  induction k generalizing d x0 with
  | zero =>
    obtain ⟨M, B0, c, bi, ei, buf⟩ := d
    simp only at hd hb
    subst hd hb
    refine ⟨buf, ?_, ?_⟩
    · simp [repeat_op]
    · intro y _ _
      rw [if_neg]
      push_cast
      omega
  | succ k ih =>
    obtain ⟨M, B0, c, bi, ei, buf⟩ := d
    simp only at hd hb hc
    subst hd hb
    obtain ⟨g, hg, hs⟩ := ih
      ⟨M, B0, c + 1, slot B0 b (x0 - 1), ei, store buf (slot B0 b (x0 - 1)) v⟩
      (x0 - 1) rfl rfl (by simp only; omega)
    refine ⟨g, ?_, ?_⟩
    · have e1 : create_element_front (⟨M, B0, c, slot B0 b x0, ei, buf⟩ : ideque T) v
          = ⟨M, B0, c + 1, slot B0 b (x0 - 1), ei, store buf (slot B0 b (x0 - 1)) v⟩ := by
        simp only [create_element_front, slot_dec hB,
          size_succ_of_lt (show c < 9223372036854775808 by omega)]
      rw [repeat_op, e1, hg]
      simp only [mk.injEq, true_and, and_true]
      constructor
      · omega
      · congr 1
        push_cast
        ring
    · intro y h1 h2
      have h3 := hs y (by omega) (by push_cast at h2; omega)
      simp only at h3
      rw [h3, store_slot _ _ _ _ _ (by omega) (by push_cast at h2; omega)]
      by_cases c1 : y = x0 - 1
      · subst c1
        have c2 : x0 - (k + 1 : Nat) ≤ x0 - 1 ∧ x0 - 1 < x0 := by push_cast; omega
        simp [c2]
      · by_cases c2 : x0 - (k + 1 : Nat) ≤ y ∧ y < x0
        · have c3 : x0 - 1 - k ≤ y ∧ y < x0 - 1 := by push_cast at c2; omega
          simp only [c1, c2, c3, if_true, if_false, and_self]
        · have c3 : ¬ (x0 - 1 - k ≤ y ∧ y < x0 - 1) := by push_cast at c2; omega
          simp only [c1, c2, c3, if_false]

theorem create_front_from_spec (k : Nat) (d : ideque T) (B : Nat) (b f x0 : Int)
    (hd : d.BUFFER_SIZE = B) (hB : 0 < B) (hb : d.begin_index = slot B b x0)
    (hc : d.current_size + k < 9223372036854775808)
    (hfx : f + 1 ≤ x0 ∨ x0 + k ≤ f + 1) (h1 : f + 1 + k ≤ x0 + B) (h2 : x0 + k ≤ f + 1 + B) :
    ∃ g, create_front_from k d (slot B b f)
        = { d with p_buffer := g, begin_index := slot B b (x0 - k),
                   current_size := d.current_size + k } ∧
      ∀ y : Int, x0 ≤ y + B → y + k < x0 + B →
        g (slot B b y) =
          if x0 - k ≤ y ∧ y < x0 then d.p_buffer (slot B b (y + (f + 1 - x0)))
          else d.p_buffer (slot B b y) := by
  induction k generalizing d f x0 with
  | zero =>
    obtain ⟨M, B0, c, bi, ei, buf⟩ := d
    simp only at hd hb
    subst hd hb
    refine ⟨buf, ?_, ?_⟩
    · simp [create_front_from]
    · intro y _ _
      rw [if_neg]
      push_cast
      omega
  | succ k ih =>
    obtain ⟨M, B0, c, bi, ei, buf⟩ := d
    simp only at hd hb hc
    subst hd hb
    obtain ⟨g, hg, hs⟩ := ih
      ⟨M, B0, c + 1, slot B0 b (x0 - 1), ei,
        store buf (slot B0 b (x0 - 1)) (buf (slot B0 b f))⟩
      (f - 1) (x0 - 1) rfl rfl (by simp only; omega) (by push_cast at hfx; omega)
      (by push_cast at h1; omega) (by push_cast at h2; omega)
    refine ⟨g, ?_, ?_⟩
    · simp only [create_front_from, create_element_front, slot_dec hB,
        size_succ_of_lt (show c < 9223372036854775808 by omega)]
      rw [hg]
      simp only [mk.injEq, true_and, and_true]
      constructor
      · omega
      · congr 1
        push_cast
        ring
    · intro y h3 h4
      have h5 := hs y (by omega) (by push_cast at h4; omega)
      simp only at h5
      rw [h5]
      push_cast at h1 h2 h3 h4 hfx
      by_cases c1 : y = x0 - 1
      · subst c1
        have c3 : ¬ (x0 - 1 - k ≤ x0 - 1 ∧ x0 - 1 < x0 - 1) := by omega
        have c2 : x0 - (k + 1 : Nat) ≤ x0 - 1 ∧ x0 - 1 < x0 := by push_cast; omega
        have c4 : x0 - 1 + (f + 1 - x0) = f := by ring
        rw [if_neg c3, if_pos c2, store_slot _ _ _ _ _ (by omega) (by omega), c4]
        simp
      · by_cases c2 : x0 - (k + 1 : Nat) ≤ y ∧ y < x0
        · have c3 : x0 - 1 - k ≤ y ∧ y < x0 - 1 := by push_cast at c2; omega
          have c4 : y + (f - 1 + 1 - (x0 - 1)) = y + (f + 1 - x0) := by ring
          rw [if_pos c3, if_pos c2, c4, store_slot _ _ _ _ _ (by omega) (by omega)]
          rw [if_neg (by omega)]
        · have c3 : ¬ (x0 - 1 - k ≤ y ∧ y < x0 - 1) := by push_cast at c2; omega
          rw [if_neg c3, if_neg c2, store_slot _ _ _ _ _ (by omega) (by omega), if_neg c1]

theorem copy_range_front_loop_range (k : Nat) (d : ideque T) (src : Nat → T) (k0 : Nat)
    (B : Nat) (b w : Int) (hd : d.BUFFER_SIZE = B) (hB : 0 < B)
    (hc : d.current_size + k < 9223372036854775808) :
    ∃ g, copy_range_front_loop k d (slot B b w) (.range src k0)
        = { d with p_buffer := g, current_size := d.current_size + k } ∧
      ∀ y : Int, w + k ≤ y + B → y < w + B →
        g (slot B b y) =
          if w ≤ y ∧ y < w + k then src (k0 + (y - w).toNat) else d.p_buffer (slot B b y) := by
  induction k generalizing d k0 w with
  | zero =>
    refine ⟨d.p_buffer, rfl, ?_⟩
    intro y _ _
    rw [if_neg]
    omega
  | succ k ih =>
    obtain ⟨M, B0, c, bi, ei, buf⟩ := d
    simp only at hd hc
    subst hd
    obtain ⟨g, hg, hs⟩ := ih ⟨M, B0, c + 1, bi, ei, store buf (slot B0 b w) (src k0)⟩
      (k0 + 1) (w + 1) rfl (by simp only; omega)
    refine ⟨g, ?_, ?_⟩
    · simp only [copy_range_front_loop, deref, next, slot_inc hB,
        size_succ_of_lt (show c < 9223372036854775808 by omega)]
      rw [hg]
      simp only [mk.injEq, true_and, and_true]
      omega
    · intro y h1 h2
      have h3 := hs y (by push_cast at h1 ⊢; omega) (by omega)
      simp only at h3
      rw [h3, store_slot _ _ _ _ _ (by push_cast at h1; omega) (by omega)]
      by_cases c1 : y = w
      · subst c1
        simp
      · by_cases c2 : w ≤ y ∧ y < w + (k + 1 : Nat)
        · have c3 : w + 1 ≤ y ∧ y < w + 1 + k := by push_cast at c2; omega
          have c4 : k0 + 1 + (y - (w + 1)).toNat = k0 + (y - w).toNat := by omega
          simp only [c1, c2, c3, c4, if_true, if_false, and_self]
        · have c3 : ¬ (w + 1 ≤ y ∧ y < w + 1 + k) := by push_cast at c2; omega
          simp only [c1, c2, c3, if_false]

theorem copy_range_front_loop_own (k : Nat) (d : ideque T) (B : Nat) (b f w : Int)
    (hd : d.BUFFER_SIZE = B) (hB : 0 < B)
    (hc : d.current_size + k < 9223372036854775808)
    (hfw : w ≤ f ∨ f + k ≤ w) (h1 : f + k ≤ w + B) (h2 : w + k ≤ f + B) :
    ∃ g, copy_range_front_loop k d (slot B b w) (.own (slot B b f))
        = { d with p_buffer := g, current_size := d.current_size + k } ∧
      ∀ y : Int, w + k ≤ y + B → y < w + B →
        g (slot B b y) =
          if w ≤ y ∧ y < w + k then d.p_buffer (slot B b (f + (y - w)))
          else d.p_buffer (slot B b y) := by
  induction k generalizing d f w with
  | zero =>
    refine ⟨d.p_buffer, rfl, ?_⟩
    intro y _ _
    rw [if_neg]
    omega
  | succ k ih =>
    obtain ⟨M, B0, c, bi, ei, buf⟩ := d
    simp only at hd hc
    subst hd
    obtain ⟨g, hg, hs⟩ := ih
      ⟨M, B0, c + 1, bi, ei, store buf (slot B0 b w) (buf (slot B0 b f))⟩
      (f + 1) (w + 1) rfl (by simp only; omega) (by push_cast at hfw; omega)
      (by push_cast at h1; omega) (by push_cast at h2; omega)
    refine ⟨g, ?_, ?_⟩
    · simp only [copy_range_front_loop, deref, next, slot_inc hB,
        size_succ_of_lt (show c < 9223372036854775808 by omega)]
      rw [hg]
      simp only [mk.injEq, true_and, and_true]
      omega
    · intro y h3 h4
      have h5 := hs y (by push_cast at h3 ⊢; omega) (by omega)
      simp only at h5
      rw [h5]
      push_cast at h1 h2 h3 hfw
      by_cases c1 : y = w
      · subst c1
        have c3 : ¬ (y + 1 ≤ y ∧ y < y + 1 + k) := by omega
        have c2 : y ≤ y ∧ y < y + (k + 1 : Nat) := by push_cast; omega
        rw [if_neg c3, if_pos c2, store_slot _ _ _ _ _ (by omega) (by omega)]
        simp
      · by_cases c2 : w ≤ y ∧ y < w + (k + 1 : Nat)
        · have c3 : w + 1 ≤ y ∧ y < w + 1 + k := by push_cast at c2; omega
          have c4 : f + 1 + (y - (w + 1)) = f + (y - w) := by ring
          rw [if_pos c3, if_pos c2, c4, store_slot _ _ _ _ _ (by omega) (by omega)]
          rw [if_neg (by omega)]
        · have c3 : ¬ (w + 1 ≤ y ∧ y < w + 1 + k) := by push_cast at c2; omega
          rw [if_neg c3, if_neg c2, store_slot _ _ _ _ _ (by omega) (by omega), if_neg c1]

theorem repeat_destroy_front_spec (k : Nat) (d : ideque T) (B : Nat) (b x0 : Int)
    (hd : d.BUFFER_SIZE = B) (hB : 0 < B) (hb : d.begin_index = slot B b x0)
    (hk : k ≤ d.current_size) (hc : d.current_size < 9223372036854775808) :
    repeat_op destroy_element_front k d
      = { d with begin_index := slot B b (x0 + k), current_size := d.current_size - k } := by
  induction k generalizing d x0 with
  | zero =>
    obtain ⟨M, B0, c, bi, ei, buf⟩ := d
    simp only at hd hb
    subst hd hb
    rw [repeat_op]
    simp only [Nat.cast_zero, add_zero, Nat.sub_zero]
  | succ k ih =>
    obtain ⟨M, B0, c, bi, ei, buf⟩ := d
    simp only at hd hb hc hk
    subst hd hb
    have h := ih ⟨M, B0, c - 1, slot B0 b (x0 + 1), ei, buf⟩ (x0 + 1) rfl rfl
      (by simp only; omega) (by simp only; omega)
    have e1 : destroy_element_front (⟨M, B0, c, slot B0 b x0, ei, buf⟩ : ideque T)
        = ⟨M, B0, c - 1, slot B0 b (x0 + 1), ei, buf⟩ := by
      simp only [destroy_element_front, slot_inc hB,
        size_pred_of_pos (show 0 < c by omega) hc]
    rw [repeat_op, e1, h]
    simp only [mk.injEq, true_and, and_true]
    constructor
    · omega
    · congr 1
      push_cast
      ring

theorem repeat_destroy_back_spec (k : Nat) (d : ideque T) (B : Nat) (b e0 : Int)
    (hd : d.BUFFER_SIZE = B) (hB : 0 < B) (he : d.end_index = slot B b e0)
    (hk : k ≤ d.current_size) (hc : d.current_size < 9223372036854775808) :
    repeat_op destroy_element_back k d
      = { d with end_index := slot B b (e0 - k), current_size := d.current_size - k } := by
  induction k generalizing d e0 with
  | zero =>
    obtain ⟨M, B0, c, bi, ei, buf⟩ := d
    simp only at hd he
    subst hd he
    rw [repeat_op]
    simp only [Nat.cast_zero, sub_zero, Nat.sub_zero]
  | succ k ih =>
    obtain ⟨M, B0, c, bi, ei, buf⟩ := d
    simp only at hd he hc hk
    subst hd he
    have h := ih ⟨M, B0, c - 1, bi, slot B0 b (e0 - 1), buf⟩ (e0 - 1) rfl rfl
      (by simp only; omega) (by simp only; omega)
    have e1 : destroy_element_back (⟨M, B0, c, bi, slot B0 b e0, buf⟩ : ideque T)
        = ⟨M, B0, c - 1, bi, slot B0 b (e0 - 1), buf⟩ := by
      simp only [destroy_element_back, slot_dec hB,
        size_pred_of_pos (show 0 < c by omega) hc]
    rw [repeat_op, e1, h]
    simp only [mk.injEq, true_and, and_true]
    constructor
    · omega
    · congr 1
      push_cast
      ring

/-! ## The mutators on well-formed deques -/

theorem inv_destruct (d : ideque T) (h : Inv d) :
    ∃ (M c : Nat) (b : Int) (buf : Int → T),
      d = ⟨M, M + 1, c, b, slot (M + 1) b c, buf⟩ ∧ 0 ≤ b ∧ b < (M + 1 : Nat) ∧ c ≤ M ∧
        slot (M + 1) b 0 = b := by
  obtain ⟨M, B, c, b, e, buf⟩ := d
  obtain ⟨h1, h2, h3, h4, h5, h6, h7⟩ := h
  simp only at h1 h2 h3 h4 h5 h6 h7
  subst h1
  refine ⟨M, c, b, buf, ?_, h2, h3, h6, slot_zero h2 h3⟩
  rw [h7]
  rfl

theorem contents_splice (M B c n : Nat) (b x0 e e' : Int) (buf g : Int → T) (i : Nat)
    (val : Nat → T) (hi : i ≤ c)
    (hg : ∀ k : Nat, k < c + n → g (slot B b (x0 + k)) =
      if k < i then buf (slot B b k)
      else if k < i + n then val (k - i) else buf (slot B b ((k : Int) - n))) :
    contents ⟨M, B, c + n, slot B b x0, e', g⟩
      = (contents ⟨M, B, c, b, e, buf⟩).take i ++ (List.range n).map val
          ++ (contents ⟨M, B, c, b, e, buf⟩).drop i := by
  apply List.ext_getElem?
  intro k
  rw [splice_getElem? _ _ _ _ (by rw [contents_length]; exact hi), contents_mk,
    map_range_getElem?, List.length_map, List.length_range]
  simp only [contents_getElem?, map_range_getElem?]
  by_cases hk : k < c + n
  · rw [if_pos hk, hg k hk]
    by_cases h1 : k < i
    · have h2 : k < c := by omega
      simp only [h1, h2, if_true]
    · by_cases h2 : k < i + n
      · have h3 : k - i < n := by omega
        simp only [h1, h2, h3, if_true, if_false]
      · have h3 : k - n < c := by omega
        have h4 : ((k - n : Nat) : Int) = (k : Int) - n := by omega
        simp only [h1, h2, h3, h4, if_true, if_false]
  · rw [if_neg hk]
    have h1 : ¬ k < i := by omega
    have h2 : ¬ k < i + n := by omega
    have h3 : ¬ k - n < c := by omega
    simp only [h1, h2, h3, if_false]

theorem contents_cut (M B c len : Nat) (b x0 e e' : Int) (buf g : Int → T) (i : Nat)
    (hi : i + len ≤ c)
    (hg : ∀ k : Nat, k < c - len → g (slot B b (x0 + k)) =
      if k < i then buf (slot B b k) else buf (slot B b ((k : Int) + len))) :
    contents ⟨M, B, c - len, slot B b x0, e', g⟩
      = (contents ⟨M, B, c, b, e, buf⟩).take i
          ++ (contents ⟨M, B, c, b, e, buf⟩).drop (i + len) := by
  apply List.ext_getElem?
  intro k
  rw [cut_getElem? _ _ _ _ (by rw [contents_length]; show i ≤ c; omega), contents_mk,
    map_range_getElem?]
  simp only [contents_getElem?]
  by_cases hk : k < c - len
  · rw [if_pos hk, hg k hk]
    by_cases h1 : k < i
    · have h2 : k < c := by omega
      simp only [h1, h2, if_true]
    · have h3 : i + len + (k - i) < c := by omega
      have h4 : ((i + len + (k - i) : Nat) : Int) = (k : Int) + len := by omega
      simp only [h1, h3, h4, if_true, if_false]
  · rw [if_neg hk]
    have h1 : ¬ k < i := by omega
    have h3 : ¬ i + len + (k - i) < c := by omega
    simp only [h1, h3, if_false]

theorem push_back_post (d : ideque T) (x : T) (hinv : Inv d) (hr : Representable d)
    (hnf : d.full = false) :
    d.push_back x = .ok (d.create_element_back x) () ∧ Inv (d.create_element_back x) ∧
      contents (d.create_element_back x) = contents d ++ [x] ∧
      (d.create_element_back x).current_size = d.current_size + 1 := by
  obtain ⟨M, c, b, buf, rfl, hb0, hb1, hc, hz⟩ := inv_destruct d hinv
  simp only [Representable] at hr
  simp only [full, beq_eq_false_iff_ne, ne_eq] at hnf
  have hcM : c < M := by omega
  have hB : 0 < M + 1 := by omega
  have hsz : size_succ c = c + 1 := size_succ_of_lt (by omega)
  refine ⟨?_, ?_, ?_, ?_⟩
  · simp [push_back, full, hnf]
  · simp only [create_element_back, slot_inc hB, hsz]
    have := inv_mk M (M + 1) (c + 1) b 0 (c + 1) (store buf (slot (M + 1) b c) x) rfl
      (by omega) (by push_cast; ring)
    rw [hz] at this
    exact this
  · simp only [create_element_back, slot_inc hB, hsz]
    have h := contents_splice M (M + 1) c 1 b 0 (slot (M + 1) b c) (slot (M + 1) b (c + 1)) buf
      (store buf (slot (M + 1) b c) x) c (fun _ => x) (le_refl _) (by
        intro k hk
        rw [store_slot _ _ _ _ _ (by push_cast; omega) (by push_cast; omega), zero_add]
        by_cases h1 : k < c
        · rw [if_neg (by omega), if_pos h1]
        · rw [if_pos (by omega), if_neg h1, if_pos (by omega)])
    rw [hz] at h
    rw [h]
    have ht : List.take c (contents ⟨M, M + 1, c, b, slot (M + 1) b c, buf⟩)
        = contents ⟨M, M + 1, c, b, slot (M + 1) b c, buf⟩ :=
      List.take_of_length_le (by rw [contents_length])
    have hdr : List.drop c (contents ⟨M, M + 1, c, b, slot (M + 1) b c, buf⟩) = [] :=
      List.drop_of_length_le (by rw [contents_length])
    rw [ht, hdr]
    simp
  · simp only [create_element_back, hsz]

theorem insert_finish (M c n : Nat) (b x0 e' bg en pos : Int) (buf g : Int → T) (i : Nat)
    (val : Nat → T) (hi : i ≤ c) (hcn : c + n ≤ M) (hM : M + 1 < 9223372036854775808)
    (hbg : bg = slot (M + 1) b x0) (hen : en = slot (M + 1) b e')
    (hpos : pos = slot (M + 1) b (x0 + i)) (he' : e' = x0 + (c + n))
    (hg : ∀ k : Nat, k < c + n → g (slot (M + 1) b (x0 + k)) =
      if k < i then buf (slot (M + 1) b k)
      else if k < i + n then val (k - i) else buf (slot (M + 1) b ((k : Int) - n))) :
    InsertPost ⟨M, M + 1, c, b, slot (M + 1) b c, buf⟩ ⟨M, M + 1, c + n, bg, en, g⟩ pos i
      ((List.range n).map val) := by
  subst hbg hen hpos
  have hB : 0 < M + 1 := by omega
  have hInv : Inv (⟨M, M + 1, c + n, slot (M + 1) b x0, slot (M + 1) b e', g⟩ : ideque T) :=
    inv_mk M (M + 1) (c + n) b x0 e' g rfl hcn (by rw [he']; push_cast; ring)
  have hcur : slot (M + 1) b (x0 + i)
      = cursor (⟨M, M + 1, c + n, slot (M + 1) b x0, slot (M + 1) b e', g⟩ : ideque T) i := by
    rw [cursor_eq_slot hInv (by simp only [Representable]; omega) i (by simp only; omega)]
    simp only [slot_slot]
  refine ⟨hInv, rfl, rfl, ?_, ?_, hcur, ?_, ?_⟩
  · simp only [List.length_map, List.length_range]
  · exact contents_splice M (M + 1) c n b x0 _ _ buf g i val hi hg
  · rw [distance1_slot _ (M + 1) b x0 (x0 + i) rfl hB rfl (by omega) (by omega)]
    ring
  · intro x hx
    cases n with
    | zero => simp at hx
    | succ n =>
      rw [List.range_succ_eq_map] at hx
      simp only [List.map_cons, List.head?_cons, Option.some.injEq] at hx
      have := hg i (by omega)
      simp only [lt_irrefl, if_false, Nat.sub_self] at this
      rw [if_pos (by omega)] at this
      simp only at this ⊢
      rw [this, hx]

theorem dec_begin {M : Nat} {b : Int} (hz : slot (M + 1) b 0 = b) :
    iterator.dec (M + 1) b = slot (M + 1) b (-1) := by
  have h := slot_dec (show 0 < M + 1 by omega) b 0
  rw [hz] at h
  rw [h]
  norm_num

theorem add_begin {M : Nat} {b : Int} (hz : slot (M + 1) b 0 = b)
    (hR : M + 1 < 9223372036854775808) (k : Int) (hk : -((M + 1 : Nat) : Int) ≤ k)
    (hk2 : k ≤ (M + 1 : Nat)) : iterator.add (M + 1) b k = slot (M + 1) b k := by
  have h := slot_add (show 0 < M + 1 by omega) hR b 0 k hk hk2
  rw [hz, zero_add] at h
  exact h

theorem inc_begin {M : Nat} {b : Int} (hz : slot (M + 1) b 0 = b) :
    iterator.inc (M + 1) b = slot (M + 1) b 1 := by
  have h := slot_inc (show 0 < M + 1 by omega) b 0
  rw [hz] at h
  rw [h]
  norm_num

theorem slot_ne_begin {M : Nat} {b : Int} {i : Nat} (hz : slot (M + 1) b 0 = b) (h0 : 0 < i)
    (h1 : i < M + 1) : slot (M + 1) b i ≠ b := by
  intro h
  have := slot_inj b i 0 (by omega) (by omega) (h.trans hz.symm)
  omega

theorem slot_ne_slot {M : Nat} {b : Int} {i j : Nat} (hij : i ≠ j) (h0 : i < M + 1)
    (h1 : j < M + 1) : slot (M + 1) b i ≠ slot (M + 1) b j := by
  intro h
  have := slot_inj b i j (by omega) (by omega) h
  omega

theorem distance_slots (d : ideque T) (B : Nat) (b x0 x y : Int) (hd : d.BUFFER_SIZE = B)
    (hB : 0 < B) (hb : d.begin_index = slot B b x0) (hx1 : x0 ≤ x) (hx2 : x < x0 + B)
    (hy1 : x0 ≤ y) (hy2 : y < x0 + B) :
    d.distance (slot B b x) (slot B b y) = y - x := by
  unfold distance
  rw [distance1_slot d B b x0 x hd hB hb hx1 hx2, distance1_slot d B b x0 y hd hB hb hy1 hy2]
  ring

theorem insert_post (d : ideque T) (i : Nat) (v : T) (hinv : Inv d) (hr : Representable d)
    (hnf : d.full = false) (hi : i ≤ d.current_size) :
    ∃ d' pos, d.insert (d.cursor i) (.object v) = .ok d' pos ∧
      InsertPost d d' pos i ((List.range 1).map (fun _ => v)) := by
  have hcur := cursor_eq_slot hinv hr i (by obtain ⟨h1, _, _, _, _, h6, _⟩ := hinv; omega)
  obtain ⟨M, c, b, buf, rfl, hb0, hb1, hc, hz⟩ := inv_destruct d hinv
  simp only [Representable] at hr
  simp only [full, beq_eq_false_iff_ne, ne_eq] at hnf
  simp only at hi hcur
  have hcM : c < M := by omega
  have hB : 0 < M + 1 := by omega
  have hsz : size_succ c = c + 1 := size_succ_of_lt (by omega)
  have hfull : (⟨M, M + 1, c, b, slot (M + 1) b c, buf⟩ : ideque T).full = false := by
    simp [full, hnf]
  have hdec := dec_begin hz
  rw [hcur]
  unfold insert
  simp only [read]
  rw [hfull]
  simp only [Bool.false_eq_true, if_false]
  by_cases h0 : i = 0
  · -- at the front
    subst h0
    rw [if_pos (by simpa using hz)]
    have e1 : create_element_front (⟨M, M + 1, c, b, slot (M + 1) b c, buf⟩ : ideque T) v
        = ⟨M, M + 1, c + 1, slot (M + 1) b (-1), slot (M + 1) b c,
            store buf (slot (M + 1) b (-1)) v⟩ := by
      simp only [create_element_front, hsz, hdec]
    rw [e1]
    refine ⟨_, _, rfl, ?_⟩
    exact insert_finish M c 1 b (-1) c _ _ _ buf _ 0 (fun _ => v) (by omega) (by omega) hr
      rfl rfl (by norm_num) (by push_cast; ring) (by
        intro k hk
        rw [store_slot _ _ _ _ _ (by omega) (by omega)]
        by_cases hk0 : k = 0
        · subst hk0; simp
        · rw [if_neg (by omega), if_neg (by omega), if_neg (by omega)]
          congr 2)
  · by_cases hic : i = c
    · -- at the back
      subst hic
      have hne : slot (M + 1) b i ≠ b := slot_ne_begin hz (by omega) (by omega)
      rw [if_neg hne, if_pos rfl]
      have e1 : create_element_back (⟨M, M + 1, i, b, slot (M + 1) b i, buf⟩ : ideque T) v
          = ⟨M, M + 1, i + 1, b, slot (M + 1) b (i + 1), store buf (slot (M + 1) b i) v⟩ := by
        simp only [create_element_back, hsz, slot_inc hB]
      rw [e1]
      simp only
      rw [slot_sub hB hr _ _ _ (by omega) (by omega)]
      refine ⟨_, _, rfl, ?_⟩
      exact insert_finish M i 1 b 0 (i + 1) _ _ _ buf _ i (fun _ => v) (by omega) (by omega) hr
        hz.symm rfl (by congr 1; ring) (by push_cast; ring) (by
          intro k hk
          rw [store_slot _ _ _ _ _ (by omega) (by omega), zero_add]
          by_cases hki : k = i
          · subst hki; simp
          · rw [if_neg (by omega), if_pos (by omega)])
    · have hi0 : 0 < i := by omega
      have hilt : i < c := by omega
      rw [if_neg (slot_ne_begin hz hi0 (by omega)), if_neg (slot_ne_slot hic (by omega) (by omega))]
      have hbz : b = slot (M + 1) b 0 := hz.symm
      have hd1 : distance (⟨M, M + 1, c, b, slot (M + 1) b c, buf⟩ : ideque T) b
          (slot (M + 1) b i) = i := by
        have := distance_slots (⟨M, M + 1, c, b, slot (M + 1) b c, buf⟩ : ideque T) (M + 1) b 0
          0 i rfl hB hbz (by omega) (by omega) (by omega) (by omega)
        rw [hz] at this
        rw [this]
        ring
      have hsub1 : iterator.sub (M + 1) (slot (M + 1) b c) 1 = slot (M + 1) b (c - 1) :=
        slot_sub hB hr _ _ _ (by omega) (by omega)
      have hd2 : distance (⟨M, M + 1, c, b, slot (M + 1) b c, buf⟩ : ideque T)
          (slot (M + 1) b i) (slot (M + 1) b (c - 1)) = (c : Int) - 1 - i :=
        distance_slots _ (M + 1) b 0 i (c - 1) rfl hB hbz (by omega) (by omega) (by omega)
          (by omega)
      rw [hsub1, hd1, hd2]
      by_cases hside : (i : Int) < (c : Int) - 1 - i
      · -- shift the front
        rw [if_pos hside]
        have e1 : create_element_front (⟨M, M + 1, c, b, slot (M + 1) b c, buf⟩ : ideque T)
            (buf b)
            = ⟨M, M + 1, c + 1, slot (M + 1) b (-1), slot (M + 1) b c,
                store buf (slot (M + 1) b (-1)) (buf b)⟩ := by
          simp only [create_element_front, hsz, hdec]
        rw [e1]
        simp only
        rw [slot_add hB hr _ _ _ (by omega) (by omega)]
        unfold std_copy
        rw [distance_slots _ (M + 1) b (-1) (-1 + 1) i rfl hB rfl (by omega) (by omega)
          (by omega) (by omega)]
        have hn : ((i : Int) - (-1 + 1)).toNat = i := by omega
        rw [hn]
        obtain ⟨g, hg, hs⟩ := copy_loop_own i
          (⟨M, M + 1, c + 1, slot (M + 1) b (-1), slot (M + 1) b c,
            store buf (slot (M + 1) b (-1)) (buf b)⟩ : ideque T) (M + 1) b (-1 + 1) (-1) rfl hB
          (by omega) (by omega) (by omega)
        rw [hg]
        simp only at hs ⊢
        rw [slot_dec hB]
        refine ⟨_, _, rfl, ?_⟩
        exact insert_finish M c 1 b (-1) c _ _ _ buf _ i (fun _ => v) (by omega) (by omega) hr
          rfl rfl (by congr 1) (by push_cast; ring) (by
            intro k hk
            rw [store_slot _ _ _ _ _ (by omega) (by omega),
              hs _ (by omega) (by omega),
              store_slot _ _ _ _ _ (by omega) (by omega),
              store_slot _ _ _ _ _ (by omega) (by omega)]
            split_ifs <;> first | rfl | omega | (congr 2; omega))
      · -- shift the back
        rw [if_neg hside]
        have e1 : create_element_back (⟨M, M + 1, c, b, slot (M + 1) b c, buf⟩ : ideque T)
            (buf (slot (M + 1) b (c - 1)))
            = ⟨M, M + 1, c + 1, b, slot (M + 1) b (c + 1),
                store buf (slot (M + 1) b c) (buf (slot (M + 1) b (c - 1)))⟩ := by
          simp only [create_element_back, hsz, slot_inc hB]
        rw [e1]
        simp only
        rw [slot_sub hB hr _ _ _ (by omega) (by omega),
          slot_sub hB hr _ _ _ (by omega) (by omega)]
        unfold std_copy_backward
        rw [distance_slots _ (M + 1) b 0 i (c + 1 - 2) rfl hB hbz (by omega) (by omega)
          (by omega) (by omega)]
        have hn : ((c : Int) + 1 - 2 - i).toNat = c - 1 - i := by omega
        rw [hn]
        obtain ⟨g, hg, hs⟩ := copy_backward_loop_spec (c - 1 - i)
          (⟨M, M + 1, c + 1, b, slot (M + 1) b (c + 1),
            store buf (slot (M + 1) b c) (buf (slot (M + 1) b (c - 1)))⟩ : ideque T) (M + 1) b
          (c + 1 - 2) (c + 1 - 1) rfl hB (by omega) (by omega) (by omega)
        rw [hg]
        simp only at hs ⊢
        refine ⟨_, _, rfl, ?_⟩
        exact insert_finish M c 1 b 0 (c + 1) _ _ _ buf _ i (fun _ => v) (by omega) (by omega) hr
          hbz rfl (by congr 1; ring) (by push_cast; ring) (by
            intro k hk
            rw [store_slot _ _ _ _ _ (by omega) (by omega),
              hs _ (by omega) (by omega),
              store_slot _ _ _ _ _ (by omega) (by omega),
              store_slot _ _ _ _ _ (by omega) (by omega)]
            split_ifs <;> first | rfl | omega | (congr 2; omega))

theorem insert_ref (d : ideque T) (pos : Int) (value : ValueRef T) :
    ∃ v, d.insert pos value = d.insert pos (.object v) := by
  cases value with
  | object v => exact ⟨v, rfl⟩
  | element j =>
    unfold insert
    simp only [read]
    split_ifs
    · exact ⟨d.p_buffer j, rfl⟩
    · exact ⟨d.p_buffer j, rfl⟩
    · exact ⟨d.p_buffer j, rfl⟩
    · exact ⟨_, rfl⟩
    · exact ⟨_, rfl⟩

set_option maxHeartbeats 1600000 in
theorem insert_n_post (d : ideque T) (i n : Nat) (v : T) (hinv : Inv d) (hr : Representable d)
    (hcap : d.current_size + n ≤ d.MAX_SIZE) (hi : i ≤ d.current_size) :
    ∃ d' pos, d.insert_n (d.cursor i) n (.object v) = .ok d' pos ∧
      InsertPost d d' pos i ((List.range n).map (fun _ => v)) := by
  have hcur := cursor_eq_slot hinv hr i (by obtain ⟨h1, _, _, _, _, h6, _⟩ := hinv; omega)
  obtain ⟨M, c, b, buf, rfl, hb0, hb1, hc, hz⟩ := inv_destruct d hinv
  simp only [Representable] at hr
  simp only at hi hcur hcap
  have hB : 0 < M + 1 := by omega
  have hbz : b = slot (M + 1) b 0 := hz.symm
  have hguard : (c + n) % 18446744073709551616 ≤ M := by
    rw [Nat.mod_eq_of_lt (by omega)]
    exact hcap
  have htn : to_difference_type n = n := to_difference_type_of_lt (by omega)
  rw [hcur]
  unfold insert_n
  simp only [read]
  simp only [hguard, not_true_eq_false, if_false]
  by_cases h0 : i = 0
  · -- at the front
    subst h0
    rw [if_pos (by simpa using hz)]
    obtain ⟨g, hg, hs⟩ := repeat_create_front_spec n
      (⟨M, M + 1, c, b, slot (M + 1) b c, buf⟩ : ideque T) v (M + 1) b 0 rfl hB hbz
      (by simp only; omega)
    rw [hg]
    simp only at hs ⊢
    refine ⟨_, _, rfl, ?_⟩
    exact insert_finish M c n b (0 - n) c _ _ _ buf _ 0 (fun _ => v) (by omega) hcap hr
      rfl rfl (slot_congr (by omega)) (by omega) (by
        intro k hk
        rw [hs _ (by omega) (by omega)]
        split_ifs <;> first | rfl | omega | (congr 2; omega))
  · by_cases hic : i = c
    · -- at the back
      subst hic
      rw [if_neg (slot_ne_begin hz (by omega) (by omega)), if_pos rfl]
      rw [repeat_create_back_eq n _ v 0]
      obtain ⟨g, hg, hs⟩ := create_back_from_range n
        (⟨M, M + 1, i, b, slot (M + 1) b i, buf⟩ : ideque T) (fun _ => v) 0 (M + 1) b i rfl hB
        rfl (by simp only; omega)
      rw [hg]
      simp only at hs ⊢
      rw [htn, slot_sub hB hr _ _ _ (by omega) (by omega)]
      refine ⟨_, _, rfl, ?_⟩
      exact insert_finish M i n b 0 (i + n) _ _ _ buf _ i (fun _ => v) (by omega) hcap hr
        hbz rfl (slot_congr (by omega)) (by omega) (by
          intro k hk
          rw [hs _ (by omega) (by omega)]
          split_ifs <;> first | rfl | omega | (congr 2; omega))
    · have hi0 : 0 < i := by omega
      have hilt : i < c := by omega
      rw [if_neg (slot_ne_begin hz hi0 (by omega)), if_neg (slot_ne_slot hic (by omega) (by omega))]
      have hd1 : distance (⟨M, M + 1, c, b, slot (M + 1) b c, buf⟩ : ideque T) b
          (slot (M + 1) b i) = i := by
        have := distance_slots (⟨M, M + 1, c, b, slot (M + 1) b c, buf⟩ : ideque T) (M + 1) b 0
          0 i rfl hB hbz (by omega) (by omega) (by omega) (by omega)
        rw [hz] at this
        rw [this]
        ring
      have hd2 : distance (⟨M, M + 1, c, b, slot (M + 1) b c, buf⟩ : ideque T)
          (slot (M + 1) b i) (slot (M + 1) b c) = (c : Int) - i :=
        distance_slots _ (M + 1) b 0 i c rfl hB hbz (by omega) (by omega) (by omega) (by omega)
      have hhalf : to_difference_type (c / 2) = ((c / 2 : Nat) : Int) :=
        to_difference_type_of_lt (by omega)
      simp only [std_distance]
      rw [hd1, hd2, hhalf, to_size_t_of_nat (show i < 9223372036854775808 by omega)]
      have hsz2 : to_size_t ((c : Int) - i) = c - i := by
        rw [show (c : Int) - i = ((c - i : Nat) : Int) by omega]
        exact to_size_t_of_nat (by omega)
      rw [hsz2]
      by_cases hside : (i : Int) ≤ ((c / 2 : Nat) : Int)
      · -- shift the front
        rw [if_pos hside]
        obtain ⟨m, hm⟩ : ∃ m, m = min n i := ⟨_, rfl⟩
        rw [← hm]
        have hm3 : m = n ∨ m = i := by omega
        obtain ⟨p, hp⟩ : ∃ p, p = n - m := ⟨_, rfl⟩
        obtain ⟨q, hq⟩ : ∃ q, q = i - m := ⟨_, rfl⟩
        have hncn : (if n > m then n - m else 0) = p := by
          split_ifs <;> omega
        have hnew : (if n > p then n - p else 0) = m := by
          split_ifs <;> omega
        rw [hncn, hnew, ← hq]
        have hp' : n = m + p := by omega
        have hq' : i = m + q := by omega
        have hpq : p = 0 ∨ q = 0 := by omega
        have ht1 : to_difference_type m = (m : Int) := to_difference_type_of_lt (by omega)
        have ht2 : to_difference_type q = (q : Int) := to_difference_type_of_lt (by omega)
        have ht3 : to_difference_type i = (i : Int) := to_difference_type_of_lt (by omega)
        rw [ht1, ht2, ht3]
        clear hm hm3 hp hq hncn hnew ht1 ht2 ht3 htn hside hhalf hsz2 hd1 hd2 hguard hcur hinv
        rw [add_begin hz hr _ (by omega) (by omega), slot_sub hB hr _ _ _ (by omega) (by omega)]
        obtain ⟨g1, hg1, hs1⟩ := repeat_create_front_spec p
          (⟨M, M + 1, c, b, slot (M + 1) b c, buf⟩ : ideque T) v (M + 1) b 0 rfl hB hbz
          (by simp only; omega)
        rw [hg1]
        simp only at hs1 ⊢
        obtain ⟨g2, hg2, hs2⟩ := create_front_from_spec m
          (⟨M, M + 1, c + p, slot (M + 1) b (0 - (p : Int)), slot (M + 1) b c, g1⟩ : ideque T)
          (M + 1) b ((m : Int) - 1) (0 - (p : Int)) rfl hB rfl (by simp only; omega) (by omega)
          (by omega) (by omega)
        rw [hg2]
        simp only at hs2 ⊢
        unfold std_copy_n
        rw [slot_sub hB hr _ _ _ (by omega) (by omega), slot_add hB hr _ _ _ (by omega) (by omega)]
        obtain ⟨g3, hg3, hs3⟩ := copy_loop_own q
          (⟨M, M + 1, c + p + m, slot (M + 1) b (0 - (p : Int) - (m : Int)),
            slot (M + 1) b c, g2⟩ : ideque T) (M + 1) b ((i : Int) - (q : Int))
          (0 - (p : Int) - (m : Int) + (m : Int)) rfl hB (by omega) (by omega) (by omega)
        rw [hg3]
        simp only at hs3 ⊢
        unfold std_fill_n
        rw [slot_sub hB hr _ _ _ (by omega) (by omega), fill_loop_eq _ _ _ _ 0]
        obtain ⟨g4, hg4, hs4⟩ := copy_loop_range m
          (⟨M, M + 1, c + p + m, slot (M + 1) b (0 - (p : Int) - (m : Int)),
            slot (M + 1) b c, g3⟩ : ideque T) (fun _ => v) 0 (M + 1) b
          ((i : Int) - (m : Int)) rfl hB
        rw [hg4]
        simp only at hs4 ⊢
        rw [slot_add hB hr _ _ _ (by omega) (by omega)]
        have hsize : c + p + m = c + n := by omega
        rw [hsize]
        refine ⟨_, _, rfl, ?_⟩
        exact insert_finish M c n b (-(n : Int)) c _ _ _ buf _ i (fun _ => v) (by omega) hcap hr
          (slot_congr (by omega)) rfl (slot_congr (by omega)) (by omega) (by
            intro k hk
            simp (disch := omega) only [hs4, hs3, hs2, hs1]
            clear hs1 hs2 hs3 hs4 hg1 hg2 hg3 hg4 hz hbz hb0 hb1 hr hcap hc hB h0 hic hi0 hilt
              hi hsize
            split_ifs <;> first | rfl | omega | (congr 2; omega))
      · -- shift the back
        rw [if_neg hside]
        obtain ⟨m, hm⟩ : ∃ m, m = min n (c - i) := ⟨_, rfl⟩
        rw [← hm]
        have hm3 : m = n ∨ m = c - i := by omega
        obtain ⟨p, hp⟩ : ∃ p, p = n - m := ⟨_, rfl⟩
        obtain ⟨q, hq⟩ : ∃ q, q = c - i - m := ⟨_, rfl⟩
        have hncn : (if n > m then n - m else 0) = p := by
          split_ifs <;> omega
        have hnew : (if n > p then n - p else 0) = m := by
          split_ifs <;> omega
        rw [hncn, hnew, ← hq]
        have hp' : n = m + p := by omega
        have hq' : c = i + m + q := by omega
        have hpq : p = 0 ∨ q = 0 := by omega
        have ht2 : to_difference_type q = (q : Int) := to_difference_type_of_lt (by omega)
        rw [ht2, htn]
        clear hm hm3 hp hq hncn hnew ht2 htn hside hhalf hsz2 hd1 hd2 hguard hcur hinv
        rw [repeat_create_back_eq _ _ v 0]
        obtain ⟨g1, hg1, hs1⟩ := create_back_from_range p
          (⟨M, M + 1, c, b, slot (M + 1) b c, buf⟩ : ideque T) (fun _ => v) 0 (M + 1) b c rfl hB
          rfl (by simp only; omega)
        rw [hg1]
        simp only at hs1 ⊢
        rw [slot_add hB hr _ _ _ (by omega) (by omega)]
        obtain ⟨g2, hg2, hs2⟩ := create_back_from_own m
          (⟨M, M + 1, c + p, b, slot (M + 1) b ((c : Int) + (p : Int)), g1⟩ : ideque T)
          (M + 1) b ((i : Int) + (q : Int)) ((c : Int) + (p : Int)) rfl hB rfl
          (by simp only; omega) (by omega) (by omega) (by omega)
        rw [hg2]
        simp only at hs2 ⊢
        unfold std_copy_backward
        rw [slot_add hB hr _ _ _ (by omega) (by omega), slot_add hB hr _ _ _ (by omega) (by omega),
          slot_add hB hr _ _ _ (by omega) (by omega)]
        rw [distance_slots _ (M + 1) b 0 i ((i : Int) + (q : Int))
          rfl hB hbz (by omega) (by omega) (by omega) (by omega)]
        have hcnt : ((i : Int) + (q : Int) - i).toNat = q := by omega
        rw [hcnt]
        obtain ⟨g3, hg3, hs3⟩ := copy_backward_loop_spec q
          (⟨M, M + 1, c + p + m, b,
            slot (M + 1) b ((c : Int) + (p : Int) + (m : Int)), g2⟩ : ideque T)
          (M + 1) b ((i : Int) + (q : Int)) ((i : Int) + n + (q : Int)) rfl hB (by omega)
          (by omega) (by omega)
        rw [hg3]
        simp only at hs3 ⊢
        unfold std_fill_n
        rw [fill_loop_eq _ _ _ _ 0]
        obtain ⟨g4, hg4, hs4⟩ := copy_loop_range m
          (⟨M, M + 1, c + p + m, b,
            slot (M + 1) b ((c : Int) + (p : Int) + (m : Int)), g3⟩ : ideque T)
          (fun _ => v) 0 (M + 1) b (i : Int) rfl hB
        rw [hg4]
        simp only at hs4 ⊢
        have hsize : c + p + m = c + n := by omega
        rw [hsize]
        refine ⟨_, _, rfl, ?_⟩
        exact insert_finish M c n b 0 ((c : Int) + n) _ _ _ buf _ i (fun _ => v) (by omega) hcap
          hr hbz (slot_congr (by omega)) (slot_congr (by omega)) (by omega) (by
            intro k hk
            simp (disch := omega) only [hs4, hs3, hs2, hs1]
            clear hs1 hs2 hs3 hs4 hg1 hg2 hg3 hg4 hz hbz hb0 hb1 hr hcap hc hB h0 hic hi0 hilt
              hi hsize hcnt
            split_ifs <;> first | rfl | omega | (congr 2; omega))

theorem frame_finish (M c n : Nat) (b x0 e' bg en : Int) (g : Int → T) (hcn : c + n ≤ M)
    (hbg : bg = slot (M + 1) b x0) (hen : en = slot (M + 1) b e') (he' : e' = x0 + (c + n)) :
    Inv (⟨M, M + 1, c + n, bg, en, g⟩ : ideque T) := by
  subst hbg hen
  exact inv_mk M (M + 1) (c + n) b x0 e' g rfl hcn (by rw [he']; push_cast; ring)

set_option maxHeartbeats 1600000 in
theorem insert_n_frame (d : ideque T) (i n : Nat) (value : ValueRef T) (hinv : Inv d)
    (hr : Representable d) (hcap : d.current_size + n ≤ d.MAX_SIZE) (hi : i ≤ d.current_size) :
    ∃ d' pos, d.insert_n (d.cursor i) n value = .ok d' pos ∧ Inv d' ∧
      d'.current_size = d.current_size + n := by
  have hcur := cursor_eq_slot hinv hr i (by obtain ⟨h1, _, _, _, _, h6, _⟩ := hinv; omega)
  obtain ⟨M, c, b, buf, rfl, hb0, hb1, hc, hz⟩ := inv_destruct d hinv
  simp only [Representable] at hr
  simp only at hi hcur hcap
  have hB : 0 < M + 1 := by omega
  have hbz : b = slot (M + 1) b 0 := hz.symm
  have hguard : (c + n) % 18446744073709551616 ≤ M := by
    rw [Nat.mod_eq_of_lt (by omega)]
    exact hcap
  have htn : to_difference_type n = n := to_difference_type_of_lt (by omega)
  rw [hcur]
  unfold insert_n
  simp only [hguard, not_true_eq_false, if_false]
  by_cases h0 : i = 0
  · -- at the front
    subst h0
    rw [if_pos (by simpa using hz)]
    obtain ⟨g, hg⟩ := repeat_create_front_shape n
      (⟨M, M + 1, c, b, slot (M + 1) b c, buf⟩ : ideque T) (fun e => e.read value) (M + 1) b 0
      rfl hB hbz (by simp only; omega)
    rw [hg]
    simp only
    refine ⟨_, _, rfl, ?_, rfl⟩
    exact frame_finish M c n b (0 - n) c _ _ _ hcap rfl rfl (by omega)
  · by_cases hic : i = c
    · -- at the back
      subst hic
      rw [if_neg (slot_ne_begin hz (by omega) (by omega)), if_pos rfl]
      obtain ⟨g, hg⟩ := repeat_create_back_shape n
        (⟨M, M + 1, i, b, slot (M + 1) b i, buf⟩ : ideque T) (fun e => e.read value) (M + 1) b i
        rfl hB rfl (by simp only; omega)
      rw [hg]
      simp only
      refine ⟨_, _, rfl, ?_, rfl⟩
      exact frame_finish M i n b 0 (i + n) _ _ _ hcap hbz rfl (by omega)
    · have hi0 : 0 < i := by omega
      have hilt : i < c := by omega
      rw [if_neg (slot_ne_begin hz hi0 (by omega)), if_neg (slot_ne_slot hic (by omega) (by omega))]
      have hd1 : distance (⟨M, M + 1, c, b, slot (M + 1) b c, buf⟩ : ideque T) b
          (slot (M + 1) b i) = i := by
        have := distance_slots (⟨M, M + 1, c, b, slot (M + 1) b c, buf⟩ : ideque T) (M + 1) b 0
          0 i rfl hB hbz (by omega) (by omega) (by omega) (by omega)
        rw [hz] at this
        rw [this]
        ring
      have hd2 : distance (⟨M, M + 1, c, b, slot (M + 1) b c, buf⟩ : ideque T)
          (slot (M + 1) b i) (slot (M + 1) b c) = (c : Int) - i :=
        distance_slots _ (M + 1) b 0 i c rfl hB hbz (by omega) (by omega) (by omega) (by omega)
      have hhalf : to_difference_type (c / 2) = ((c / 2 : Nat) : Int) :=
        to_difference_type_of_lt (by omega)
      simp only [std_distance]
      rw [hd1, hd2, hhalf, to_size_t_of_nat (show i < 9223372036854775808 by omega)]
      have hsz2 : to_size_t ((c : Int) - i) = c - i := by
        rw [show (c : Int) - i = ((c - i : Nat) : Int) by omega]
        exact to_size_t_of_nat (by omega)
      rw [hsz2]
      by_cases hside : (i : Int) ≤ ((c / 2 : Nat) : Int)
      · -- shift the front
        rw [if_pos hside]
        obtain ⟨m, hm⟩ : ∃ m, m = min n i := ⟨_, rfl⟩
        rw [← hm]
        have hm3 : m = n ∨ m = i := by omega
        obtain ⟨p, hp⟩ : ∃ p, p = n - m := ⟨_, rfl⟩
        obtain ⟨q, hq⟩ : ∃ q, q = i - m := ⟨_, rfl⟩
        have hncn : (if n > m then n - m else 0) = p := by
          split_ifs <;> omega
        have hnew : (if n > p then n - p else 0) = m := by
          split_ifs <;> omega
        rw [hncn, hnew, ← hq]
        have hp' : n = m + p := by omega
        have hq' : i = m + q := by omega
        have hpq : p = 0 ∨ q = 0 := by omega
        have ht1 : to_difference_type m = (m : Int) := to_difference_type_of_lt (by omega)
        have ht2 : to_difference_type q = (q : Int) := to_difference_type_of_lt (by omega)
        have ht3 : to_difference_type i = (i : Int) := to_difference_type_of_lt (by omega)
        rw [ht1, ht2, ht3]
        clear hm hm3 hp hq hncn hnew ht1 ht2 ht3 htn hside hhalf hsz2 hd1 hd2 hguard hcur hinv
        rw [add_begin hz hr _ (by omega) (by omega), slot_sub hB hr _ _ _ (by omega) (by omega)]
        obtain ⟨g1, hg1⟩ := repeat_create_front_shape p
          (⟨M, M + 1, c, b, slot (M + 1) b c, buf⟩ : ideque T) (fun e => e.read value)
          (M + 1) b 0 rfl hB hbz (by simp only; omega)
        rw [hg1]
        simp only
        obtain ⟨g2, hg2, -⟩ := create_front_from_spec m
          (⟨M, M + 1, c + p, slot (M + 1) b (0 - (p : Int)), slot (M + 1) b c, g1⟩ : ideque T)
          (M + 1) b ((m : Int) - 1) (0 - (p : Int)) rfl hB rfl (by simp only; omega) (by omega)
          (by omega) (by omega)
        rw [hg2]
        simp only
        unfold std_copy_n
        rw [slot_sub hB hr _ _ _ (by omega) (by omega), slot_add hB hr _ _ _ (by omega) (by omega)]
        obtain ⟨g3, hg3, -⟩ := copy_loop_own q
          (⟨M, M + 1, c + p + m, slot (M + 1) b (0 - (p : Int) - (m : Int)),
            slot (M + 1) b c, g2⟩ : ideque T) (M + 1) b ((i : Int) - (q : Int))
          (0 - (p : Int) - (m : Int) + (m : Int)) rfl hB (by omega) (by omega) (by omega)
        rw [hg3]
        simp only
        unfold std_fill_n
        rw [slot_sub hB hr _ _ _ (by omega) (by omega)]
        obtain ⟨g4, hg4⟩ := fill_loop_shape m
          (⟨M, M + 1, c + p + m, slot (M + 1) b (0 - (p : Int) - (m : Int)),
            slot (M + 1) b c, g3⟩ : ideque T) (slot (M + 1) b ((i : Int) - (m : Int))) value
        rw [hg4]
        simp only
        have hsize : c + p + m = c + n := by omega
        rw [hsize]
        refine ⟨_, _, rfl, ?_, rfl⟩
        exact frame_finish M c n b (-(n : Int)) c _ _ _ hcap (slot_congr (by omega)) rfl
          (by omega)
      · -- shift the back
        rw [if_neg hside]
        obtain ⟨m, hm⟩ : ∃ m, m = min n (c - i) := ⟨_, rfl⟩
        rw [← hm]
        have hm3 : m = n ∨ m = c - i := by omega
        obtain ⟨p, hp⟩ : ∃ p, p = n - m := ⟨_, rfl⟩
        obtain ⟨q, hq⟩ : ∃ q, q = c - i - m := ⟨_, rfl⟩
        have hncn : (if n > m then n - m else 0) = p := by
          split_ifs <;> omega
        have hnew : (if n > p then n - p else 0) = m := by
          split_ifs <;> omega
        rw [hncn, hnew, ← hq]
        have hp' : n = m + p := by omega
        have hq' : c = i + m + q := by omega
        have hpq : p = 0 ∨ q = 0 := by omega
        have ht2 : to_difference_type q = (q : Int) := to_difference_type_of_lt (by omega)
        rw [ht2, htn]
        clear hm hm3 hp hq hncn hnew ht2 htn hside hhalf hsz2 hd1 hd2 hguard hcur hinv
        obtain ⟨g1, hg1⟩ := repeat_create_back_shape p
          (⟨M, M + 1, c, b, slot (M + 1) b c, buf⟩ : ideque T) (fun e => e.read value)
          (M + 1) b c rfl hB rfl (by simp only; omega)
        rw [hg1]
        simp only
        rw [slot_add hB hr _ _ _ (by omega) (by omega)]
        obtain ⟨g2, hg2, -⟩ := create_back_from_own m
          (⟨M, M + 1, c + p, b, slot (M + 1) b ((c : Int) + (p : Int)), g1⟩ : ideque T)
          (M + 1) b ((i : Int) + (q : Int)) ((c : Int) + (p : Int)) rfl hB rfl
          (by simp only; omega) (by omega) (by omega) (by omega)
        rw [hg2]
        simp only
        unfold std_copy_backward
        rw [slot_add hB hr _ _ _ (by omega) (by omega), slot_add hB hr _ _ _ (by omega) (by omega),
          slot_add hB hr _ _ _ (by omega) (by omega)]
        rw [distance_slots _ (M + 1) b 0 i ((i : Int) + (q : Int))
          rfl hB hbz (by omega) (by omega) (by omega) (by omega)]
        have hcnt : ((i : Int) + (q : Int) - i).toNat = q := by omega
        rw [hcnt]
        obtain ⟨g3, hg3, -⟩ := copy_backward_loop_spec q
          (⟨M, M + 1, c + p + m, b,
            slot (M + 1) b ((c : Int) + (p : Int) + (m : Int)), g2⟩ : ideque T)
          (M + 1) b ((i : Int) + (q : Int)) ((i : Int) + n + (q : Int)) rfl hB (by omega)
          (by omega) (by omega)
        rw [hg3]
        simp only
        unfold std_fill_n
        obtain ⟨g4, hg4⟩ := fill_loop_shape m
          (⟨M, M + 1, c + p + m, b,
            slot (M + 1) b ((c : Int) + (p : Int) + (m : Int)), g3⟩ : ideque T)
          (slot (M + 1) b (i : Int)) value
        rw [hg4]
        simp only
        have hsize : c + p + m = c + n := by omega
        rw [hsize]
        refine ⟨_, _, rfl, ?_, rfl⟩
        exact frame_finish M c n b 0 ((c : Int) + n) _ _ _ hcap hbz (slot_congr (by omega))
          (by omega)

theorem copy_range_front_range (n : Nat) (d : ideque T) (src : Nat → T) (k0 : Nat) (B : Nat)
    (b x0 : Int) (hd : d.BUFFER_SIZE = B) (hB : 0 < B) (hR : B < 9223372036854775808)
    (hb : d.begin_index = slot B b x0) (hne : 0 < d.current_size) (hn : n ≤ B)
    (hc : d.current_size + n < 9223372036854775808) :
    ∃ g, copy_range_front d n (.range src k0)
        = { d with p_buffer := g, begin_index := slot B b (x0 - n),
                   current_size := d.current_size + n } ∧
      ∀ y : Int, x0 ≤ y + B → y < x0 - n + B →
        g (slot B b y) =
          if x0 - n ≤ y ∧ y < x0 then src (k0 + (y - (x0 - n)).toNat)
          else d.p_buffer (slot B b y) := by
  obtain ⟨M, B0, c, bi, ei, buf⟩ := d
  simp only at hd hb hne hc
  subst hd hb
  by_cases h0 : n = 0
  · subst h0
    refine ⟨buf, ?_, ?_⟩
    · simp [copy_range_front]
    · intro y _ _
      rw [if_neg (by omega)]
  · have hemp : (⟨M, B0, c, slot B0 b x0, ei, buf⟩ : ideque T).empty = false := by
      simp only [empty, beq_eq_false_iff_ne, ne_eq]
      omega
    have hp : size_pred n = n - 1 := size_pred_of_pos (by omega) (by omega)
    unfold copy_range_front
    rw [if_neg h0]
    simp only [hemp, Bool.not_false, if_true, hp, slot_dec hB]
    have hb2 : (if n - 1 > 0 then
          iterator.sub B0 (slot B0 b (x0 - 1)) (to_difference_type (n - 1))
        else slot B0 b (x0 - 1)) = slot B0 b (x0 - n) := by
      split_ifs with h1
      · rw [to_difference_type_of_lt (by omega), slot_sub hB hR _ _ _ (by omega) (by omega)]
        exact slot_congr (by omega)
      · exact slot_congr (by omega)
    rw [hb2, show n - 1 + 1 = n by omega]
    obtain ⟨g, hg, hs⟩ := copy_range_front_loop_range n
      (⟨M, B0, c, slot B0 b (x0 - n), ei, buf⟩ : ideque T) src k0 B0 b (x0 - n) rfl hB
      (by simp only; omega)
    refine ⟨g, ?_, ?_⟩
    · rw [hg]
    · intro y h1 h2
      simp only at hs
      rw [hs y (by omega) (by omega)]
      split_ifs <;> first | rfl | omega

theorem copy_range_front_own (n : Nat) (d : ideque T) (B : Nat) (b f x0 : Int)
    (hd : d.BUFFER_SIZE = B) (hB : 0 < B) (hR : B < 9223372036854775808)
    (hb : d.begin_index = slot B b x0) (hne : 0 < d.current_size) (hn : n ≤ B)
    (hc : d.current_size + n < 9223372036854775808)
    (hf : x0 - n ≤ f) (h1 : f + n ≤ x0 - n + B) :
    ∃ g, copy_range_front d n (.own (slot B b f))
        = { d with p_buffer := g, begin_index := slot B b (x0 - n),
                   current_size := d.current_size + n } ∧
      ∀ y : Int, x0 ≤ y + B → y < x0 - n + B →
        g (slot B b y) =
          if x0 - n ≤ y ∧ y < x0 then d.p_buffer (slot B b (f + (y - (x0 - n))))
          else d.p_buffer (slot B b y) := by
  obtain ⟨M, B0, c, bi, ei, buf⟩ := d
  simp only at hd hb hne hc
  subst hd hb
  by_cases h0 : n = 0
  · subst h0
    refine ⟨buf, ?_, ?_⟩
    · simp [copy_range_front]
    · intro y _ _
      rw [if_neg (by omega)]
  · have hemp : (⟨M, B0, c, slot B0 b x0, ei, buf⟩ : ideque T).empty = false := by
      simp only [empty, beq_eq_false_iff_ne, ne_eq]
      omega
    have hp : size_pred n = n - 1 := size_pred_of_pos (by omega) (by omega)
    unfold copy_range_front
    rw [if_neg h0]
    simp only [hemp, Bool.not_false, if_true, hp, slot_dec hB]
    have hb2 : (if n - 1 > 0 then
          iterator.sub B0 (slot B0 b (x0 - 1)) (to_difference_type (n - 1))
        else slot B0 b (x0 - 1)) = slot B0 b (x0 - n) := by
      split_ifs with h1
      · rw [to_difference_type_of_lt (by omega), slot_sub hB hR _ _ _ (by omega) (by omega)]
        exact slot_congr (by omega)
      · exact slot_congr (by omega)
    rw [hb2, show n - 1 + 1 = n by omega]
    obtain ⟨g, hg, hs⟩ := copy_range_front_loop_own n
      (⟨M, B0, c, slot B0 b (x0 - n), ei, buf⟩ : ideque T) B0 b f (x0 - n) rfl hB
      (by simp only; omega) (by omega) (by omega) (by omega)
    refine ⟨g, ?_, ?_⟩
    · rw [hg]
    · intro y h1 h2
      simp only at hs
      rw [hs y (by omega) (by omega)]
      split_ifs <;> first | rfl | omega

theorem erase_finish (M c len : Nat) (b x0 e' bg en pos : Int) (buf g : Int → T) (i : Nat)
    (hi : i + len ≤ c) (hcM : c ≤ M) (hM : M + 1 < 9223372036854775808)
    (hbg : bg = slot (M + 1) b x0) (hen : en = slot (M + 1) b e')
    (hpos : pos = slot (M + 1) b (x0 + i)) (he' : e' = x0 + ((c - len : Nat) : Int))
    (hg : ∀ k : Nat, k < c - len → g (slot (M + 1) b (x0 + k)) =
      if k < i then buf (slot (M + 1) b k) else buf (slot (M + 1) b ((k : Int) + len))) :
    ErasePost ⟨M, M + 1, c, b, slot (M + 1) b c, buf⟩ ⟨M, M + 1, c - len, bg, en, g⟩ pos i
      len := by
  subst hbg hen hpos
  have hB : 0 < M + 1 := by omega
  have hInv : Inv (⟨M, M + 1, c - len, slot (M + 1) b x0, slot (M + 1) b e', g⟩ : ideque T) :=
    inv_mk M (M + 1) (c - len) b x0 e' g rfl (by omega) he'
  have hcur : slot (M + 1) b (x0 + i)
      = cursor (⟨M, M + 1, c - len, slot (M + 1) b x0, slot (M + 1) b e', g⟩ : ideque T) i := by
    rw [cursor_eq_slot hInv (by simp only [Representable]; omega) i (by simp only; omega)]
    simp only [slot_slot]
  refine ⟨hInv, rfl, rfl, ?_, ?_, hcur, ?_, ?_⟩
  · simp only
    omega
  · exact contents_cut M (M + 1) c len b x0 _ _ buf g i hi hg
  · rw [distance1_slot _ (M + 1) b x0 (x0 + i) rfl hB rfl (by omega) (by omega)]
    ring
  · simp only
    rw [slot_eq_iff b _ _ (by omega) (by omega)]
    omega

set_option maxHeartbeats 1600000 in
theorem erase_post (d : ideque T) (i : Nat) (hinv : Inv d) (hr : Representable d)
    (hi : i < d.current_size) :
    ∃ d' pos, d.erase (d.cursor i) = .ok d' pos ∧ ErasePost d d' pos i 1 := by
  have hcur := cursor_eq_slot hinv hr i (by obtain ⟨h1, _, _, _, _, h6, _⟩ := hinv; omega)
  obtain ⟨M, c, b, buf, rfl, hb0, hb1, hc, hz⟩ := inv_destruct d hinv
  simp only [Representable] at hr
  simp only at hi hcur
  have hB : 0 < M + 1 := by omega
  have hbz : b = slot (M + 1) b 0 := hz.symm
  have htc : to_difference_type c = c := to_difference_type_of_lt (by omega)
  have hhalf : to_difference_type (c / 2) = ((c / 2 : Nat) : Int) :=
    to_difference_type_of_lt (by omega)
  have hd0 : distance1 (⟨M, M + 1, c, b, slot (M + 1) b c, buf⟩ : ideque T) (slot (M + 1) b i)
      = i := by
    rw [distance1_slot _ (M + 1) b 0 i rfl hB hbz (by omega) (by omega)]
    ring
  have hsp : size_pred c = c - 1 := size_pred_of_pos (by omega) (by omega)
  rw [hcur]
  unfold erase
  simp only [hd0, htc, hhalf]
  rw [if_neg (by omega)]
  by_cases h0 : i = 0
  · -- the first element
    subst h0
    rw [if_pos (by simpa using hz)]
    have e1 : destroy_element_front (⟨M, M + 1, c, b, slot (M + 1) b c, buf⟩ : ideque T)
        = ⟨M, M + 1, c - 1, slot (M + 1) b 1, slot (M + 1) b c, buf⟩ := by
      simp only [destroy_element_front, hsp, inc_begin hz]
    rw [e1]
    refine ⟨_, _, rfl, ?_⟩
    exact erase_finish M c 1 b 1 c _ _ _ buf _ 0 (by omega) hc hr rfl rfl
      (slot_congr (by omega)) (by omega) (by
        intro k hk
        rw [if_neg (by omega)]
        exact app_slot_congr _ (by omega))
  · have hsub1 : iterator.sub (M + 1) (slot (M + 1) b c) 1 = slot (M + 1) b (c - 1) :=
      slot_sub hB hr _ _ _ (by omega) (by omega)
    rw [if_neg (slot_ne_begin hz (by omega) (by omega)), hsub1]
    by_cases hic : i = c - 1
    · -- the last element
      have hsl : slot (M + 1) b i = slot (M + 1) b ((c : Int) - 1) := slot_congr (by omega)
      rw [if_pos hsl]
      have e1 : destroy_element_back (⟨M, M + 1, c, b, slot (M + 1) b c, buf⟩ : ideque T)
          = ⟨M, M + 1, c - 1, b, slot (M + 1) b (c - 1), buf⟩ := by
        simp only [destroy_element_back, hsp, slot_dec hB]
      rw [e1]
      refine ⟨_, _, rfl, ?_⟩
      exact erase_finish M c 1 b 0 (c - 1) _ _ _ buf _ i (by omega) hc hr hbz rfl
        (slot_congr (by omega)) (by omega) (by
          intro k hk
          rw [if_pos (by omega)]
          exact app_slot_congr _ (by omega))
    · have hne2 : slot (M + 1) b i ≠ slot (M + 1) b ((c : Int) - 1) := by
        intro h
        have := slot_inj b i ((c : Int) - 1) (by omega) (by omega) h
        omega
      rw [if_neg hne2]
      have hd1 : distance (⟨M, M + 1, c, b, slot (M + 1) b c, buf⟩ : ideque T) b
          (slot (M + 1) b i) = i := by
        have := distance_slots (⟨M, M + 1, c, b, slot (M + 1) b c, buf⟩ : ideque T) (M + 1) b 0
          0 i rfl hB hbz (by omega) (by omega) (by omega) (by omega)
        rw [hz] at this
        rw [this]
        ring
      rw [hd1]
      by_cases hside : (i : Int) < ((c / 2 : Nat) : Int)
      · -- shift the front
        rw [if_pos hside]
        unfold std_copy_backward
        rw [hd1, slot_add hB hr _ _ _ (by omega) (by omega), Int.toNat_ofNat]
        obtain ⟨g, hg, hs⟩ := copy_backward_loop_spec i
          (⟨M, M + 1, c, b, slot (M + 1) b c, buf⟩ : ideque T) (M + 1) b i ((i : Int) + 1) rfl hB
          (by omega) (by omega) (by omega)
        rw [hg]
        simp only at hs ⊢
        have e1 : destroy_element_front (⟨M, M + 1, c, b, slot (M + 1) b c, g⟩ : ideque T)
            = ⟨M, M + 1, c - 1, slot (M + 1) b 1, slot (M + 1) b c, g⟩ := by
          simp only [destroy_element_front, hsp, inc_begin hz]
        rw [e1]
        simp only
        rw [slot_inc hB]
        refine ⟨_, _, rfl, ?_⟩
        exact erase_finish M c 1 b 1 c _ _ _ buf _ i (by omega) hc hr rfl rfl
          (slot_congr (by omega)) (by omega) (by
            intro k hk
            rw [hs _ (by omega) (by omega)]
            split_ifs <;> first | omega | (apply app_slot_congr; omega))
      · -- shift the back
        rw [if_neg hside]
        unfold std_copy
        rw [slot_add hB hr _ _ _ (by omega) (by omega),
          distance_slots _ (M + 1) b 0 ((i : Int) + 1) c rfl hB hbz (by omega) (by omega)
            (by omega) (by omega)]
        have hcnt : ((c : Int) - ((i : Int) + 1)).toNat = c - i - 1 := by omega
        rw [hcnt]
        obtain ⟨g, hg, hs⟩ := copy_loop_own (c - i - 1)
          (⟨M, M + 1, c, b, slot (M + 1) b c, buf⟩ : ideque T) (M + 1) b ((i : Int) + 1) i rfl hB
          (by omega) (by omega) (by omega)
        rw [hg]
        simp only at hs ⊢
        have e1 : destroy_element_back (⟨M, M + 1, c, b, slot (M + 1) b c, g⟩ : ideque T)
            = ⟨M, M + 1, c - 1, b, slot (M + 1) b (c - 1), g⟩ := by
          simp only [destroy_element_back, hsp, slot_dec hB]
        rw [e1]
        refine ⟨_, _, rfl, ?_⟩
        exact erase_finish M c 1 b 0 (c - 1) _ _ _ buf _ i (by omega) hc hr hbz rfl
          (slot_congr (by omega)) (by omega) (by
            intro k hk
            rw [hs _ (by omega) (by omega)]
            split_ifs <;> first | omega | (apply app_slot_congr; omega))

set_option maxHeartbeats 1600000 in
theorem erase_range_post (d : ideque T) (i j : Nat) (hinv : Inv d) (hr : Representable d)
    (hij : i ≤ j) (hj : j ≤ d.current_size) :
    ∃ d' pos, d.erase_range (d.cursor i) (d.cursor j) = .ok d' pos ∧
      ErasePost d d' pos i (j - i) := by
  obtain ⟨len, rfl⟩ : ∃ len, j = i + len := ⟨j - i, by omega⟩
  rw [Nat.add_sub_cancel_left]
  have hcur := cursor_eq_slot hinv hr i (by obtain ⟨h1, _, _, _, _, h6, _⟩ := hinv; omega)
  have hcur2 := cursor_eq_slot hinv hr (i + len)
    (by obtain ⟨h1, _, _, _, _, h6, _⟩ := hinv; omega)
  obtain ⟨M, c, b, buf, rfl, hb0, hb1, hc, hz⟩ := inv_destruct d hinv
  simp only [Representable] at hr
  simp only at hj hcur hcur2
  have hB : 0 < M + 1 := by omega
  have hbz : b = slot (M + 1) b 0 := hz.symm
  have htc : to_difference_type c = c := to_difference_type_of_lt (by omega)
  have htl : to_difference_type len = len := to_difference_type_of_lt (by omega)
  have hhalf : to_difference_type (c / 2) = ((c / 2 : Nat) : Int) :=
    to_difference_type_of_lt (by omega)
  have hd0 : distance1 (⟨M, M + 1, c, b, slot (M + 1) b c, buf⟩ : ideque T) (slot (M + 1) b i)
      = i := by
    rw [distance1_slot _ (M + 1) b 0 i rfl hB hbz (by omega) (by omega)]
    ring
  have hd0' : distance1 (⟨M, M + 1, c, b, slot (M + 1) b c, buf⟩ : ideque T)
      (slot (M + 1) b ((i + len : Nat) : Int)) = ((i + len : Nat) : Int) := by
    rw [distance1_slot _ (M + 1) b 0 _ rfl hB hbz (by omega) (by omega)]
    ring
  have hlen : std_distance (⟨M, M + 1, c, b, slot (M + 1) b c, buf⟩ : ideque T)
      (slot (M + 1) b i) (slot (M + 1) b ((i + len : Nat) : Int)) = len := by
    unfold std_distance distance
    rw [hd0, hd0', show (((i + len : Nat) : Int) - (i : Int)) = (len : Int) by omega]
    exact to_size_t_of_nat (by omega)
  rw [hcur, hcur2]
  unfold erase_range
  simp only [hd0, hd0', htc, hhalf, hlen, htl]
  rw [if_neg (by omega)]
  by_cases h0 : i = 0
  · -- a run at the front
    subst h0
    rw [if_pos (by simpa using hz)]
    rw [repeat_destroy_front_spec len _ (M + 1) b 0 rfl hB hbz (by simp only; omega)
      (by simp only; omega)]
    refine ⟨_, _, rfl, ?_⟩
    exact erase_finish M c len b (0 + len) c _ _ _ buf _ 0 (by omega) hc hr rfl rfl
      (slot_congr (by omega)) (by omega) (by
        intro k hk
        rw [if_neg (by omega)]
        exact app_slot_congr _ (by omega))
  · have hsub1 : iterator.sub (M + 1) (slot (M + 1) b c) len = slot (M + 1) b (c - len) :=
      slot_sub hB hr _ _ _ (by omega) (by omega)
    rw [if_neg (slot_ne_begin hz (by omega) (by omega)), hsub1]
    by_cases hic : i + len = c
    · -- a run at the back
      have hsl : slot (M + 1) b i = slot (M + 1) b ((c : Int) - len) := slot_congr (by omega)
      rw [if_pos hsl]
      rw [repeat_destroy_back_spec len _ (M + 1) b c rfl hB rfl (by simp only; omega)
        (by simp only; omega)]
      refine ⟨_, _, rfl, ?_⟩
      exact erase_finish M c len b 0 (c - len) _ _ _ buf _ i (by omega) hc hr hbz rfl
        (slot_congr (by omega)) (by omega) (by
          intro k hk
          rw [if_pos (by omega)]
          exact app_slot_congr _ (by omega))
    · have hne2 : slot (M + 1) b i ≠ slot (M + 1) b ((c : Int) - len) := by
        intro h
        have := slot_inj b i ((c : Int) - len) (by omega) (by omega) h
        omega
      rw [if_neg hne2]
      have hd1 : distance (⟨M, M + 1, c, b, slot (M + 1) b c, buf⟩ : ideque T) b
          (slot (M + 1) b i) = i := by
        have := distance_slots (⟨M, M + 1, c, b, slot (M + 1) b c, buf⟩ : ideque T) (M + 1) b 0
          0 i rfl hB hbz (by omega) (by omega) (by omega) (by omega)
        rw [hz] at this
        rw [this]
        ring
      rw [hd1]
      by_cases hside : (i : Int) < ((c / 2 : Nat) : Int)
      · -- shift the front
        rw [if_pos hside]
        unfold std_copy_backward
        rw [hd1, slot_add hB hr _ _ _ (by omega) (by omega), Int.toNat_ofNat]
        obtain ⟨g, hg, hs⟩ := copy_backward_loop_spec i
          (⟨M, M + 1, c, b, slot (M + 1) b c, buf⟩ : ideque T) (M + 1) b i ((i : Int) + len) rfl
          hB (by omega) (by omega) (by omega)
        rw [hg]
        simp only at hs ⊢
        rw [repeat_destroy_front_spec len _ (M + 1) b 0 rfl hB hbz (by simp only; omega)
          (by simp only; omega)]
        simp only
        rw [slot_add hB hr _ _ _ (by omega) (by omega)]
        refine ⟨_, _, rfl, ?_⟩
        exact erase_finish M c len b (0 + len) c _ _ _ buf _ i (by omega) hc hr rfl rfl
          (slot_congr (by omega)) (by omega) (by
            intro k hk
            rw [hs _ (by omega) (by omega)]
            split_ifs <;> first | omega | (apply app_slot_congr; omega))
      · -- shift the back
        rw [if_neg hside]
        unfold std_copy
        rw [slot_add hB hr _ _ _ (by omega) (by omega),
          distance_slots _ (M + 1) b 0 ((i : Int) + len) c rfl hB hbz (by omega) (by omega)
            (by omega) (by omega)]
        have hcnt : ((c : Int) - ((i : Int) + len)).toNat = c - i - len := by omega
        rw [hcnt]
        obtain ⟨g, hg, hs⟩ := copy_loop_own (c - i - len)
          (⟨M, M + 1, c, b, slot (M + 1) b c, buf⟩ : ideque T) (M + 1) b ((i : Int) + len) i rfl
          hB (by omega) (by omega) (by omega)
        rw [hg]
        simp only at hs ⊢
        rw [repeat_destroy_back_spec len _ (M + 1) b c rfl hB rfl (by simp only; omega)
          (by simp only; omega)]
        simp only
        refine ⟨_, _, rfl, ?_⟩
        exact erase_finish M c len b 0 (c - len) _ _ _ buf _ i (by omega) hc hr hbz rfl
          (slot_congr (by omega)) (by omega) (by
            intro k hk
            rw [hs _ (by omega) (by omega)]
            split_ifs <;> first | omega | (apply app_slot_congr; omega))

/-! ## The claims -/

theorem contents_of_to_list {d : ideque T} {s : List T} (hinv : Inv d)
    (hs : d.to_list = some s) : contents d = s := by
  rw [to_list_of_inv hinv] at hs
  exact Option.some.inj hs

theorem map_const_range (n : Nat) (v : T) :
    (List.range n).map (fun _ => v) = List.replicate n v := by
  apply List.ext_getElem?
  intro k
  rw [map_range_getElem?, List.getElem?_replicate]

theorem distance_from_begin (d : ideque T) (x : Int) :
    d.distance d.begin_index x = d.distance1 x := by
  unfold distance
  have h : d.distance1 d.begin_index = 0 := by
    unfold distance1
    rw [if_neg (lt_irrefl _)]
    ring
  rw [h]
  ring

/-- Claim C1, at a failing input: on the freshly initialised empty deque of capacity 2 the
call `insert(begin(), first, first + 2)` reports no contract violation and leaves
`size() == 3`, which exceeds `capacity() == 2`. -/
theorem size_exceeds_capacity_after_range_insert :
    ((init 2 (fun _ => (0 : Nat))).insert_range (init 2 (fun _ => (0 : Nat))).begin_index
        (fun k => 7 + k) 2).violated = false ∧
    ((init 2 (fun _ => (0 : Nat))).insert_range (init 2 (fun _ => (0 : Nat))).begin_index
        (fun k => 7 + k) 2).deque.size = 3 ∧
    ((init 2 (fun _ => (0 : Nat))).insert_range (init 2 (fun _ => (0 : Nat))).begin_index
        (fun k => 7 + k) 2).deque.capacity = 2 := by
  decide

/-- Claim C2, at a failing input: on the freshly initialised empty deque of capacity 2 the
call `push_front()` reports no contract violation and leaves `size() == 1` with
`begin.index == end.index == 0`, so that `end.index` is not `(begin.index + size()) mod
BUFFER_SIZE` and iterating from `begin()` to `end()` meets no element. -/
theorem size_differs_from_iteration_after_push_front :
    ((init 2 (fun _ => (0 : Nat))).push_front_default 9).violated = false ∧
    ((init 2 (fun _ => (0 : Nat))).push_front_default 9).deque.size = 1 ∧
    ((init 2 (fun _ => (0 : Nat))).push_front_default 9).deque.begin_index = 0 ∧
    ((init 2 (fun _ => (0 : Nat))).push_front_default 9).deque.end_index = 0 ∧
    ((init 2 (fun _ => (0 : Nat))).push_front_default 9).deque.end_index ≠
      (((init 2 (fun _ => (0 : Nat))).push_front_default 9).deque.begin_index
        + (((init 2 (fun _ => (0 : Nat))).push_front_default 9).deque.size : Int))
        % (((init 2 (fun _ => (0 : Nat))).push_front_default 9).deque.BUFFER_SIZE : Int) ∧
    ((init 2 (fun _ => (0 : Nat))).push_front_default 9).deque.to_list = some [] := by
  decide

/-- Claim C3, at a failing input: on the deque `sample` (0, 1, 2, 3, not full) the call
`d.insert(d.begin() + 2, d[3])` passes as `value` a reference to the last element, which
holds 3.  No contract violation is reported, but iterating afterwards yields 0, 1, 2, 2, 3
and not 0, 1, 3, 2, 3: the back was shifted before `value` was read, and the slot it refers
to then holds 2. -/
theorem insert_reads_value_after_shift :
    sample.to_list = some [0, 1, 2, 3] ∧ sample.full = false ∧
    sample.read (.element (sample.cursor 3)) = 3 ∧
    (sample.insert (sample.cursor 2) (.element (sample.cursor 3))).violated = false ∧
    (sample.insert (sample.cursor 2) (.element (sample.cursor 3))).deque.to_list
      = some [0, 1, 2, 2, 3] ∧
    (sample.insert (sample.cursor 2) (.element (sample.cursor 3))).deque.to_list
      ≠ some (([0, 1, 2, 3] : List Nat).take 2 ++ [3] ++ ([0, 1, 2, 3] : List Nat).drop 2) := by
  decide

/-- For a `value` that refers to an object outside the storage of the deque,
`insert(position, value)` on a well-formed, non-full deque whose iteration sequence is `s`,
with `position` at logical index `i ≤ size()`, runs to completion; iterating afterwards
yields `s[0..i) ++ [value] ++ s[i..)` and `size()` has grown by exactly 1. -/
theorem insert_value_splices (d : ideque T) (i : Nat) (value : T) (s : List T)
    (hinv : Inv d) (hrep : Representable d) (hnf : d.full = false)
    (hs : d.to_list = some s) (hi : i ≤ d.size) :
    ∃ d' pos, d.insert (d.cursor i) (.object value) = .ok d' pos ∧
      d'.to_list = some (s.take i ++ [value] ++ s.drop i) ∧ d'.size = d.size + 1 := by
  obtain ⟨d', pos, hok, hI, _, _, hsz, hc, _⟩ := insert_post d i value hinv hrep hnf hi
  refine ⟨d', pos, hok, ?_, ?_⟩
  · rw [to_list_of_inv hI, hc, contents_of_to_list hinv hs]
    rfl
  · simpa using hsz

theorem insert_value_splices_witness :
    ∃ d' pos, sample.insert (sample.cursor 2) (.object 99) = .ok d' pos ∧
      d'.to_list = some ([0, 1, 2, 3].take 2 ++ [99] ++ [0, 1, 2, 3].drop 2) ∧
      d'.size = sample.size + 1 :=
  insert_value_splices sample 2 99 [0, 1, 2, 3] (by decide) (by decide) (by decide)
    (by decide) (by decide)

/-- Claim C4, at a failing input: on the deque `sample` (0, 1, 2, 3, capacity 5) the call
`d.insert(d.begin() + 2, 1, d[0])` passes as `value` a reference to the first element, which
holds 0.  No contract violation is reported, but iterating afterwards yields 0, 1, 1, 2, 3
and not 0, 1, 0, 2, 3: `std::copy_n` moved the element 1 into the slot `value` refers to
before `std::fill_n` read it. -/
theorem insert_n_reads_value_after_shift :
    sample.to_list = some [0, 1, 2, 3] ∧ sample.size + 1 ≤ sample.capacity ∧
    sample.read (.element (sample.cursor 0)) = 0 ∧
    (sample.insert_n (sample.cursor 2) 1 (.element (sample.cursor 0))).violated = false ∧
    (sample.insert_n (sample.cursor 2) 1 (.element (sample.cursor 0))).deque.to_list
      = some [0, 1, 1, 2, 3] ∧
    (sample.insert_n (sample.cursor 2) 1 (.element (sample.cursor 0))).deque.to_list
      ≠ some (([0, 1, 2, 3] : List Nat).take 2 ++ List.replicate 1 0
          ++ ([0, 1, 2, 3] : List Nat).drop 2) := by
  decide

/-- For a `value` that refers to an object outside the storage of the deque,
`insert(position, n, value)` on a well-formed deque whose iteration sequence is `s`, with
`size() + n ≤ capacity()` and `position` at logical index `i ≤ size()`, runs to completion;
iterating afterwards yields `s[0..i) ++ (n copies of value) ++ s[i..)` and `size()` has grown
by exactly `n`. -/
theorem insert_n_splices (d : ideque T) (i n : Nat) (value : T) (s : List T)
    (hinv : Inv d) (hrep : Representable d) (hcap : d.size + n ≤ d.capacity)
    (hs : d.to_list = some s) (hi : i ≤ d.size) :
    ∃ d' pos, d.insert_n (d.cursor i) n (.object value) = .ok d' pos ∧
      d'.to_list = some (s.take i ++ List.replicate n value ++ s.drop i) ∧
      d'.size = d.size + n := by
  obtain ⟨d', pos, hok, hI, _, _, hsz, hc, _⟩ := insert_n_post d i n value hinv hrep hcap hi
  refine ⟨d', pos, hok, ?_, ?_⟩
  · rw [to_list_of_inv hI, hc, contents_of_to_list hinv hs, map_const_range]
  · simpa using hsz

theorem insert_n_splices_witness :
    ∃ d' pos, sample.insert_n (sample.cursor 3) 1 (.object 77) = .ok d' pos ∧
      d'.to_list = some ([0, 1, 2, 3].take 3 ++ List.replicate 1 77 ++ [0, 1, 2, 3].drop 3) ∧
      d'.size = sample.size + 1 :=
  insert_n_splices sample 3 1 77 [0, 1, 2, 3] (by decide) (by decide) (by decide)
    (by decide) (by decide)

/-- Claim C5, at a failing input: on the freshly initialised empty deque of capacity 3 the
call `insert(begin(), first, first + 2)` with the range 7, 8 reports no contract violation;
iterating afterwards yields 7, 8, but `size()` is 3 instead of `|s| + |r| = 2`. -/
theorem range_insert_into_empty_miscounts :
    ((init 3 (fun _ => (0 : Nat))).insert_range ((init 3 (fun _ => (0 : Nat))).cursor 0)
        (fun k => 7 + k) 2).violated = false ∧
    ((init 3 (fun _ => (0 : Nat))).insert_range ((init 3 (fun _ => (0 : Nat))).cursor 0)
        (fun k => 7 + k) 2).deque.to_list = some (range_list (fun k => 7 + k) 2) ∧
    ((init 3 (fun _ => (0 : Nat))).insert_range ((init 3 (fun _ => (0 : Nat))).cursor 0)
        (fun k => 7 + k) 2).deque.size = 3 ∧
    ((init 3 (fun _ => (0 : Nat))).insert_range ((init 3 (fun _ => (0 : Nat))).cursor 0)
        (fun k => 7 + k) 2).deque.size ≠
      (init 3 (fun _ => (0 : Nat))).size + (range_list (fun k => 7 + k) 2).length := by
  decide

/-- Claim C6, at a failing input: on the deque `sample` (0, 1, 2, 3) the call
`d.insert(d.begin() + 2, d[3])` passes as `value` a reference to the element that holds 3.
The returned cursor lies at distance 2 from the new `begin()`, but dereferencing it gives
2, not the value 3 that was passed: the back was shifted before `value` was read.  The
same happens in `d.insert(d.begin() + 2, 1, d[0])`: the returned cursor lies at distance 2
and holds 1, not 0. -/
theorem returned_cursor_holds_shifted_value :
    sample.read (.element (sample.cursor 3)) = 3 ∧
    (sample.insert (sample.cursor 2) (.element (sample.cursor 3))).returned = some 1 ∧
    (sample.insert (sample.cursor 2) (.element (sample.cursor 3))).deque.distance
      (sample.insert (sample.cursor 2) (.element (sample.cursor 3))).deque.begin_index 1 = 2 ∧
    (sample.insert (sample.cursor 2) (.element (sample.cursor 3))).deque.p_buffer 1 = 2 ∧
    sample.read (.element (sample.cursor 0)) = 0 ∧
    (sample.insert_n (sample.cursor 2) 1 (.element (sample.cursor 0))).returned = some 0 ∧
    (sample.insert_n (sample.cursor 2) 1 (.element (sample.cursor 0))).deque.distance
      (sample.insert_n (sample.cursor 2) 1 (.element (sample.cursor 0))).deque.begin_index 0
      = 2 ∧
    (sample.insert_n (sample.cursor 2) 1 (.element (sample.cursor 0))).deque.p_buffer 0
      = 1 := by
  decide

/-- Claim C7: `erase(position)` on a well-formed deque whose iteration sequence is `s`, with
`position` at logical index `p < size()`, runs to completion; iterating afterwards yields
`s[0..p) ++ s[p+1..)` and `size()` has shrunk by 1. -/
theorem erase_removes_element (d : ideque T) (p : Nat) (s : List T)
    (hinv : Inv d) (hrep : Representable d) (hs : d.to_list = some s) (hp : p < d.size) :
    ∃ d' pos, d.erase (d.cursor p) = .ok d' pos ∧
      d'.to_list = some (s.take p ++ s.drop (p + 1)) ∧ d'.size = d.size - 1 := by
  obtain ⟨d', pos, hok, hI, _, _, hsz, hc, _⟩ := erase_post d p hinv hrep hp
  refine ⟨d', pos, hok, ?_, ?_⟩
  · rw [to_list_of_inv hI, hc, contents_of_to_list hinv hs]
  · unfold size
    omega

theorem erase_removes_element_witness :
    ∃ d' pos, sample.erase (sample.cursor 1) = .ok d' pos ∧
      d'.to_list = some ([0, 1, 2, 3].take 1 ++ [0, 1, 2, 3].drop (1 + 1)) ∧
      d'.size = sample.size - 1 :=
  erase_removes_element sample 1 [0, 1, 2, 3] (by decide) (by decide) (by decide) (by decide)

/-- Claim C8: `erase(first, last)` on a well-formed deque whose iteration sequence is `s`,
with the cursors at logical indices `i ≤ j ≤ size()` (the empty range and the whole range
included), runs to completion; iterating afterwards yields `s[0..i) ++ s[j..)` and `size()`
has shrunk by exactly `j - i`. -/
theorem erase_range_removes_run (d : ideque T) (i j : Nat) (s : List T)
    (hinv : Inv d) (hrep : Representable d) (hs : d.to_list = some s) (hij : i ≤ j)
    (hj : j ≤ d.size) :
    ∃ d' pos, d.erase_range (d.cursor i) (d.cursor j) = .ok d' pos ∧
      d'.to_list = some (s.take i ++ s.drop j) ∧ d'.size = d.size - (j - i) := by
  obtain ⟨d', pos, hok, hI, _, _, hsz, hc, _⟩ := erase_range_post d i j hinv hrep hij hj
  refine ⟨d', pos, hok, ?_, ?_⟩
  · rw [to_list_of_inv hI, hc, contents_of_to_list hinv hs,
      show i + (j - i) = j by omega]
  · unfold size
    omega

theorem erase_range_removes_run_witness :
    ∃ d' pos, sample.erase_range (sample.cursor 1) (sample.cursor 3) = .ok d' pos ∧
      d'.to_list = some ([0, 1, 2, 3].take 1 ++ [0, 1, 2, 3].drop 3) ∧
      d'.size = sample.size - (3 - 1) :=
  erase_range_removes_run sample 1 3 [0, 1, 2, 3] (by decide) (by decide) (by decide)
    (by decide) (by decide)

/-- Claim C9: on a well-formed deque, `erase(position)` at logical index `p < size()` and
`erase(first, last)` at logical indices `i ≤ j ≤ size()` run to completion and return the
cursor `begin() + p` (respectively `begin() + i`) of the new deque, whose distance from the
new `begin()` is `p` (respectively `i`); that cursor equals `end()` exactly when the erased
run reached the old end. -/
theorem erase_returns_position (d : ideque T) (p i j : Nat)
    (hinv : Inv d) (hrep : Representable d) :
    (p < d.size → ∃ d' pos, d.erase (d.cursor p) = .ok d' pos ∧
      pos = d'.cursor p ∧ d'.distance d'.begin_index pos = p ∧
      (pos = d'.end_index ↔ p + 1 = d.size)) ∧
    (i ≤ j → j ≤ d.size → ∃ d' pos, d.erase_range (d.cursor i) (d.cursor j) = .ok d' pos ∧
      pos = d'.cursor i ∧ d'.distance d'.begin_index pos = i ∧
      (pos = d'.end_index ↔ j = d.size)) := by
  refine ⟨?_, ?_⟩
  · intro hp
    obtain ⟨d', pos, hok, _, _, _, _, _, hcur, hdist, hend⟩ := erase_post d p hinv hrep hp
    exact ⟨d', pos, hok, hcur, by rw [distance_from_begin, hdist], hend⟩
  · intro hij hj
    obtain ⟨d', pos, hok, _, _, _, _, _, hcur, hdist, hend⟩ :=
      erase_range_post d i j hinv hrep hij hj
    refine ⟨d', pos, hok, hcur, by rw [distance_from_begin, hdist], ?_⟩
    rw [hend]
    unfold size
    omega

theorem erase_returns_position_witness :
    (3 < sample.size → ∃ d' pos, sample.erase (sample.cursor 3) = .ok d' pos ∧
      pos = d'.cursor 3 ∧ d'.distance d'.begin_index pos = (3 : Nat) ∧
      (pos = d'.end_index ↔ 3 + 1 = sample.size)) ∧
    (1 ≤ 2 → 2 ≤ sample.size →
      ∃ d' pos, sample.erase_range (sample.cursor 1) (sample.cursor 2) = .ok d' pos ∧
        pos = d'.cursor 1 ∧ d'.distance d'.begin_index pos = (1 : Nat) ∧
        (pos = d'.end_index ↔ 2 = sample.size)) :=
  erase_returns_position sample 3 1 2 (by decide) (by decide)

/-- Claim C10: `push_back(x)` on a well-formed, non-full deque whose iteration sequence is
`s` runs to completion and gives iteration sequence `s ++ [x]` and `size() + 1`; it stores
`x` in the slot previously addressed by `end` and changes no other slot, advances `end` by
one (wrapping from `BUFFER_SIZE - 1` to 0) and leaves `begin` unchanged. -/
theorem push_back_appends (d : ideque T) (x : T) (s : List T)
    (hinv : Inv d) (hrep : Representable d) (hnf : d.full = false)
    (hs : d.to_list = some s) :
    ∃ d', d.push_back x = .ok d' () ∧ d'.to_list = some (s ++ [x]) ∧
      d'.size = d.size + 1 ∧
      d'.p_buffer d.end_index = x ∧ (∀ j, j ≠ d.end_index → d'.p_buffer j = d.p_buffer j) ∧
      d'.end_index = (if d.end_index = (d.BUFFER_SIZE : Int) - 1 then 0 else d.end_index + 1) ∧
      d'.begin_index = d.begin_index := by
  obtain ⟨hok, hI, hc, hsz⟩ := push_back_post d x hinv hrep hnf
  refine ⟨_, hok, ?_, hsz, ?_, ?_, rfl, rfl⟩
  · rw [to_list_of_inv hI, hc, contents_of_to_list hinv hs]
  · simp [create_element_back, store]
  · intro j hj
    simp [create_element_back, store, hj]

theorem push_back_appends_witness :
    ∃ d', sample.push_back 9 = .ok d' () ∧ d'.to_list = some ([0, 1, 2, 3] ++ [9]) ∧
      d'.size = sample.size + 1 ∧
      d'.p_buffer sample.end_index = 9 ∧
      (∀ j, j ≠ sample.end_index → d'.p_buffer j = sample.p_buffer j) ∧
      d'.end_index
        = (if sample.end_index = (sample.BUFFER_SIZE : Int) - 1 then 0
           else sample.end_index + 1) ∧
      d'.begin_index = sample.begin_index :=
  push_back_appends sample 9 [0, 1, 2, 3] (by decide) (by decide) (by decide) (by decide)

/-! ## Pushing, popping and element access -/

theorem push_front_post (d : ideque T) (x : T) (hinv : Inv d) (hr : Representable d)
    (hnf : d.full = false) :
    d.push_front x = .ok (d.create_element_front x) () ∧ Inv (d.create_element_front x) ∧
      contents (d.create_element_front x) = x :: contents d ∧
      (d.create_element_front x).current_size = d.current_size + 1 := by
  obtain ⟨M, c, b, buf, rfl, hb0, hb1, hc, hz⟩ := inv_destruct d hinv
  simp only [Representable] at hr
  simp only [full, beq_eq_false_iff_ne, ne_eq] at hnf
  have hcM : c < M := by omega
  have hB : 0 < M + 1 := by omega
  have hsz : size_succ c = c + 1 := size_succ_of_lt (by omega)
  have e1 : create_element_front (⟨M, M + 1, c, b, slot (M + 1) b c, buf⟩ : ideque T) x
      = ⟨M, M + 1, c + 1, slot (M + 1) b (-1), slot (M + 1) b c,
          store buf (slot (M + 1) b (-1)) x⟩ := by
    simp only [create_element_front, hsz, dec_begin hz]
  refine ⟨?_, ?_, ?_, ?_⟩
  · simp [push_front, full, hnf]
  · rw [e1]
    exact inv_mk M (M + 1) (c + 1) b (-1) c _ rfl (by omega) (by omega)
  · rw [e1]
    have h := contents_splice M (M + 1) c 1 b (-1) (slot (M + 1) b c) (slot (M + 1) b c) buf
      (store buf (slot (M + 1) b (-1)) x) 0 (fun _ => x) (by omega) (by
        intro k hk
        rw [store_slot _ _ _ _ _ (by omega) (by omega)]
        by_cases hk0 : k = 0
        · subst hk0
          simp
        · rw [if_neg (by omega), if_neg (by omega), if_neg (by omega)]
          exact app_slot_congr _ (by omega))
    rw [h]
    simp
  · rw [e1]

theorem pop_back_post (d : ideque T) (hinv : Inv d) (hr : Representable d)
    (hne : d.empty = false) :
    ∃ d', d.pop_back = .ok d' () ∧ Inv d' ∧ contents d' = (contents d).dropLast ∧
      d'.current_size = d.current_size - 1 ∧ d'.begin_index = d.begin_index := by
  obtain ⟨M, c, b, buf, rfl, hb0, hb1, hc, hz⟩ := inv_destruct d hinv
  simp only [Representable] at hr
  simp only [empty, beq_eq_false_iff_ne, ne_eq] at hne
  have hB : 0 < M + 1 := by omega
  have hsp : size_pred c = c - 1 := size_pred_of_pos (by omega) (by omega)
  have e1 : destroy_element_back (⟨M, M + 1, c, b, slot (M + 1) b c, buf⟩ : ideque T)
      = ⟨M, M + 1, c - 1, b, slot (M + 1) b (c - 1), buf⟩ := by
    simp only [destroy_element_back, hsp, slot_dec hB]
  refine ⟨⟨M, M + 1, c - 1, b, slot (M + 1) b (c - 1), buf⟩, ?_, ?_, ?_, rfl, rfl⟩
  · rw [← e1]
    simp [pop_back, empty, hne]
  · have := inv_mk M (M + 1) (c - 1) b 0 (c - 1) buf rfl (by omega) (by omega)
    rw [hz] at this
    exact this
  · have h := contents_cut M (M + 1) c 1 b 0 (slot (M + 1) b c) (slot (M + 1) b (c - 1)) buf
      buf (c - 1) (by omega) (by
        intro k hk
        rw [if_pos (by omega)]
        exact app_slot_congr _ (by omega))
    rw [hz] at h
    rw [h, List.dropLast_eq_take, contents_length,
      List.drop_of_length_le (by rw [contents_length]; simp only; omega), List.append_nil]

theorem pop_front_post (d : ideque T) (hinv : Inv d) (hr : Representable d)
    (hne : d.empty = false) :
    ∃ d', d.pop_front = .ok d' () ∧ Inv d' ∧ contents d' = (contents d).tail ∧
      d'.current_size = d.current_size - 1 ∧ d'.end_index = d.end_index := by
  obtain ⟨M, c, b, buf, rfl, hb0, hb1, hc, hz⟩ := inv_destruct d hinv
  simp only [Representable] at hr
  simp only [empty, beq_eq_false_iff_ne, ne_eq] at hne
  have hB : 0 < M + 1 := by omega
  have hsp : size_pred c = c - 1 := size_pred_of_pos (by omega) (by omega)
  have e1 : destroy_element_front (⟨M, M + 1, c, b, slot (M + 1) b c, buf⟩ : ideque T)
      = ⟨M, M + 1, c - 1, slot (M + 1) b 1, slot (M + 1) b c, buf⟩ := by
    simp only [destroy_element_front, hsp, inc_begin hz]
  refine ⟨⟨M, M + 1, c - 1, slot (M + 1) b 1, slot (M + 1) b c, buf⟩, ?_, ?_, ?_, rfl, rfl⟩
  · rw [← e1]
    simp [pop_front, empty, hne]
  · exact inv_mk M (M + 1) (c - 1) b 1 c buf rfl (by omega) (by omega)
  · have h := contents_cut M (M + 1) c 1 b 1 (slot (M + 1) b c) (slot (M + 1) b c) buf
      buf 0 (by omega) (by
        intro k hk
        rw [if_neg (by omega)]
        exact app_slot_congr _ (by omega))
    rw [h]
    simp

theorem iterate_inc_begin {d : ideque T} (hinv : Inv d) (i : Nat) :
    Nat.iterate (iterator.inc d.BUFFER_SIZE) i d.begin_index
      = slot d.BUFFER_SIZE d.begin_index i := by
  induction i with
  | zero =>
    rw [Function.iterate_zero, id]
    exact hinv.begin_eq
  | succ k ih =>
    rw [Function.iterate_succ_apply', ih, slot_inc hinv.buffer_pos]
    exact slot_congr (by omega)

theorem element_at (d : ideque T) (i : Nat) (hinv : Inv d) (hr : Representable d)
    (hi : i < d.current_size) :
    (contents d)[i]? = some (d.p_buffer (d.cursor i)) ∧
      d.cursor i = Nat.iterate (iterator.inc d.BUFFER_SIZE) i d.begin_index := by
  have hcur := cursor_eq_slot hinv hr i (by obtain ⟨h1, _, _, _, _, h6, _⟩ := hinv; omega)
  rw [contents_getElem?, if_pos hi, hcur, iterate_inc_begin hinv]
  exact ⟨rfl, rfl⟩

theorem checked_access_reports (d : ideque T) (i : Nat) (hi : d.size ≤ i) :
    d.at_ i = .violation d ∧ d.at_const i = .violation d ∧ d.subscript i = .violation d := by
  unfold size at hi
  have h : ¬ (i < d.current_size) := by omega
  exact ⟨by simp [at_, h], by simp [at_const, h], by simp [subscript, h]⟩

/-- Claim C11: `push_front(x)` on a well-formed, non-full deque (empty or not) whose
iteration sequence is `s` runs to completion and gives iteration sequence `[x] ++ s` and
`size() + 1`; `end` is unchanged, `begin` moves to the slot immediately before the old
`begin` (wrapping from 0 to `BUFFER_SIZE - 1`), `x` is stored there and no other slot
changes. -/
theorem push_front_prepends (d : ideque T) (x : T) (s : List T)
    (hinv : Inv d) (hrep : Representable d) (hnf : d.full = false)
    (hs : d.to_list = some s) :
    ∃ d', d.push_front x = .ok d' () ∧ d'.to_list = some ([x] ++ s) ∧
      d'.size = d.size + 1 ∧ d'.end_index = d.end_index ∧
      d'.begin_index
        = (if d.begin_index = 0 then (d.BUFFER_SIZE : Int) - 1 else d.begin_index - 1) ∧
      d'.p_buffer d'.begin_index = x ∧
      (∀ j, j ≠ d'.begin_index → d'.p_buffer j = d.p_buffer j) := by
  obtain ⟨hok, hI, hc, hsz⟩ := push_front_post d x hinv hrep hnf
  refine ⟨_, hok, ?_, hsz, rfl, rfl, ?_, ?_⟩
  · rw [to_list_of_inv hI, hc, contents_of_to_list hinv hs]
    rfl
  · simp [create_element_front, store]
  · intro j hj
    simp only [create_element_front] at hj
    simp [create_element_front, store, hj]

theorem push_front_prepends_witness :
    ∃ d', sample.push_front 9 = .ok d' () ∧ d'.to_list = some ([9] ++ [0, 1, 2, 3]) ∧
      d'.size = sample.size + 1 ∧ d'.end_index = sample.end_index ∧
      d'.begin_index
        = (if sample.begin_index = 0 then (sample.BUFFER_SIZE : Int) - 1
           else sample.begin_index - 1) ∧
      d'.p_buffer d'.begin_index = 9 ∧
      (∀ j, j ≠ d'.begin_index → d'.p_buffer j = sample.p_buffer j) :=
  push_front_prepends sample 9 [0, 1, 2, 3] (by decide) (by decide) (by decide) (by decide)

/-- Claim C12, at a failing input: the empty deque `drained` is not full and satisfies
`end.index = (begin.index + size()) mod BUFFER_SIZE`; the default-constructing
`push_front()` reports no contract violation on it and raises `size()` by one, but leaves
`begin.index` where it was, so that afterwards `end.index` differs from
`(begin.index + size()) mod BUFFER_SIZE` and iterating from `begin()` to `end()` meets no
element. On the same deque `push_front(value)` keeps the relation. -/
theorem push_front_default_breaks_cursor_relation :
    drained.full = false ∧
    drained.end_index
      = (drained.begin_index + (drained.size : Int)) % (drained.BUFFER_SIZE : Int) ∧
    (drained.push_front_default 9).violated = false ∧
    (drained.push_front_default 9).deque.size = drained.size + 1 ∧
    (drained.push_front_default 9).deque.begin_index = drained.begin_index ∧
    (drained.push_front_default 9).deque.end_index ≠
      ((drained.push_front_default 9).deque.begin_index
        + ((drained.push_front_default 9).deque.size : Int))
        % ((drained.push_front_default 9).deque.BUFFER_SIZE : Int) ∧
    (drained.push_front_default 9).deque.to_list = some [] ∧
    (drained.push_front 9).deque.end_index =
      ((drained.push_front 9).deque.begin_index + ((drained.push_front 9).deque.size : Int))
        % ((drained.push_front 9).deque.BUFFER_SIZE : Int) ∧
    (drained.push_front 9).deque.to_list = some [9] := by
  decide

/-- Claim C13: `pop_back()` on a well-formed non-empty deque whose iteration sequence is `s`
runs to completion and leaves iteration sequence `s` without its last element, `size() - 1`
and `begin` unchanged; on an empty deque it reports a contract violation and leaves the
deque (both cursors, size and storage) as it was. -/
theorem pop_back_removes_last (d : ideque T) (s : List T)
    (hinv : Inv d) (hrep : Representable d) (hs : d.to_list = some s) :
    (d.empty = false → ∃ d', d.pop_back = .ok d' () ∧ d'.to_list = some s.dropLast ∧
      d'.size = d.size - 1 ∧ d'.begin_index = d.begin_index) ∧
    (d.empty = true → d.pop_back = .violation d) := by
  refine ⟨?_, ?_⟩
  · intro hne
    obtain ⟨d', hok, hI, hc, hsz, hb⟩ := pop_back_post d hinv hrep hne
    refine ⟨d', hok, ?_, hsz, hb⟩
    rw [to_list_of_inv hI, hc, contents_of_to_list hinv hs]
  · intro he
    simp [pop_back, he]

theorem pop_back_removes_last_witness :
    (∃ d', sample.pop_back = .ok d' () ∧ d'.to_list = some [0, 1, 2, 3].dropLast ∧
      d'.size = sample.size - 1 ∧ d'.begin_index = sample.begin_index) ∧
    drained.pop_back = .violation drained :=
  ⟨(pop_back_removes_last sample [0, 1, 2, 3] (by decide) (by decide) (by decide)).1
      (by decide),
    (pop_back_removes_last drained [] (by decide) (by decide) (by decide)).2 (by decide)⟩

/-- Claim C14: `pop_front()` on a well-formed non-empty deque whose iteration sequence is
`s` runs to completion and leaves iteration sequence `s` without its first element,
`size() - 1` and `end` unchanged; on an empty deque it is a silent no-operation: it reports
no contract violation and leaves the deque (both cursors and size) as it was. -/
theorem pop_front_removes_first (d : ideque T) (s : List T)
    (hinv : Inv d) (hrep : Representable d) (hs : d.to_list = some s) :
    (d.empty = false → ∃ d', d.pop_front = .ok d' () ∧ d'.to_list = some s.tail ∧
      d'.size = d.size - 1 ∧ d'.end_index = d.end_index) ∧
    (d.empty = true → d.pop_front = .ok d ()) := by
  refine ⟨?_, ?_⟩
  · intro hne
    obtain ⟨d', hok, hI, hc, hsz, hb⟩ := pop_front_post d hinv hrep hne
    refine ⟨d', hok, ?_, hsz, hb⟩
    rw [to_list_of_inv hI, hc, contents_of_to_list hinv hs]
  · intro he
    simp [pop_front, he]

theorem pop_front_removes_first_witness :
    (∃ d', sample.pop_front = .ok d' () ∧ d'.to_list = some [0, 1, 2, 3].tail ∧
      d'.size = sample.size - 1 ∧ d'.end_index = sample.end_index) ∧
    drained.pop_front = .ok drained () :=
  ⟨(pop_front_removes_first sample [0, 1, 2, 3] (by decide) (by decide) (by decide)).1
      (by decide),
    (pop_front_removes_first drained [] (by decide) (by decide) (by decide)).2 (by decide)⟩

/-- Claim C15: on every full deque (`size() == capacity()`), `push_back(x)` and
`push_front(x)` each report a contract violation and leave the deque (size, both cursors
and storage) as it was. -/
theorem push_on_full_reports (d : ideque T) (x : T) (hfull : d.size = d.capacity) :
    d.push_back x = .violation d ∧ d.push_front x = .violation d := by
  unfold size capacity at hfull
  exact ⟨by simp [push_back, full, hfull], by simp [push_front, full, hfull]⟩

theorem push_on_full_reports_witness :
    filled.push_back 9 = .violation filled ∧ filled.push_front 9 = .violation filled :=
  push_on_full_reports filled 9 (by decide)

/-- Claim C16, at a failing input: on the full deque `filled` (capacity 2, holding 5, 6 from
slot 1) the call `assign(first, first + 3)` with the range 7, 8, 9 reports a contract
violation, yet the deque it leaves holds 7, 8 from slot 0 instead of 5, 6 from slot 1: the
contents and both cursors changed before the report. The sibling `assign(3, 7)` reports the
violation with the deque untouched. -/
theorem assign_range_mutates_before_violation :
    filled.to_list = some [5, 6] ∧ filled.begin_index = 1 ∧ filled.end_index = 0 ∧
    (filled.assign_range (fun k => 7 + k) 3).violated = true ∧
    (filled.assign_range (fun k => 7 + k) 3).deque.to_list = some [7, 8] ∧
    (filled.assign_range (fun k => 7 + k) 3).deque.begin_index = 0 ∧
    (filled.assign_range (fun k => 7 + k) 3).deque.end_index = 2 ∧
    (filled.assign_n 3 7).violated = true ∧
    (filled.assign_n 3 7).deque.to_list = some [5, 6] ∧
    (filled.assign_n 3 7).deque.begin_index = 1 := by
  decide

/-- Claim C17, at a failing input: on the freshly initialised empty deque of capacity 2 the
call `erase(begin())` (where `begin() == end()`) reports no contract violation, advances
`begin` to slot 1 and leaves `size() == 18446744073709551615`, the wrapped value of `0 - 1`. -/
theorem erase_on_empty_wraps_size :
    (init 2 (fun _ => (0 : Nat))).size = 0 ∧
    (init 2 (fun _ => (0 : Nat))).begin_index = (init 2 (fun _ => (0 : Nat))).end_index ∧
    ((init 2 (fun _ => (0 : Nat))).erase
      (init 2 (fun _ => (0 : Nat))).begin_index).violated = false ∧
    ((init 2 (fun _ => (0 : Nat))).erase
      (init 2 (fun _ => (0 : Nat))).begin_index).deque.size = 18446744073709551615 ∧
    ((init 2 (fun _ => (0 : Nat))).erase
      (init 2 (fun _ => (0 : Nat))).begin_index).deque.begin_index = 1 ∧
    ((init 2 (fun _ => (0 : Nat))).erase
      (init 2 (fun _ => (0 : Nat))).begin_index).deque.end_index = 0 := by
  decide

/-- Claim C18, at a failing input: on the deque `sample` of size 4 the const `operator[]`
called with index 4 reports no contract violation and returns the content of a slot outside
the sequence, whereas `at(4)`, const `at(4)` and the non-const `operator[](4)` report the
violation. -/
theorem const_subscript_skips_range_check :
    sample.size ≤ 4 ∧
    (sample.subscript_const 4).violated = false ∧
    (sample.subscript_const 4).returned = some 4 ∧
    (sample.at_ 4).violated = true ∧
    (sample.at_const 4).violated = true ∧
    (sample.subscript 4).violated = true := by
  decide

/-- Claim C19: on a well-formed deque whose iteration sequence is `s`, for every
`i < size()` the four indexed accessors (`at` and `operator[]`, const and non-const) run to
completion and return the element stored in the slot reached from `begin()` by `i`
increments, which is `s[i]`, also when `begin.index + i` wraps past `BUFFER_SIZE - 1`;
`front()` is that element for `i = 0` and `back()` for `i = size() - 1`. -/
theorem indexed_access_returns_ith (d : ideque T) (i : Nat) (s : List T)
    (hinv : Inv d) (hrep : Representable d) (hs : d.to_list = some s) (hi : i < d.size) :
    ∃ v, s[i]? = some v ∧
      v = d.p_buffer (Nat.iterate (iterator.inc d.BUFFER_SIZE) i d.begin_index) ∧
      d.at_ i = .ok d v ∧ d.at_const i = .ok d v ∧
      d.subscript i = .ok d v ∧ d.subscript_const i = .ok d v ∧
      (i = 0 → d.front = v) ∧ (i + 1 = d.size → d.back = v) := by
  unfold size at hi
  obtain ⟨hget, hit⟩ := element_at d i hinv hrep hi
  have hc := contents_of_to_list hinv hs
  have hcur := cursor_eq_slot hinv hrep i (by obtain ⟨h1, _, _, _, _, h6, _⟩ := hinv; omega)
  refine ⟨d.p_buffer (d.cursor i), ?_, ?_, ?_, ?_, ?_, ?_, ?_, ?_⟩
  · rw [← hc, hget]
  · rw [hit]
  · simp [at_, hi, cursor]
  · simp [at_const, hi, cursor]
  · simp [subscript, hi, cursor]
  · simp [subscript_const, cursor]
  · intro h0
    subst h0
    rw [hcur]
    unfold front
    rw [Nat.cast_zero, ← hinv.begin_eq]
  · intro hl
    unfold size at hl
    rw [hcur]
    unfold back
    congr 1
    unfold Representable at hrep
    have hB := hinv.buffer_pos
    rw [hinv.end_eq, slot_sub hB hrep _ _ _ (by omega) (by omega)]
    exact slot_congr (by omega)

theorem indexed_access_returns_ith_witness :
    ∃ v, [0, 1, 2, 3][2]? = some v ∧
      v = sample.p_buffer (Nat.iterate (iterator.inc sample.BUFFER_SIZE) 2 sample.begin_index) ∧
      sample.at_ 2 = .ok sample v ∧ sample.at_const 2 = .ok sample v ∧
      sample.subscript 2 = .ok sample v ∧ sample.subscript_const 2 = .ok sample v ∧
      (2 = 0 → sample.front = v) ∧ (2 + 1 = sample.size → sample.back = v) :=
  indexed_access_returns_ith sample 2 [0, 1, 2, 3] (by decide) (by decide) (by decide)
    (by decide)

/-- Claim C20: for every `BUFFER_SIZE ≥ 1` and every index `i` in `[0, BUFFER_SIZE)`, the
cursor operator `++` yields `(i + 1) mod BUFFER_SIZE` and `--` yields
`(i + BUFFER_SIZE - 1) mod BUFFER_SIZE`; both results lie in `[0, BUFFER_SIZE)` and each
operator undoes the other. -/
theorem cursor_inc_dec (B : Nat) (i : Int) (hB : 1 ≤ B) (h0 : 0 ≤ i) (h1 : i < (B : Int)) :
    iterator.inc B i = (i + 1) % (B : Int) ∧
    iterator.dec B i = (i + (B : Int) - 1) % (B : Int) ∧
    0 ≤ iterator.inc B i ∧ iterator.inc B i < (B : Int) ∧
    0 ≤ iterator.dec B i ∧ iterator.dec B i < (B : Int) ∧
    iterator.dec B (iterator.inc B i) = i ∧ iterator.inc B (iterator.dec B i) = i := by
  have hs1 := emod_shift h0 h1 (k := 1) (by omega) (by omega)
  have hs2 := emod_shift h0 h1 (k := (B : Int) - 1) (by omega) (by omega)
  have e : i + (B : Int) - 1 = i + ((B : Int) - 1) := by ring
  rw [e, hs1, hs2]
  unfold iterator.inc iterator.dec
  refine ⟨?_, ?_, ?_, ?_, ?_, ?_, ?_, ?_⟩ <;> split_ifs <;> omega

theorem cursor_inc_dec_witness :
    iterator.inc 6 5 = (5 + 1) % ((6 : Nat) : Int) ∧
    iterator.dec 6 5 = (5 + ((6 : Nat) : Int) - 1) % ((6 : Nat) : Int) ∧
    0 ≤ iterator.inc 6 5 ∧ iterator.inc 6 5 < ((6 : Nat) : Int) ∧
    0 ≤ iterator.dec 6 5 ∧ iterator.dec 6 5 < ((6 : Nat) : Int) ∧
    iterator.dec 6 (iterator.inc 6 5) = 5 ∧ iterator.inc 6 (iterator.dec 6 5) = 5 :=
  cursor_inc_dec 6 5 (by decide) (by decide) (by decide)

/-! ## Cursor arithmetic, distances and sequences of end operations -/

theorem iterate_inc_slot {B : Nat} (hB : 0 < B) (b x : Int) (n : Nat) :
    Nat.iterate (iterator.inc B) n (slot B b x) = slot B b (x + n) := by
  induction n with
  | zero =>
    rw [Function.iterate_zero, id]
    exact slot_congr (by simp)
  | succ k ih =>
    rw [Function.iterate_succ_apply', ih, slot_inc hB]
    exact slot_congr (by push_cast; ring)

theorem iterate_dec_slot {B : Nat} (hB : 0 < B) (b x : Int) (n : Nat) :
    Nat.iterate (iterator.dec B) n (slot B b x) = slot B b (x - n) := by
  induction n with
  | zero =>
    rw [Function.iterate_zero, id]
    exact slot_congr (by simp)
  | succ k ih =>
    rw [Function.iterate_succ_apply', ih, slot_dec hB]
    exact slot_congr (by push_cast; ring)

theorem cursor_slot_of_range (d : ideque T) (i : Nat) (hrep : Representable d)
    (hb0 : 0 ≤ d.begin_index) (hb1 : d.begin_index < d.BUFFER_SIZE) (hi : i ≤ d.BUFFER_SIZE) :
    d.cursor i = slot d.BUFFER_SIZE d.begin_index i := by
  unfold Representable at hrep
  have hB : 0 < d.BUFFER_SIZE := by omega
  unfold cursor
  rw [to_difference_type_of_lt (by omega)]
  conv_lhs => rw [← slot_zero hb0 hb1]
  rw [slot_add hB hrep _ _ _ (by omega) (by omega), zero_add]

/-- Claim C21: for every buffer size `B` that fits the signed index type, every index `i`
in `[0, B)` and every signed offset `k` with `-B ≤ k ≤ B`, both `+= k` and `-= (-k)` give
the index `(i + k) mod B` (non-negative modulo), which lies in `[0, B)` and is what `k`
single increments (for `k > 0`) or `-k` single decrements (for `k < 0`) give. -/
theorem cursor_offset (B : Nat) (i k : Int) (hR : B < 9223372036854775808)
    (h0 : 0 ≤ i) (h1 : i < (B : Int)) (hk : -(B : Int) ≤ k) (hk2 : k ≤ (B : Int)) :
    iterator.add B i k = (i + k) % (B : Int) ∧
    iterator.sub B i (-k) = (i + k) % (B : Int) ∧
    0 ≤ (i + k) % (B : Int) ∧ (i + k) % (B : Int) < (B : Int) ∧
    (0 < k → Nat.iterate (iterator.inc B) k.toNat i = (i + k) % (B : Int)) ∧
    (k < 0 → Nat.iterate (iterator.dec B) (-k).toNat i = (i + k) % (B : Int)) := by
  have hB : 0 < B := by omega
  have hi : slot B i 0 = i := slot_zero h0 h1
  have ha := slot_add hB hR i 0 k hk hk2
  have hs := slot_sub hB hR i 0 (-k) (by omega) (by omega)
  have e1 : slot B i (0 + k) = (i + k) % (B : Int) := by
    unfold slot
    rw [zero_add]
  have e2 : slot B i (0 - -k) = (i + k) % (B : Int) := by
    unfold slot
    congr 1
    ring
  rw [hi, e1] at ha
  rw [hi, e2] at hs
  refine ⟨ha, hs, ?_, ?_, ?_, ?_⟩
  · rw [← e1]
    exact slot_nonneg hB _ _
  · rw [← e1]
    exact slot_lt hB _ _
  · intro hpos
    have h := iterate_inc_slot hB i 0 k.toNat
    rw [hi] at h
    rw [h, ← e1]
    exact slot_congr (by omega)
  · intro hneg
    have h := iterate_dec_slot hB i 0 (-k).toNat
    rw [hi] at h
    rw [h, ← e1]
    exact slot_congr (by omega)

theorem cursor_offset_witness :
    iterator.add 6 5 3 = (5 + 3) % ((6 : Nat) : Int) ∧
    iterator.sub 6 5 (-3) = (5 + 3) % ((6 : Nat) : Int) ∧
    0 ≤ (5 + 3) % ((6 : Nat) : Int) ∧ (5 + 3) % ((6 : Nat) : Int) < ((6 : Nat) : Int) ∧
    (0 < (3 : Int) →
      Nat.iterate (iterator.inc 6) (3 : Int).toNat 5 = (5 + 3) % ((6 : Nat) : Int)) ∧
    ((3 : Int) < 0 →
      Nat.iterate (iterator.dec 6) (-(3 : Int)).toNat 5 = (5 + 3) % ((6 : Nat) : Int)) :=
  cursor_offset 6 5 3 (by decide) (by decide) (by decide) (by decide) (by decide)

/-- Claim C22: in a deque whose `begin` index is any slot of the buffer, for all `i`, `j` in
`[0, BUFFER_SIZE)` the cursors `a = begin + i` and `b = begin + j` satisfy
`distance(a) = i` and `b - a = distance(a, b) = j - i` (signed), whether or not the raw
index of `a` or `b` has wrapped below that of `begin`; and `a < b` holds exactly when
`i < j`. -/
theorem cursor_distance (d : ideque T) (i j : Nat) (hrep : Representable d)
    (hb0 : 0 ≤ d.begin_index) (hb1 : d.begin_index < (d.BUFFER_SIZE : Int))
    (hi : i < d.BUFFER_SIZE) (hj : j < d.BUFFER_SIZE) :
    d.distance1 (d.cursor i) = (i : Int) ∧
    d.iterator_minus (d.cursor j) (d.cursor i) = (j : Int) - (i : Int) ∧
    d.distance (d.cursor i) (d.cursor j) = (j : Int) - (i : Int) ∧
    (d.iterator_lt (d.cursor i) (d.cursor j) = true ↔ i < j) := by
  have hB : 0 < d.BUFFER_SIZE := by omega
  have hb : d.begin_index = slot d.BUFFER_SIZE d.begin_index 0 := (slot_zero hb0 hb1).symm
  have hci := cursor_slot_of_range d i hrep hb0 hb1 (by omega)
  have hcj := cursor_slot_of_range d j hrep hb0 hb1 (by omega)
  have hdi : d.distance1 (d.cursor i) = (i : Int) := by
    rw [hci, distance1_slot d _ d.begin_index 0 i rfl hB hb (by omega) (by omega)]
    ring
  have hdj : d.distance1 (d.cursor j) = (j : Int) := by
    rw [hcj, distance1_slot d _ d.begin_index 0 j rfl hB hb (by omega) (by omega)]
    ring
  have hd : d.distance (d.cursor i) (d.cursor j) = (j : Int) - (i : Int) := by
    unfold distance
    rw [hdi, hdj]
  refine ⟨hdi, hd, hd, ?_⟩
  unfold iterator_lt
  rw [hd, decide_eq_true_eq]
  omega

theorem cursor_distance_witness :
    sample.distance1 (sample.cursor 3) = ((3 : Nat) : Int) ∧
    sample.iterator_minus (sample.cursor 0) (sample.cursor 3)
      = ((0 : Nat) : Int) - ((3 : Nat) : Int) ∧
    sample.distance (sample.cursor 3) (sample.cursor 0)
      = ((0 : Nat) : Int) - ((3 : Nat) : Int) ∧
    (sample.iterator_lt (sample.cursor 3) (sample.cursor 0) = true ↔ 3 < 0) :=
  cursor_distance sample 3 0 (by decide) (by decide) (by decide) (by decide) (by decide)

theorem pop_back_capacity (d : ideque T) : (d.pop_back).deque.MAX_SIZE = d.MAX_SIZE := by
  obtain ⟨M, B, c, b, e, buf⟩ := d
  unfold pop_back
  split <;> simp only [Outcome.deque, destroy_element_back]

theorem pop_front_capacity (d : ideque T) : (d.pop_front).deque.MAX_SIZE = d.MAX_SIZE := by
  obtain ⟨M, B, c, b, e, buf⟩ := d
  unfold pop_front
  split <;> simp only [Outcome.deque, destroy_element_front]

theorem inv_size_eq {d : ideque T} {l : List T} (h : contents d = l) :
    d.current_size = l.length := by
  rw [← h, contents_length]

theorem inv_representable {d : ideque T} (hinv : Inv d)
    (hcap : d.MAX_SIZE + 1 < 9223372036854775808) : Representable d := by
  obtain ⟨h1, _⟩ := hinv
  unfold Representable
  omega

theorem end_op_step (cap : Nat) (hcap : cap + 1 < 9223372036854775808) (op : EndOp T)
    (d : ideque T) (l : List T) (hinv : Inv d) (hM : d.MAX_SIZE = cap)
    (hc : contents d = l) (hop : op.allowed cap l = true) :
    (op.apply d).violated = false ∧ Inv (op.apply d).deque ∧
      (op.apply d).deque.MAX_SIZE = cap ∧ contents (op.apply d).deque = op.on_list l := by
  have hr : Representable d := inv_representable hinv (by omega)
  have hsz := inv_size_eq hc
  cases op with
  | push_back x =>
    simp only [EndOp.allowed, decide_eq_true_eq] at hop
    have hnf : d.full = false := by
      simp only [full, beq_eq_false_iff_ne, ne_eq]
      omega
    obtain ⟨hok, hI, hcon, _⟩ := push_back_post d x hinv hr hnf
    simp only [EndOp.apply, EndOp.on_list, hok, Outcome.violated, Outcome.deque]
    exact ⟨trivial, hI, hM, by rw [hcon, hc]⟩
  | push_front x =>
    simp only [EndOp.allowed, decide_eq_true_eq] at hop
    have hnf : d.full = false := by
      simp only [full, beq_eq_false_iff_ne, ne_eq]
      omega
    obtain ⟨hok, hI, hcon, _⟩ := push_front_post d x hinv hr hnf
    simp only [EndOp.apply, EndOp.on_list, hok, Outcome.violated, Outcome.deque]
    exact ⟨trivial, hI, hM, by rw [hcon, hc]; rfl⟩
  | pop_back =>
    simp only [EndOp.allowed, decide_eq_true_eq] at hop
    have hne : d.empty = false := by
      simp only [empty, beq_eq_false_iff_ne, ne_eq]
      omega
    obtain ⟨d', hok, hI, hcon, _, _⟩ := pop_back_post d hinv hr hne
    have hcapd := pop_back_capacity d
    rw [hok] at hcapd
    simp only [Outcome.deque] at hcapd
    simp only [EndOp.apply, EndOp.on_list, hok, Outcome.violated, Outcome.deque]
    exact ⟨trivial, hI, by rw [hcapd, hM], by rw [hcon, hc]⟩
  | pop_front =>
    by_cases he : d.empty = true
    · have hok : d.pop_front = .ok d () := by simp [pop_front, he]
      have hl : l = [] := by
        simp only [empty, beq_iff_eq] at he
        exact List.length_eq_zero.mp (by omega)
      simp only [EndOp.apply, EndOp.on_list, hok, Outcome.violated, Outcome.deque]
      exact ⟨trivial, hinv, hM, by rw [hc, hl]; rfl⟩
    · have hne : d.empty = false := by simpa using he
      obtain ⟨d', hok, hI, hcon, _, _⟩ := pop_front_post d hinv hr hne
      have hcapd := pop_front_capacity d
      rw [hok] at hcapd
      simp only [Outcome.deque] at hcapd
      simp only [EndOp.apply, EndOp.on_list, hok, Outcome.violated, Outcome.deque]
      exact ⟨trivial, hI, by rw [hcapd, hM], by rw [hcon, hc]⟩

theorem run_ops_refines (cap : Nat) (hcap : cap + 1 < 9223372036854775808)
    (ops : List (EndOp T)) :
    ∀ (d : ideque T) (l : List T), Inv d → d.MAX_SIZE = cap → contents d = l →
      allowed_ops cap l ops = true →
      run_violates d ops = false ∧ Inv (run_ops d ops) ∧
        contents (run_ops d ops) = list_ops l ops := by
  induction ops with
  | nil =>
    intro d l hinv _ hc _
    exact ⟨rfl, hinv, hc⟩
  | cons op ops ih =>
    intro d l hinv hM hc hall
    simp only [allowed_ops, Bool.and_eq_true] at hall
    obtain ⟨hv, hI, hM2, hc2⟩ := end_op_step cap hcap op d l hinv hM hc hall.1
    obtain ⟨hv3, hI3, hc3⟩ := ih _ _ hI hM2 hc2 hall.2
    simp only [run_violates, run_ops, list_ops, hv, hv3, Bool.or_self]
    exact ⟨trivial, hI3, hc3⟩

theorem allowed_ops_take (cap : Nat) (ops : List (EndOp T)) :
    ∀ (l : List T) (k : Nat), allowed_ops cap l ops = true →
      allowed_ops cap l (ops.take k) = true := by
  induction ops with
  | nil =>
    intro l k h
    rw [List.take_nil]
    exact h
  | cons op ops ih =>
    intro l k h
    cases k with
    | zero => rfl
    | succ k =>
      simp only [allowed_ops, Bool.and_eq_true] at h
      simp only [List.take_succ_cons, allowed_ops, Bool.and_eq_true]
      exact ⟨h.1, ih _ _ h.2⟩

theorem inv_init (cap : Nat) (buf : Int → T) : Inv (init cap buf) := by
  simp [Inv, init]

/-- Claim C27: for every capacity and every finite sequence of `push_back(x)`,
`push_front(x)`, `pop_back` and `pop_front` calls applied to the initially empty deque, in
which no push is issued when full and no `pop_back` when empty, no call reports a
violation and after each step (after the first `k` calls, for every `k`) the iteration
sequence and `size()` are those of the plain list obtained by the same operations (append,
prepend, drop last, drop first), however often the cursors wrap. -/
theorem end_ops_refine_list (cap : Nat) (buf : Int → T) (ops : List (EndOp T)) (k : Nat)
    (hcap : cap + 1 < 9223372036854775808) (hall : allowed_ops cap [] ops = true) :
    run_violates (init cap buf) ops = false ∧
    (run_ops (init cap buf) (ops.take k)).to_list = some (list_ops [] (ops.take k)) ∧
    (run_ops (init cap buf) (ops.take k)).size = (list_ops [] (ops.take k)).length := by
  have h0 : contents (init cap buf) = [] := by simp [contents, init]
  obtain ⟨hv, _, _⟩ := run_ops_refines cap hcap ops (init cap buf) [] (inv_init cap buf) rfl
    h0 hall
  obtain ⟨_, hI, hc⟩ := run_ops_refines cap hcap (ops.take k) (init cap buf) []
    (inv_init cap buf) rfl h0 (allowed_ops_take cap ops [] k hall)
  refine ⟨hv, ?_, ?_⟩
  · rw [to_list_of_inv hI, hc]
  · unfold size
    exact inv_size_eq hc

theorem end_ops_refine_list_witness :
    run_violates (init 2 (fun _ => (0 : Nat)))
      [.push_back 1, .push_back 2, .pop_front, .push_back 3, .pop_front, .push_front 4,
        .pop_back, .push_front 5, .pop_back, .push_front 6, .pop_back, .push_front 7] = false ∧
    (run_ops (init 2 (fun _ => (0 : Nat)))
      (List.take 12 [.push_back 1, .push_back 2, .pop_front, .push_back 3, .pop_front,
        .push_front 4, .pop_back, .push_front 5, .pop_back, .push_front 6, .pop_back,
        .push_front 7])).to_list
      = some (list_ops [] (List.take 12 [.push_back 1, .push_back 2, .pop_front, .push_back 3,
        .pop_front, .push_front 4, .pop_back, .push_front 5, .pop_back, .push_front 6,
        .pop_back, .push_front 7])) ∧
    (run_ops (init 2 (fun _ => (0 : Nat)))
      (List.take 12 [.push_back 1, .push_back 2, .pop_front, .push_back 3, .pop_front,
        .push_front 4, .pop_back, .push_front 5, .pop_back, .push_front 6, .pop_back,
        .push_front 7])).size
      = (list_ops [] (List.take 12 [.push_back 1, .push_back 2, .pop_front, .push_back 3,
        .pop_front, .push_front 4, .pop_back, .push_front 5, .pop_back, .push_front 6,
        .pop_back, .push_front 7])).length :=
  end_ops_refine_list 2 (fun _ => 0)
    [.push_back 1, .push_back 2, .pop_front, .push_back 3, .pop_front, .push_front 4,
      .pop_back, .push_front 5, .pop_back, .push_front 6, .pop_back, .push_front 7] 12
    (by decide) (by decide)

/-- Claim C28: on the empty deque of capacity 5, `push_back(1)`, `push_back(2)`,
`push_back(3)`, `push_front(0)` give the iteration sequence `[0, 1, 2, 3]` and size 4;
`insert(begin() + 2, 99)` then gives `[0, 1, 99, 2, 3]` and size 5; a further `push_back`
reports a violation and changes nothing; `erase(begin() + 1)` then gives `[0, 99, 2, 3]`
and size 4. -/
theorem concrete_scenario :
    scenario_pushed.to_list = some [0, 1, 2, 3] ∧ scenario_pushed.size = 4 ∧
    scenario_inserted.violated = false ∧
    scenario_inserted.deque.to_list = some [0, 1, 99, 2, 3] ∧
    scenario_inserted.deque.size = 5 ∧
    scenario_overfull.violated = true ∧
    scenario_overfull.deque.to_list = some [0, 1, 99, 2, 3] ∧
    scenario_overfull.deque.size = 5 ∧
    scenario_erased.violated = false ∧
    scenario_erased.deque.to_list = some [0, 99, 2, 3] ∧
    scenario_erased.deque.size = 4 := by
  decide

/-- Claim C30, at a failing input: with `a` holding 5 and `b` holding 5, 6, so that `a` is a
proper prefix of `b`, `a > b` returns true although `b < a` returns false; and `b > a`
returns false although `a < b` returns true. -/
theorem operator_gt_accepts_proper_prefix :
    (filled.pop_back).deque.to_list = some [5] ∧ filled.to_list = some [5, 6] ∧
    operator_gt (filled.pop_back).deque filled = some true ∧
    operator_lt filled (filled.pop_back).deque = some false ∧
    operator_gt filled (filled.pop_back).deque = some false ∧
    operator_lt (filled.pop_back).deque filled = some true := by
  decide

/-! ## Clearing, assigning copies and resizing -/

theorem size_pred_lt {n : Nat} (h : 0 < n) : size_pred n < n := by
  unfold size_pred
  omega

theorem destroy_back_while_zero (fuel : Nat) :
    ∀ (M B c : Nat) (b e : Int) (buf : Int → T), c ≤ fuel →
      ∃ e', destroy_back_while 0 fuel (⟨M, B, c, b, e, buf⟩ : ideque T)
        = ⟨M, B, 0, b, e', buf⟩ := by
  induction fuel with
  | zero =>
    intro M B c b e buf h
    have h0 : c = 0 := by omega
    subst h0
    exact ⟨e, by rw [destroy_back_while]⟩
  | succ f ih =>
    intro M B c b e buf h
    by_cases hc : c > 0
    · have e1 : destroy_element_back (⟨M, B, c, b, e, buf⟩ : ideque T)
          = ⟨M, B, size_pred c, b, iterator.dec B e, buf⟩ := by
        simp only [destroy_element_back]
      have hlt := size_pred_lt hc
      obtain ⟨e', he'⟩ := ih M B (size_pred c) b (iterator.dec B e) buf (by omega)
      refine ⟨e', ?_⟩
      rw [destroy_back_while,
        if_pos (show (⟨M, B, c, b, e, buf⟩ : ideque T).current_size > 0 from hc), e1, he']
    · have h0 : c = 0 := by omega
      subst h0
      refine ⟨e, ?_⟩
      rw [destroy_back_while,
        if_neg (show ¬ (⟨M, B, 0, b, e, buf⟩ : ideque T).current_size > 0 from hc)]

theorem initialise_spec (d : ideque T) :
    d.initialise = ⟨d.MAX_SIZE, d.BUFFER_SIZE, 0, 0, 0, d.p_buffer⟩ := by
  obtain ⟨M, B, c, b, e, buf⟩ := d
  obtain ⟨e', he'⟩ := destroy_back_while_zero c M B c b e buf (le_refl _)
  simp only [initialise]
  rw [he']

theorem destroy_back_while_repeat (bound fuel : Nat) :
    ∀ (M B c : Nat) (b e : Int) (buf : Int → T), bound ≤ c → c - bound ≤ fuel →
      c < 9223372036854775808 →
      destroy_back_while bound fuel (⟨M, B, c, b, e, buf⟩ : ideque T)
        = repeat_op destroy_element_back (c - bound) ⟨M, B, c, b, e, buf⟩ := by
  induction fuel with
  | zero =>
    intro M B c b e buf h1 h2 _
    have h0 : c - bound = 0 := by omega
    rw [h0, destroy_back_while, repeat_op]
  | succ f ih =>
    intro M B c b e buf h1 h2 h3
    by_cases hc : c > bound
    · have e1 : destroy_element_back (⟨M, B, c, b, e, buf⟩ : ideque T)
          = ⟨M, B, c - 1, b, iterator.dec B e, buf⟩ := by
        simp only [destroy_element_back, size_pred_of_pos (show 0 < c by omega) h3]
      have hk : c - bound = (c - 1 - bound) + 1 := by omega
      rw [destroy_back_while,
        if_pos (show (⟨M, B, c, b, e, buf⟩ : ideque T).current_size > bound from hc), e1,
        ih M B (c - 1) b (iterator.dec B e) buf (by omega) (by omega) (by omega), hk,
        repeat_op, e1]
    · have h0 : c - bound = 0 := by omega
      rw [h0, destroy_back_while,
        if_neg (show ¬ (⟨M, B, c, b, e, buf⟩ : ideque T).current_size > bound from hc),
        repeat_op]

theorem resize_post (d : ideque T) (n : Nat) (v : T) (hinv : Inv d) (hr : Representable d)
    (hn : n ≤ d.MAX_SIZE) :
    ∃ d', d.resize n v = .ok d' () ∧ Inv d' ∧ d'.current_size = n ∧
      d'.begin_index = d.begin_index ∧
      (∀ k : Nat, (contents d')[k]? =
        if k < n then (if k < d.current_size then (contents d)[k]? else some v) else none) ∧
      (∀ k : Nat, k < d.current_size → k < n →
        d'.p_buffer (slot d.BUFFER_SIZE d.begin_index k)
          = d.p_buffer (slot d.BUFFER_SIZE d.begin_index k)) := by
  obtain ⟨M, c, b, buf, rfl, hb0, hb1, hc, hz⟩ := inv_destruct d hinv
  simp only [Representable] at hr
  simp only at hn
  have hB : 0 < M + 1 := by omega
  simp only [resize]
  rw [if_neg (not_not.mpr hn)]
  by_cases h1 : n < c
  · rw [if_pos h1, destroy_back_while_repeat n c M (M + 1) c b _ buf (by omega) (by omega)
      (by omega),
      repeat_destroy_back_spec (c - n) _ (M + 1) b c rfl hB rfl (by simp only; omega)
        (by simp only; omega)]
    simp only
    have he : ((c : Int) - ((c - n : Nat) : Int)) = n := by omega
    rw [he, show c - (c - n) = n by omega]
    refine ⟨_, rfl, ?_, rfl, rfl, ?_, ?_⟩
    · have := inv_mk M (M + 1) n b 0 n buf rfl hn (by ring)
      rw [hz] at this
      exact this
    · intro k
      rw [contents_getElem?, contents_getElem?]
      simp only
      split_ifs <;> first | rfl | omega
    · intro k _ _
      rfl
  · rw [if_neg h1]
    by_cases h2 : n > c
    · have hcount : (n + 18446744073709551616 - c) % 18446744073709551616 = n - c := by omega
      rw [if_pos h2, hcount, repeat_create_back_eq _ _ _ 0]
      obtain ⟨g, hg, hs⟩ := create_back_from_range (n - c)
        (⟨M, M + 1, c, b, slot (M + 1) b c, buf⟩ : ideque T) (fun _ => v) 0 (M + 1) b c rfl hB
        rfl (by simp only; omega)
      rw [hg]
      simp only at hs ⊢
      have he : ((c : Int) + ((n - c : Nat) : Int)) = n := by omega
      rw [he, show c + (n - c) = n by omega]
      refine ⟨_, rfl, ?_, rfl, rfl, ?_, ?_⟩
      · have := inv_mk M (M + 1) n b 0 n g rfl hn (by ring)
        rw [hz] at this
        exact this
      · intro k
        rw [contents_getElem?, contents_getElem?]
        simp only
        by_cases hk : k < n
        · rw [if_pos hk, if_pos hk, hs k (by omega) (by omega)]
          by_cases hkc : k < c
          · rw [if_neg (by omega), if_pos hkc, if_pos hkc]
          · rw [if_pos (by omega), if_neg hkc]
        · rw [if_neg hk, if_neg hk]
      · intro k hk1 _
        show g (slot (M + 1) b k) = buf (slot (M + 1) b k)
        rw [hs k (by omega) (by omega), if_neg (by omega)]
    · have hnc : n = c := by omega
      subst hnc
      rw [if_neg h2]
      refine ⟨_, rfl, hinv, rfl, rfl, ?_, ?_⟩
      · intro k
        rw [contents_getElem?]
        simp only
        split_ifs <;> rfl
      · intro k _ _
        rfl

theorem assign_n_post (d : ideque T) (n : Nat) (v : T) (hB1 : d.BUFFER_SIZE = d.MAX_SIZE + 1)
    (hr : Representable d) (hn : n ≤ d.MAX_SIZE) :
    ∃ d', d.assign_n n v = .ok d' () ∧ Inv d' ∧ contents d' = List.replicate n v ∧
      d'.begin_index = 0 ∧ d'.end_index = n := by
  obtain ⟨M, B, c, b, e, buf⟩ := d
  simp only at hB1 hn
  subst hB1
  simp only [Representable] at hr
  have hB : 0 < M + 1 := by omega
  have hz : slot (M + 1) 0 0 = 0 := slot_zero (le_refl _) (by omega)
  simp only [assign_n]
  rw [if_neg (not_not.mpr hn), initialise_spec]
  simp only
  rw [repeat_create_back_eq _ _ _ 0]
  obtain ⟨g, hg, hs⟩ := create_back_from_range n
    (⟨M, M + 1, 0, 0, 0, buf⟩ : ideque T) (fun _ => v) 0 (M + 1) 0 0 rfl hB
    hz.symm (by simp only; omega)
  rw [hg]
  simp only at hs ⊢
  have hen2 : slot (M + 1) 0 (n : Int) = n := by
    unfold slot
    rw [zero_add]
    exact Int.emod_eq_of_lt (by omega) (by omega)
  have hen : slot (M + 1) 0 (0 + (n : Int)) = n := by
    rw [zero_add]
    exact hen2
  rw [hen, zero_add]
  refine ⟨_, rfl, ?_, ?_, rfl, rfl⟩
  · have := inv_mk M (M + 1) n 0 0 n g rfl hn (by ring)
    rw [hz] at this
    rw [hen2] at this
    exact this
  · apply List.ext_getElem?
    intro k
    rw [contents_getElem?, List.getElem?_replicate]
    simp only
    by_cases hk : k < n
    · rw [if_pos hk, if_pos hk, hs k (by omega) (by omega), if_pos (by omega)]
    · rw [if_neg hk, if_neg hk]

/-- Claim C24: `resize(new_size, value)` with `new_size ≤ capacity()` on a well-formed
deque whose iteration sequence is `s` runs to completion; the iteration sequence becomes the
first `new_size` elements of `s` when `new_size ≤ |s|`, and otherwise `s` followed by
`new_size - |s|` copies of `value`. In both cases `size() == new_size`, `begin` is
unchanged and every retained element stays in the slot it occupied. -/
theorem resize_truncates_or_pads (d : ideque T) (new_size : Nat) (value : T) (s : List T)
    (hinv : Inv d) (hrep : Representable d) (hs : d.to_list = some s)
    (hn : new_size ≤ d.capacity) :
    ∃ d', d.resize new_size value = .ok d' () ∧
      (new_size ≤ s.length → d'.to_list = some (s.take new_size)) ∧
      (s.length < new_size →
        d'.to_list = some (s ++ List.replicate (new_size - s.length) value)) ∧
      d'.size = new_size ∧ d'.begin_index = d.begin_index ∧
      (∀ k : Nat, k < s.length → k < new_size →
        d'.p_buffer (d.cursor k) = d.p_buffer (d.cursor k)) := by
  have hc := contents_of_to_list hinv hs
  have hlen : s.length = d.current_size := by rw [← hc, contents_length]
  obtain ⟨d', hok, hI, hsz, hb, hcon, hfix⟩ := resize_post d new_size value hinv hrep hn
  refine ⟨d', hok, ?_, ?_, hsz, hb, ?_⟩
  · intro hle
    rw [to_list_of_inv hI]
    congr 1
    apply List.ext_getElem?
    intro k
    rw [hcon k, List.getElem?_take, hc]
    split_ifs <;> first | rfl | omega
  · intro hlt
    rw [to_list_of_inv hI]
    congr 1
    apply List.ext_getElem?
    intro k
    rw [hcon k, List.getElem?_append, List.getElem?_replicate, hc]
    split_ifs <;> first | rfl | omega
  · intro k hk1 hk2
    rw [cursor_eq_slot hinv hrep k (by obtain ⟨h1, _, _, _, _, h6, _⟩ := hinv; omega)]
    exact hfix k (by omega) hk2

theorem resize_truncates_or_pads_witness :
    (∃ d', sample.resize 2 7 = .ok d' () ∧ d'.to_list = some ([0, 1, 2, 3].take 2) ∧
      d'.size = 2 ∧ d'.begin_index = sample.begin_index) ∧
    (∃ d', sample.resize 5 7 = .ok d' () ∧
      d'.to_list = some ([0, 1, 2, 3] ++ List.replicate (5 - [0, 1, 2, 3].length) 7) ∧
      d'.size = 5 ∧ d'.begin_index = sample.begin_index) := by
  obtain ⟨d1, h1, h2, _, h3, h4, _⟩ :=
    resize_truncates_or_pads sample 2 7 [0, 1, 2, 3] (by decide) (by decide) (by decide)
      (by decide)
  obtain ⟨d2, k1, _, k2, k3, k4, _⟩ :=
    resize_truncates_or_pads sample 5 7 [0, 1, 2, 3] (by decide) (by decide) (by decide)
      (by decide)
  exact ⟨⟨d1, h1, h2 (by decide), h3, h4⟩, ⟨d2, k1, k2 (by decide), k3, k4⟩⟩

/-- Claim C25: `clear()` on any deque state leaves `size() == 0` and
`begin.index == end.index == 0`; `assign(n, value)` with `n ≤ capacity()`, on any state of
a deque whose buffer has `capacity() + 1` slots, runs to completion and leaves an iteration
sequence of exactly `n` copies of `value` with `begin.index == 0` and `end.index == n`. -/
theorem clear_and_assign_n (d : ideque T) (n : Nat) (value : T) :
    (d.clear.size = 0 ∧ d.clear.begin_index = 0 ∧ d.clear.end_index = 0) ∧
    (d.BUFFER_SIZE = d.capacity + 1 → Representable d → n ≤ d.capacity →
      ∃ d', d.assign_n n value = .ok d' () ∧ d'.to_list = some (List.replicate n value) ∧
        d'.begin_index = 0 ∧ d'.end_index = (n : Int)) := by
  refine ⟨?_, ?_⟩
  · unfold clear
    rw [initialise_spec]
    exact ⟨rfl, rfl, rfl⟩
  · intro hB hrep hn
    obtain ⟨d', hok, hI, hc, hb, he⟩ := assign_n_post d n value hB hrep hn
    exact ⟨d', hok, by rw [to_list_of_inv hI, hc], hb, he⟩

theorem clear_and_assign_n_witness :
    (sample.clear.size = 0 ∧ sample.clear.begin_index = 0 ∧ sample.clear.end_index = 0) ∧
    ∃ d', sample.assign_n 3 8 = .ok d' () ∧ d'.to_list = some (List.replicate 3 8) ∧
      d'.begin_index = 0 ∧ d'.end_index = ((3 : Nat) : Int) :=
  ⟨(clear_and_assign_n sample 3 8).1,
    (clear_and_assign_n sample 3 8).2 (by decide) (by decide) (by decide)⟩

/-! ## Equality and assignment from another deque -/

theorem std_equal_spec [DecidableEq T] (l r : ideque T) (Bl Br : Nat) (bl br : Int) (c : Nat)
    (hl : l.BUFFER_SIZE = Bl) (hr : r.BUFFER_SIZE = Br) (hBl : 0 < Bl) (hBr : 0 < Br)
    (he : l.end_index = slot Bl bl c) (hc : c < Bl) :
    ∀ (k x fuel : Nat), x + k = c → k < fuel →
      ∃ b, std_equal l r l.end_index fuel (slot Bl bl x) (slot Br br x) = some b ∧
        (b = true ↔ ∀ y : Nat, x ≤ y → y < c →
          l.p_buffer (slot Bl bl y) = r.p_buffer (slot Br br y)) := by
  intro k
  induction k with
  | zero =>
    intro x fuel hx hf
    obtain ⟨f, rfl⟩ : ∃ f, fuel = f + 1 := ⟨fuel - 1, by omega⟩
    have hxc : x = c := by omega
    subst hxc
    refine ⟨true, ?_, ?_⟩
    · rw [std_equal, if_pos he.symm]
    · constructor
      · intro _ y h1 h2
        omega
      · intro _
        rfl
  | succ k ih =>
    intro x fuel hx hf
    obtain ⟨f, rfl⟩ : ∃ f, fuel = f + 1 := ⟨fuel - 1, by omega⟩
    have hne : slot Bl bl x ≠ l.end_index := by
      rw [he]
      intro h
      have := slot_inj bl x c (by omega) (by omega) h
      omega
    have hcast : ((x : Int) + 1) = ((x + 1 : Nat) : Int) := by push_cast; ring
    by_cases heq : l.p_buffer (slot Bl bl x) = r.p_buffer (slot Br br x)
    · obtain ⟨b, hb, hiff⟩ := ih (x + 1) f (by omega) (by omega)
      refine ⟨b, ?_, ?_⟩
      · rw [std_equal, if_neg hne, if_pos heq, hl, hr, slot_inc hBl, slot_inc hBr, hcast]
        exact hb
      · rw [hiff]
        constructor
        · intro h y h1 h2
          by_cases hy : y = x
          · subst hy
            exact heq
          · exact h y (by omega) h2
        · intro h y h1 h2
          exact h y (by omega) h2
    · refine ⟨false, ?_, ?_⟩
      · rw [std_equal, if_neg hne, if_neg heq]
      · constructor
        · intro h
          exact absurd h (by decide)
        · intro h
          exact absurd (h x (le_refl _) (by omega)) heq

theorem operator_eq_spec [DecidableEq T] (l r : ideque T) (h1 : Inv l) (h2 : Inv r) :
    ∃ b, operator_eq l r = some b ∧ (b = true ↔ contents l = contents r) := by
  have hBl := h1.buffer_pos
  have hBr := h2.buffer_pos
  have hcl : l.current_size < l.BUFFER_SIZE := by
    obtain ⟨a1, _, _, _, _, a6, _⟩ := h1
    omega
  unfold operator_eq size
  by_cases hsz : l.current_size = r.current_size
  · obtain ⟨b, hb, hiff⟩ := std_equal_spec l r l.BUFFER_SIZE r.BUFFER_SIZE l.begin_index
      r.begin_index l.current_size rfl rfl hBl hBr h1.end_eq hcl l.current_size 0
      (l.BUFFER_SIZE + 1) (by omega) (by omega)
    rw [Nat.cast_zero, ← h1.begin_eq, ← h2.begin_eq] at hb
    refine ⟨b, by rw [if_pos hsz]; exact hb, ?_⟩
    rw [hiff]
    constructor
    · intro h
      apply List.ext_getElem?
      intro k
      rw [contents_getElem?, contents_getElem?, ← hsz]
      by_cases hk : k < l.current_size
      · rw [if_pos hk, if_pos hk, h k (Nat.zero_le _) hk]
      · rw [if_neg hk, if_neg hk]
    · intro h y _ hy
      have e := congrArg (fun s => s[y]?) h
      simp only at e
      rw [contents_getElem?, contents_getElem?, if_pos hy, if_pos (by omega)] at e
      exact Option.some.inj e
  · refine ⟨false, by rw [if_neg hsz], ?_⟩
    constructor
    · intro h
      exact absurd h (by decide)
    · intro h
      have e := congrArg List.length h
      rw [contents_length, contents_length] at e
      exact absurd e hsz

theorem assign_cursor_loop_spec (other : ideque T) (Bo : Nat) (bo : Int) (co : Nat)
    (ho : other.BUFFER_SIZE = Bo) (hBo : 0 < Bo) (heo : other.end_index = slot Bo bo co)
    (hco : co < Bo) :
    ∀ (k x fuel : Nat) (d : ideque T), x + k = co → k < fuel → Inv d → Representable d →
      co ≤ d.MAX_SIZE → d.current_size = x →
      ∃ d', assign_cursor_loop (.another other) other.end_index fuel (slot Bo bo x) d
          = some (.ok d' ()) ∧
        Inv d' ∧ d'.begin_index = d.begin_index ∧ d'.current_size = co ∧
        ∀ j : Nat, (contents d')[j]? =
          if j < x then (contents d)[j]?
          else if j < co then some (other.p_buffer (slot Bo bo j)) else none := by
  intro k
  induction k with
  | zero =>
    intro x fuel d hx hf hinv _ _ hsz
    obtain ⟨f, rfl⟩ : ∃ f, fuel = f + 1 := ⟨fuel - 1, by omega⟩
    have hxc : x = co := by omega
    subst hxc
    refine ⟨d, ?_, hinv, rfl, hsz, ?_⟩
    · rw [assign_cursor_loop, if_pos heo.symm]
    · intro j
      rw [contents_getElem?, hsz]
      split_ifs <;> rfl
  | succ k ih =>
    intro x fuel d hx hf hinv hrep hcap hsz
    obtain ⟨f, rfl⟩ : ∃ f, fuel = f + 1 := ⟨fuel - 1, by omega⟩
    have hne : slot Bo bo x ≠ other.end_index := by
      rw [heo]
      intro h
      have := slot_inj bo x co (by omega) (by omega) h
      omega
    have hcast : ((x : Int) + 1) = ((x + 1 : Nat) : Int) := by push_cast; ring
    have hnf : d.full = false := by
      simp only [full, beq_eq_false_iff_ne, ne_eq]
      omega
    obtain ⟨hok, hI, hcon, hsz1⟩ := push_back_post d (other.p_buffer (slot Bo bo x)) hinv hrep hnf
    obtain ⟨d', hd', hI', hb', hs', hc'⟩ :=
      ih (x + 1) f (d.create_element_back (other.p_buffer (slot Bo bo x))) (by omega) (by omega)
        hI hrep hcap (by rw [hsz1, hsz])
    refine ⟨d', ?_, hI', hb', hs', ?_⟩
    · rw [assign_cursor_loop, if_neg hne]
      simp only [resolve]
      rw [hok]
      simp only
      rw [ho, slot_inc hBo, hcast]
      exact hd'
    · intro j
      rw [hc' j, hcon, List.getElem?_append, contents_length, hsz]
      by_cases h1 : j < x
      · simp only [h1, if_true, show j < x + 1 from by omega]
      · by_cases h2 : j = x
        · subst h2
          simp only [lt_irrefl, if_false, Nat.lt_succ_self, if_true, Nat.sub_self,
            show j < co from by omega]
          rfl
        · simp only [h1, if_false, show ¬ j < x + 1 from by omega]

theorem assign_from_post (c d : ideque T) (hinv : Inv d)
    (hB : c.BUFFER_SIZE = c.MAX_SIZE + 1) (hrc : Representable c)
    (hcap : d.current_size ≤ c.MAX_SIZE) :
    ∃ c', c.assign_from (.another d) = some (.ok c' ()) ∧ Inv c' ∧ c'.begin_index = 0 ∧
      contents c' = contents d := by
  have hBd := hinv.buffer_pos
  have hcd : d.current_size < d.BUFFER_SIZE := by
    obtain ⟨a1, _, _, _, _, a6, _⟩ := hinv
    omega
  have hI0 : Inv (⟨c.MAX_SIZE, c.BUFFER_SIZE, 0, 0, 0, c.p_buffer⟩ : ideque T) := by
    simp [Inv, hB]
  obtain ⟨c', hc', hI', hb', hs', hcon⟩ := assign_cursor_loop_spec d d.BUFFER_SIZE d.begin_index
    d.current_size rfl hBd hinv.end_eq hcd d.current_size 0 (d.BUFFER_SIZE + 1)
    ⟨c.MAX_SIZE, c.BUFFER_SIZE, 0, 0, 0, c.p_buffer⟩ (by omega) (by omega) hI0 hrc hcap rfl
  rw [Nat.cast_zero, ← hinv.begin_eq] at hc'
  refine ⟨c', ?_, hI', hb', ?_⟩
  · unfold assign_from
    simp only [resolve]
    rw [initialise_spec]
    exact hc'
  · apply List.ext_getElem?
    intro j
    rw [hcon j, if_neg (Nat.not_lt_zero _), contents_getElem? d]

/-- Claim C23, at a failing input: the self-assignment `d = d` (also
`d.assign(d.begin(), d.end())`) on the deque `sample`, which holds 0, 1, 2, 3 in slots
5, 0, 1, 2 and has capacity 5.  The two cursors are taken, `initialise()` resets the deque
they belong to, and the loop then pushes what it reads from slots 5, 0, 1, 2 into slots
0, 1, 2, 3: no contract violation is reported and the deque holds 0, 0, 0, 0. -/
theorem self_assignment_loses_elements :
    sample.to_list = some [0, 1, 2, 3] ∧ [0, 1, 2, 3].length ≤ sample.capacity ∧
    (sample.operator_assign .itself).map (fun r => r.violated) = some false ∧
    (sample.operator_assign .itself).map (fun r => r.deque.to_list)
      = some (some [0, 0, 0, 0]) ∧
    (sample.assign_from .itself).map (fun r => r.deque.to_list)
      = some (some [0, 0, 0, 0]) := by
  decide

/-- For a well-formed deque `d` with iteration sequence `s` and a deque `c` that is another
object than `d`, of capacity at least `|s|` and in any prior state,
`c.assign(d.begin(), d.end())` (which is also what `c = d` runs) completes without
violation; afterwards the iteration sequence of `c` is `s` in the same order,
`c.size() == |s|`, the `begin` index of `c` is 0 and `c == d` returns true. -/
theorem assign_round_trip [DecidableEq T] (c d : ideque T) (s : List T)
    (hinv : Inv d) (hs : d.to_list = some s)
    (hB : c.BUFFER_SIZE = c.capacity + 1) (hrc : Representable c)
    (hcap : s.length ≤ c.capacity) :
    ∃ c', c.assign_from (.another d) = some (.ok c' ()) ∧
      c.operator_assign (.another d) = some (.ok c' ()) ∧
      c'.to_list = some s ∧ c'.size = s.length ∧ c'.begin_index = 0 ∧
      operator_eq c' d = some true := by
  have hc := contents_of_to_list hinv hs
  have hlen : s.length = d.current_size := by rw [← hc, contents_length]
  obtain ⟨c', hok, hI, hb, hcon⟩ := assign_from_post c d hinv hB hrc
    (by unfold capacity at hcap; omega)
  obtain ⟨b, hb1, hb2⟩ := operator_eq_spec c' d hI hinv
  refine ⟨c', hok, hok, ?_, ?_, hb, ?_⟩
  · rw [to_list_of_inv hI, hcon, hc]
  · unfold size
    rw [← contents_length, hcon, hc]
  · rw [hb1, hb2.mpr hcon]

theorem assign_round_trip_witness :
    ∃ c', sample.assign_from (.another filled) = some (.ok c' ()) ∧
      sample.operator_assign (.another filled) = some (.ok c' ()) ∧
      c'.to_list = some [5, 6] ∧ c'.size = [5, 6].length ∧ c'.begin_index = 0 ∧
      operator_eq c' filled = some true :=
  assign_round_trip sample filled [5, 6] (by decide) (by decide) (by decide) (by decide)
    (by decide)

/-- Claim C29: for any two well-formed deques with iteration sequences `s1` and `s2`,
`lhs == rhs` returns true exactly when `s1 = s2`, whatever the `begin` indices and the
capacities of the two deques are, and `lhs != rhs` returns the negation. -/
theorem operator_eq_compares_sequences [DecidableEq T] (lhs rhs : ideque T) (s1 s2 : List T)
    (h1 : Inv lhs) (h2 : Inv rhs) (hs1 : lhs.to_list = some s1)
    (hs2 : rhs.to_list = some s2) :
    operator_eq lhs rhs = some (decide (s1 = s2)) ∧
    operator_ne lhs rhs = some (!decide (s1 = s2)) := by
  have hc1 := contents_of_to_list h1 hs1
  have hc2 := contents_of_to_list h2 hs2
  obtain ⟨b, hb1, hb2⟩ := operator_eq_spec lhs rhs h1 h2
  rw [hc1, hc2] at hb2
  have hb : b = decide (s1 = s2) := by
    by_cases h : s1 = s2
    · rw [hb2.mpr h, decide_eq_true h]
    · have hbf : b = false := by
        cases b with
        | false => rfl
        | true => exact absurd (hb2.mp rfl) h
      rw [hbf, decide_eq_false h]
  subst hb
  refine ⟨hb1, ?_⟩
  unfold operator_ne
  rw [hb1]
  rfl

theorem operator_eq_compares_sequences_witness :
    (operator_eq ((drained.push_back 5).deque.push_back 6).deque filled
        = some (decide ([5, 6] = [5, 6])) ∧
      operator_ne ((drained.push_back 5).deque.push_back 6).deque filled
        = some (!decide ([5, 6] = [5, 6]))) ∧
    (operator_eq sample filled = some (decide ([0, 1, 2, 3] = [5, 6])) ∧
      operator_ne sample filled = some (!decide ([0, 1, 2, 3] = [5, 6]))) :=
  ⟨operator_eq_compares_sequences ((drained.push_back 5).deque.push_back 6).deque filled
      [5, 6] [5, 6] (by decide) (by decide) (by decide) (by decide),
    operator_eq_compares_sequences sample filled [0, 1, 2, 3] [5, 6] (by decide) (by decide)
      (by decide) (by decide)⟩

/-- Claim C26, at a failing input: on the deque `trio` (holding 0, 1, 2) the position
`begin() + 1` is interior, with one element before it and two from it on.  Both
`insert(position, 9)` and the range form `insert(position, first, first + 1)` shift the
back (`end` moves from slot 2 to slot 3, `begin` stays), although
`distance(position, end) = 2` exceeds `distance(begin, position) = 1`; the sibling
`insert(position, 1, 9)` shifts the front at the same position (`begin` moves from slot 5
to slot 4, `end` stays). -/
theorem interior_insert_shifts_longer_back :
    trio.cursor 1 ≠ trio.begin_index ∧ trio.cursor 1 ≠ trio.end_index ∧
    trio.distance trio.begin_index (trio.cursor 1) = 1 ∧
    trio.distance (trio.cursor 1) trio.end_index = 2 ∧
    (trio.insert (trio.cursor 1) (.object 9)).violated = false ∧
    shifts_back trio (trio.insert (trio.cursor 1) (.object 9)).deque ∧
    ¬ (shifts_back trio (trio.insert (trio.cursor 1) (.object 9)).deque →
        trio.distance (trio.cursor 1) trio.end_index
          ≤ trio.distance trio.begin_index (trio.cursor 1)) ∧
    (trio.insert_range (trio.cursor 1) (fun k => 7 + k) 1).violated = false ∧
    shifts_back trio (trio.insert_range (trio.cursor 1) (fun k => 7 + k) 1).deque ∧
    (trio.insert_n (trio.cursor 1) 1 (.object 9)).violated = false ∧
    shifts_front trio (trio.insert_n (trio.cursor 1) 1 (.object 9)).deque ∧
    (trio.insert (trio.cursor 1) (.object 9)).deque.to_list = some [0, 9, 1, 2] ∧
    (trio.insert_n (trio.cursor 1) 1 (.object 9)).deque.to_list = some [0, 9, 1, 2] := by
  decide

/-! ## Queue use, the sentinel slot and preservation of the invariant -/

theorem front_of_contents {d : ideque T} {x : T} {l : List T} (hinv : Inv d)
    (hc : contents d = x :: l) : d.front = x := by
  have h := contents_getElem? d 0
  have hsz : 0 < d.current_size := by
    rw [← contents_length, hc]
    simp
  rw [hc, if_pos hsz, Nat.cast_zero, ← hinv.begin_eq] at h
  simp only [List.getElem?_cons_zero] at h
  unfold front
  exact (Option.some.inj h).symm

theorem back_of_contents {d : ideque T} {y : T} {l : List T} (hinv : Inv d)
    (hrep : Representable d) (hc : contents d = l ++ [y]) : d.back = y := by
  have hB := hinv.buffer_pos
  have hlen : d.current_size = l.length + 1 := by
    rw [← contents_length, hc]
    simp
  have h := contents_getElem? d l.length
  rw [hc, if_pos (by omega)] at h
  simp only [List.getElem?_concat_length] at h
  unfold Representable at hrep
  unfold back
  rw [hinv.end_eq, slot_sub hB hrep _ _ _ (by omega) (by omega),
    slot_congr (show ((d.current_size : Int) - 1) = (l.length : Int) by omega)]
  exact (Option.some.inj h).symm

theorem push_all_post (cap : Nat) (hcap : cap + 1 < 9223372036854775808) (xs : List T) :
    ∀ (d : ideque T), Inv d → d.MAX_SIZE = cap → d.current_size + xs.length ≤ cap →
      Inv (push_all d xs) ∧ (push_all d xs).MAX_SIZE = cap ∧
        contents (push_all d xs) = contents d ++ xs := by
  induction xs with
  | nil =>
    intro d hinv hM _
    exact ⟨hinv, hM, by rw [push_all, List.append_nil]⟩
  | cons x xs ih =>
    intro d hinv hM hlen
    simp only [List.length_cons] at hlen
    have hop : (EndOp.push_back x).allowed cap (contents d) = true := by
      simp only [EndOp.allowed, decide_eq_true_eq, contents_length]
      omega
    obtain ⟨_, hI, hM2, hc2⟩ := end_op_step cap hcap (.push_back x) d (contents d) hinv hM rfl hop
    simp only [EndOp.apply, EndOp.on_list] at hI hM2 hc2
    obtain ⟨hI3, hM3, hc3⟩ := ih _ hI hM2 (by
      have := inv_size_eq hc2
      rw [this, List.length_append, contents_length]
      simp only [List.length_singleton]
      omega)
    rw [push_all]
    exact ⟨hI3, hM3, by rw [hc3, hc2, List.append_assoc]; rfl⟩

theorem drain_post (cap : Nat) (hcap : cap + 1 < 9223372036854775808) (l : List T) :
    ∀ (d : ideque T), Inv d → d.MAX_SIZE = cap → contents d = l →
      (drain l.length d).1 = l ∧ Inv (drain l.length d).2 ∧
        (drain l.length d).2.current_size = 0 := by
  induction l with
  | nil =>
    intro d hinv _ hc
    refine ⟨rfl, hinv, ?_⟩
    show d.current_size = 0
    rw [← contents_length, hc]
    rfl
  | cons x l ih =>
    intro d hinv hM hc
    have hr : Representable d := inv_representable hinv (by omega)
    have hne : d.empty = false := by
      have := inv_size_eq hc
      simp only [empty, beq_eq_false_iff_ne, ne_eq, this, List.length_cons]
      omega
    obtain ⟨d', hok, hI, hcon, _, _⟩ := pop_front_post d hinv hr hne
    have hcapd := pop_front_capacity d
    rw [hok] at hcapd
    simp only [Outcome.deque] at hcapd
    obtain ⟨h1, h2, h3⟩ := ih d' hI (by rw [hcapd, hM]) (by rw [hcon, hc]; rfl)
    simp only [List.length_cons, drain, hok, Outcome.deque]
    exact ⟨by rw [h1, front_of_contents hinv hc], h2, h3⟩

/-- Claim C31: for every list `xs` with `|xs| ≤ capacity`, pushing the elements of `xs` in
order with `push_back` onto the empty deque reports no violation, and reading `front()` and
calling `pop_front()` `|xs|` times then returns the elements of `xs` in the same order and
leaves an empty deque; after `push_back(x)`, `push_back(y)` on the empty deque of capacity
at least 2, `front()` is `x` and `back()` is `y`. -/
theorem queue_is_fifo (cap : Nat) (buf : Int → T) (xs : List T) (x y : T)
    (hcap : cap + 1 < 9223372036854775808) (hlen : xs.length ≤ cap) :
    run_violates (init cap buf) (xs.map EndOp.push_back) = false ∧
    (push_all (init cap buf) xs).to_list = some xs ∧
    (drain xs.length (push_all (init cap buf) xs)).1 = xs ∧
    (drain xs.length (push_all (init cap buf) xs)).2.empty = true ∧
    (2 ≤ cap → (push_all (init cap buf) [x, y]).front = x ∧
      (push_all (init cap buf) [x, y]).back = y) := by
  have h0 : contents (init cap buf) = [] := by simp [contents, init]
  have hall : ∀ (zs l : List T), l.length + zs.length ≤ cap →
      allowed_ops cap l (zs.map EndOp.push_back) = true := by
    intro zs
    induction zs with
    | nil => intro l _; rfl
    | cons z zs ih =>
      intro l hl
      simp only [List.length_cons] at hl
      simp only [List.map_cons, allowed_ops, EndOp.allowed, EndOp.on_list, Bool.and_eq_true,
        decide_eq_true_eq]
      exact ⟨by omega, ih _ (by rw [List.length_append, List.length_singleton]; omega)⟩
  obtain ⟨hv, _, _⟩ := run_ops_refines cap hcap (xs.map EndOp.push_back) (init cap buf) []
    (inv_init cap buf) rfl h0 (hall xs [] (by simpa using hlen))
  obtain ⟨hI, hM, hc⟩ := push_all_post cap hcap xs (init cap buf) (inv_init cap buf) rfl
    (by simpa [init] using hlen)
  rw [h0, List.nil_append] at hc
  obtain ⟨h1, _, h3⟩ := drain_post cap hcap xs _ hI hM hc
  refine ⟨hv, by rw [to_list_of_inv hI, hc], h1, ?_, ?_⟩
  · simp only [empty, h3, beq_self_eq_true]
  · intro h2
    obtain ⟨hI2, hM2, hc2⟩ := push_all_post cap hcap [x, y] (init cap buf) (inv_init cap buf)
      rfl (by simpa [init] using h2)
    rw [h0, List.nil_append] at hc2
    exact ⟨front_of_contents hI2 hc2,
      back_of_contents hI2 (inv_representable hI2 (by omega)) (l := [x]) hc2⟩

theorem queue_is_fifo_witness :
    run_violates (init 5 (fun _ => (0 : Nat))) ([4, 5, 6].map EndOp.push_back) = false ∧
    (push_all (init 5 (fun _ => (0 : Nat))) [4, 5, 6]).to_list = some [4, 5, 6] ∧
    (drain [4, 5, 6].length (push_all (init 5 (fun _ => (0 : Nat))) [4, 5, 6])).1
      = [4, 5, 6] ∧
    (drain [4, 5, 6].length (push_all (init 5 (fun _ => (0 : Nat))) [4, 5, 6])).2.empty
      = true ∧
    (push_all (init 5 (fun _ => (0 : Nat))) [3, 5]).front = 3 ∧
    (push_all (init 5 (fun _ => (0 : Nat))) [3, 5]).back = 5 := by
  obtain ⟨h1, h2, h3, h4, h5⟩ :=
    queue_is_fifo 5 (fun _ => (0 : Nat)) [4, 5, 6] 3 5 (by decide) (by decide)
  exact ⟨h1, h2, h3, h4, (h5 (by decide)).1, (h5 (by decide)).2⟩

/-- Claim C33: in every well-formed state (`BUFFER_SIZE = capacity + 1`, both cursors in
the buffer, `size ≤ capacity`, `end.index = (begin.index + size) mod BUFFER_SIZE`) the
cursors `begin` and `end` compare equal exactly when `size == 0`; in particular a full
deque of capacity at least 1 has `begin != end`; and iterating from `begin()` to `end()`
visits exactly `size` elements. -/
theorem sentinel_slot (d : ideque T) (hinv : Inv d) :
    (iterator_eq d.begin_index d.end_index = true ↔ d.size = 0) ∧
    (d.full = true → 1 ≤ d.capacity → iterator_ne d.begin_index d.end_index = true) ∧
    ∃ s, d.to_list = some s ∧ s.length = d.size := by
  have hb := hinv.begin_eq
  have he := hinv.end_eq
  have hlt : d.current_size < d.BUFFER_SIZE := by
    obtain ⟨a1, _, _, _, _, a6, _⟩ := hinv
    omega
  have key : d.begin_index = d.end_index ↔ d.current_size = 0 := by
    constructor
    · intro h
      have h2 : slot d.BUFFER_SIZE d.begin_index 0
          = slot d.BUFFER_SIZE d.begin_index d.current_size := by
        rw [← hb, ← he]
        exact h
      have := slot_inj d.begin_index 0 d.current_size (by omega) (by omega) h2
      omega
    · intro h
      rw [he, h, Nat.cast_zero, ← hb]
  refine ⟨?_, ?_, ?_⟩
  · unfold iterator_eq size
    rw [decide_eq_true_eq]
    exact key
  · intro hf hcap
    unfold iterator_ne iterator_eq
    simp only [full, beq_iff_eq] at hf
    unfold capacity at hcap
    have hne : ¬ d.begin_index = d.end_index := by
      rw [key]
      omega
    simp only [hne, decide_False, Bool.not_false]
  · exact ⟨contents d, to_list_of_inv hinv, contents_length d⟩

theorem sentinel_slot_witness :
    (iterator_eq filled.begin_index filled.end_index = true ↔ filled.size = 0) ∧
    (filled.full = true → 1 ≤ filled.capacity →
      iterator_ne filled.begin_index filled.end_index = true) ∧
    ∃ s, filled.to_list = some s ∧ s.length = filled.size :=
  sentinel_slot filled (by decide)

/-- Claim C34, at a failing input: on the deque `trio` (size 3, capacity 5) the call
`insert(begin(), n, 7)` with `n = 18446744073709551613` has `size() + n` far above
`capacity()`, but the word-sized sum `current_size + n` wraps to 0, the guard
`current_size + n <= MAX_SIZE` holds and no contract violation is reported. -/
theorem insert_n_guard_wraps :
    trio.size + 18446744073709551613 > trio.capacity ∧
    (trio.current_size + 18446744073709551613) % 18446744073709551616 = 0 ∧
    (trio.insert_n trio.begin_index 18446744073709551613 (.object 7)).violated = false := by
  decide

theorem assign_loop_post (src : Nat → T) (k : Nat) :
    ∀ (j : Nat) (d : ideque T), Inv d → Representable d → d.current_size + k ≤ d.MAX_SIZE →
      ∃ d', assign_loop src k j d = .ok d' () ∧ Inv d' ∧
        contents d' = contents d ++ (List.range k).map (fun t => src (j + t)) := by
  induction k with
  | zero =>
    intro j d hinv _ _
    exact ⟨d, rfl, hinv, by simp⟩
  | succ k ih =>
    intro j d hinv hrep hcap
    have hnf : d.full = false := by
      simp only [full, beq_eq_false_iff_ne, ne_eq]
      omega
    obtain ⟨hok, hI, hcon, hsz⟩ := push_back_post d (src j) hinv hrep hnf
    obtain ⟨d', hd', hI', hc'⟩ := ih (j + 1) (d.create_element_back (src j)) hI hrep
      (by rw [hsz]; exact (by omega : d.current_size + 1 + k ≤ d.MAX_SIZE))
    refine ⟨d', ?_, hI', ?_⟩
    · rw [assign_loop, hok]
      exact hd'
    · rw [hc', hcon, List.append_assoc]
      congr 1
      rw [List.range_succ_eq_map, List.map_cons, List.map_map]
      simp only [List.singleton_append, Nat.add_zero, List.cons.injEq, true_and]
      apply List.map_congr_left
      intro t _
      simp only [Function.comp_apply]
      congr 1
      omega

theorem assign_range_post (d : ideque T) (src : Nat → T) (n : Nat) (hinv : Inv d)
    (hrep : Representable d) (hn : n ≤ d.MAX_SIZE) :
    ∃ d', d.assign_range src n = .ok d' () ∧ Inv d' ∧ contents d' = range_list src n := by
  have hB : d.BUFFER_SIZE = d.MAX_SIZE + 1 := hinv.1
  have hI0 : Inv (⟨d.MAX_SIZE, d.BUFFER_SIZE, 0, 0, 0, d.p_buffer⟩ : ideque T) := by
    simp [Inv, hB]
  obtain ⟨d', hd', hI', hc'⟩ := assign_loop_post src n 0
    ⟨d.MAX_SIZE, d.BUFFER_SIZE, 0, 0, 0, d.p_buffer⟩ hI0 hrep (by simpa using hn)
  refine ⟨d', ?_, hI', ?_⟩
  · unfold assign_range
    rw [initialise_spec]
    exact hd'
  · rw [hc']
    simp [contents, range_list]

/-- Claim C35: with `Inv` the data-model invariant (`BUFFER_SIZE = capacity + 1`, both
cursor indices in `[0, BUFFER_SIZE)`, `size ≤ capacity` and
`end.index = (begin.index + size) mod BUFFER_SIZE`), each of `push_back`,
`push_front(value)`, `pop_back` (non-empty), `pop_front`, `insert(position, value)`,
`insert(position, n, value)`, `erase(position)` at a logical index below `size`,
`erase(first, last)` with `i ≤ j ≤ size`, `clear`, `assign(n, value)`, `assign` of a range
of at most `capacity` elements and `resize(new_size ≤ capacity)`, called within its
precondition on a state satisfying `Inv`, reports no violation and leaves a state
satisfying `Inv`; the `value` of the two inserts is a reference `ref`, to an object outside
the deque or to one of its own elements. -/
theorem operations_preserve_inv (d : ideque T) (x value : T) (ref : ValueRef T)
    (i j n new_size : Nat) (src : Nat → T) (hinv : Inv d) (hrep : Representable d) :
    (d.full = false → (d.push_back x).violated = false ∧ Inv (d.push_back x).deque) ∧
    (d.full = false → (d.push_front x).violated = false ∧ Inv (d.push_front x).deque) ∧
    (d.empty = false → (d.pop_back).violated = false ∧ Inv (d.pop_back).deque) ∧
    ((d.pop_front).violated = false ∧ Inv (d.pop_front).deque) ∧
    (d.full = false → i ≤ d.size →
      (d.insert (d.cursor i) ref).violated = false ∧
        Inv (d.insert (d.cursor i) ref).deque) ∧
    (d.size + n ≤ d.capacity → i ≤ d.size →
      (d.insert_n (d.cursor i) n ref).violated = false ∧
        Inv (d.insert_n (d.cursor i) n ref).deque) ∧
    (i < d.size →
      (d.erase (d.cursor i)).violated = false ∧ Inv (d.erase (d.cursor i)).deque) ∧
    (i ≤ j → j ≤ d.size →
      (d.erase_range (d.cursor i) (d.cursor j)).violated = false ∧
        Inv (d.erase_range (d.cursor i) (d.cursor j)).deque) ∧
    Inv d.clear ∧
    (n ≤ d.capacity →
      (d.assign_n n value).violated = false ∧ Inv (d.assign_n n value).deque) ∧
    (n ≤ d.capacity →
      (d.assign_range src n).violated = false ∧ Inv (d.assign_range src n).deque) ∧
    (new_size ≤ d.capacity →
      (d.resize new_size value).violated = false ∧
        Inv (d.resize new_size value).deque) := by
  have hB : d.BUFFER_SIZE = d.MAX_SIZE + 1 := hinv.1
  unfold size capacity
  refine ⟨?_, ?_, ?_, ?_, ?_, ?_, ?_, ?_, ?_, ?_, ?_, ?_⟩
  · intro hnf
    obtain ⟨hok, hI, _⟩ := push_back_post d x hinv hrep hnf
    rw [hok]
    exact ⟨rfl, hI⟩
  · intro hnf
    obtain ⟨hok, hI, _⟩ := push_front_post d x hinv hrep hnf
    rw [hok]
    exact ⟨rfl, hI⟩
  · intro hne
    obtain ⟨d', hok, hI, _⟩ := pop_back_post d hinv hrep hne
    rw [hok]
    exact ⟨rfl, hI⟩
  · by_cases he : d.empty = true
    · have hok : d.pop_front = .ok d () := by simp [pop_front, he]
      rw [hok]
      exact ⟨rfl, hinv⟩
    · obtain ⟨d', hok, hI, _⟩ := pop_front_post d hinv hrep (by simpa using he)
      rw [hok]
      exact ⟨rfl, hI⟩
  · intro hnf hi
    obtain ⟨v, hv⟩ := insert_ref d (d.cursor i) ref
    obtain ⟨d', pos, hok, hI, _⟩ := insert_post d i v hinv hrep hnf hi
    rw [hv, hok]
    exact ⟨rfl, hI⟩
  · intro hcap hi
    obtain ⟨d', pos, hok, hI, _⟩ := insert_n_frame d i n ref hinv hrep hcap hi
    rw [hok]
    exact ⟨rfl, hI⟩
  · intro hi
    obtain ⟨d', pos, hok, hI, _⟩ := erase_post d i hinv hrep hi
    rw [hok]
    exact ⟨rfl, hI⟩
  · intro hij hj
    obtain ⟨d', pos, hok, hI, _⟩ := erase_range_post d i j hinv hrep hij hj
    rw [hok]
    exact ⟨rfl, hI⟩
  · unfold clear
    rw [initialise_spec]
    simp [Inv, hB]
  · intro hn
    obtain ⟨d', hok, hI, _⟩ := assign_n_post d n value hB hrep hn
    rw [hok]
    exact ⟨rfl, hI⟩
  · intro hn
    obtain ⟨d', hok, hI, _⟩ := assign_range_post d src n hinv hrep hn
    rw [hok]
    exact ⟨rfl, hI⟩
  · intro hn
    obtain ⟨d', hok, hI, _⟩ := resize_post d new_size value hinv hrep hn
    rw [hok]
    exact ⟨rfl, hI⟩

theorem operations_preserve_inv_witness :
    Inv (sample.push_back 9).deque ∧ Inv (sample.push_front 9).deque ∧
    Inv (sample.pop_back).deque ∧ Inv (sample.pop_front).deque ∧
    Inv (sample.insert (sample.cursor 1) (.element (sample.cursor 2))).deque ∧
    Inv (sample.insert_n (sample.cursor 1) 1 (.element (sample.cursor 2))).deque ∧
    Inv (sample.erase (sample.cursor 1)).deque ∧
    Inv (sample.erase_range (sample.cursor 1) (sample.cursor 3)).deque ∧
    Inv sample.clear ∧ Inv (sample.assign_n 1 7).deque ∧
    Inv (sample.assign_range (fun k => 7 + k) 1).deque ∧
    Inv (sample.resize 2 7).deque := by
  obtain ⟨h1, h2, h3, h4, h5, h6, h7, h8, h9, h10, h11, h12⟩ :=
    operations_preserve_inv sample 9 7 (.element (sample.cursor 2)) 1 3 1 2 (fun k => 7 + k)
      (by decide) (by decide)
  exact ⟨(h1 (by decide)).2, (h2 (by decide)).2, (h3 (by decide)).2, h4.2,
    (h5 (by decide) (by decide)).2, (h6 (by decide) (by decide)).2, (h7 (by decide)).2,
    (h8 (by decide) (by decide)).2, h9, (h10 (by decide)).2, (h11 (by decide)).2,
    (h12 (by decide)).2⟩

theorem Life.construct_up_spec (B : Nat) (b : Int) (hB : 0 < B) (k : Nat) :
    ∀ (l : Life) (y0 : Int), (k : Int) ≤ B →
      (∀ y : Int, y0 ≤ y → y < y0 + k → l.live (slot B b y) = false) →
      (Life.construct_up B k l (slot B b y0)).sound = l.sound ∧
      ∀ y : Int, y0 + k ≤ y + B → y < y0 + B →
        ((Life.construct_up B k l (slot B b y0)).live (slot B b y) = true ↔
          (y0 ≤ y ∧ y < y0 + k) ∨ l.live (slot B b y) = true) := by
  induction k with
  | zero =>
    intro l y0 _ _
    refine ⟨rfl, ?_⟩
    intro y _ _
    rw [Life.construct_up]
    constructor
    · intro h
      exact Or.inr h
    · rintro (⟨h1, h2⟩ | h)
      · omega
      · exact h
  | succ k ih =>
    intro l y0 hk hfree
    have hf0 := hfree y0 (le_refl _) (by omega)
    obtain ⟨hs, hl⟩ := ih (l.construct (slot B b y0)) (y0 + 1) (by omega) (by
      intro y h1 h2
      show store l.live (slot B b y0) true (slot B b y) = false
      rw [store_slot _ _ _ _ _ (by omega) (by omega), if_neg (by omega)]
      exact hfree y (by omega) (by omega))
    rw [Life.construct_up, slot_inc hB]
    refine ⟨?_, ?_⟩
    · rw [hs]
      show (l.sound && !l.live (slot B b y0)) = l.sound
      rw [hf0]
      simp
    · intro y h1 h2
      rw [hl y (by omega) (by omega)]
      show _ ∨ store l.live (slot B b y0) true (slot B b y) = true ↔ _
      rw [store_slot _ _ _ _ _ (by omega) (by omega)]
      by_cases hy : y = y0
      · subst hy
        simp only [if_true, or_true, true_iff]
        exact Or.inl ⟨le_refl _, by omega⟩
      · rw [if_neg hy]
        constructor
        · rintro (⟨a1, a2⟩ | h)
          · exact Or.inl ⟨by omega, by omega⟩
          · exact Or.inr h
        · rintro (⟨a1, a2⟩ | h)
          · exact Or.inl ⟨by omega, by omega⟩
          · exact Or.inr h

theorem Life.construct_down_spec (B : Nat) (b : Int) (hB : 0 < B) (k : Nat) :
    ∀ (l : Life) (x0 : Int), (k : Int) ≤ B →
      (∀ y : Int, x0 - k ≤ y → y < x0 → l.live (slot B b y) = false) →
      (Life.construct_down B k l (slot B b x0)).sound = l.sound ∧
      ∀ y : Int, x0 ≤ y + B → y + k < x0 + B →
        ((Life.construct_down B k l (slot B b x0)).live (slot B b y) = true ↔
          (x0 - k ≤ y ∧ y < x0) ∨ l.live (slot B b y) = true) := by
  induction k with
  | zero =>
    intro l x0 _ _
    refine ⟨rfl, ?_⟩
    intro y _ _
    rw [Life.construct_down]
    constructor
    · intro h
      exact Or.inr h
    · rintro (⟨h1, h2⟩ | h)
      · omega
      · exact h
  | succ k ih =>
    intro l x0 hk hfree
    have hf0 := hfree (x0 - 1) (by omega) (by omega)
    obtain ⟨hs, hl⟩ := ih (l.construct (slot B b (x0 - 1))) (x0 - 1) (by omega) (by
      intro y h1 h2
      show store l.live (slot B b (x0 - 1)) true (slot B b y) = false
      rw [store_slot _ _ _ _ _ (by omega) (by omega), if_neg (by omega)]
      exact hfree y (by omega) (by omega))
    rw [Life.construct_down, slot_dec hB]
    refine ⟨?_, ?_⟩
    · rw [hs]
      show (l.sound && !l.live (slot B b (x0 - 1))) = l.sound
      rw [hf0]
      simp
    · intro y h1 h2
      rw [hl y (by omega) (by omega)]
      show _ ∨ store l.live (slot B b (x0 - 1)) true (slot B b y) = true ↔ _
      rw [store_slot _ _ _ _ _ (by omega) (by omega)]
      by_cases hy : y = x0 - 1
      · subst hy
        simp only [if_true, or_true, true_iff]
        exact Or.inl ⟨by omega, by omega⟩
      · rw [if_neg hy]
        constructor
        · rintro (⟨a1, a2⟩ | h)
          · exact Or.inl ⟨by omega, by omega⟩
          · exact Or.inr h
        · rintro (⟨a1, a2⟩ | h)
          · exact Or.inl ⟨by omega, by omega⟩
          · exact Or.inr h

theorem Life.assign_live (l : Life) (j : Int) (h : l.live j = true) : l.assign j = l := by
  obtain ⟨lv, s⟩ := l
  simp only at h
  simp [Life.assign, h]

theorem Life.assign_up_spec (B : Nat) (b : Int) (hB : 0 < B) (k : Nat) :
    ∀ (l : Life) (y0 : Int),
      (∀ y : Int, y0 ≤ y → y < y0 + k → l.live (slot B b y) = true) →
      Life.assign_up B k l (slot B b y0) = l := by
  induction k with
  | zero => intro l y0 _; rfl
  | succ k ih =>
    intro l y0 hlive
    rw [Life.assign_up, Life.assign_live l _ (hlive y0 (le_refl _) (by omega)), slot_inc hB]
    exact ih l (y0 + 1) (fun y h1 h2 => hlive y (by omega) (by omega))

theorem Life.assign_down_spec (B : Nat) (b : Int) (hB : 0 < B) (k : Nat) :
    ∀ (l : Life) (y0 : Int),
      (∀ y : Int, y0 - k ≤ y → y < y0 → l.live (slot B b y) = true) →
      Life.assign_down B k l (slot B b y0) = l := by
  induction k with
  | zero => intro l y0 _; rfl
  | succ k ih =>
    intro l y0 hlive
    rw [Life.assign_down, slot_dec hB,
      Life.assign_live l _ (hlive (y0 - 1) (by omega) (by omega))]
    exact ih l (y0 - 1) (fun y h1 h2 => hlive y (by omega) (by omega))

theorem tracked_repeat_front_d (f : ideque T → T) (k : Nat) : ∀ (t : Tracked T),
    (Tracked.repeat_op (fun e => e.create_element_front (f e.d)) k t).d
      = repeat_op (fun e => e.create_element_front (f e)) k t.d := by
  induction k with
  | zero => intro t; rfl
  | succ k ih => intro t; rw [Tracked.repeat_op, ih, repeat_op]; rfl

theorem tracked_repeat_front_life (f : ideque T → T) (k : Nat) : ∀ (t : Tracked T),
    (Tracked.repeat_op (fun e => e.create_element_front (f e.d)) k t).life
      = Life.construct_down t.d.BUFFER_SIZE k t.life t.d.begin_index := by
  induction k with
  | zero => intro t; rfl
  | succ k ih => intro t; rw [Tracked.repeat_op, ih, Life.construct_down]; rfl

theorem tracked_repeat_back_d (f : ideque T → T) (k : Nat) : ∀ (t : Tracked T),
    (Tracked.repeat_op (fun e => e.create_element_back (f e.d)) k t).d
      = repeat_op (fun e => e.create_element_back (f e)) k t.d := by
  induction k with
  | zero => intro t; rfl
  | succ k ih => intro t; rw [Tracked.repeat_op, ih, repeat_op]; rfl

theorem tracked_repeat_back_life (f : ideque T → T) (k : Nat) : ∀ (t : Tracked T),
    (Tracked.repeat_op (fun e => e.create_element_back (f e.d)) k t).life
      = Life.construct_up t.d.BUFFER_SIZE k t.life t.d.end_index := by
  induction k with
  | zero => intro t; rfl
  | succ k ih => intro t; rw [Tracked.repeat_op, ih, Life.construct_up]; rfl

theorem tracked_create_back_from_d (k : Nat) : ∀ (t : Tracked T) (src : TIterator T),
    (Tracked.create_back_from k t src).d = create_back_from k t.d src := by
  induction k with
  | zero => intro t src; rfl
  | succ k ih => intro t src; rw [Tracked.create_back_from, ih, create_back_from]; rfl

theorem tracked_create_back_from_life (k : Nat) : ∀ (t : Tracked T) (src : TIterator T),
    (Tracked.create_back_from k t src).life
      = Life.construct_up t.d.BUFFER_SIZE k t.life t.d.end_index := by
  induction k with
  | zero => intro t src; rfl
  | succ k ih => intro t src; rw [Tracked.create_back_from, ih, Life.construct_up]; rfl

theorem tracked_create_front_from_d (k : Nat) : ∀ (t : Tracked T) (src : Int),
    (Tracked.create_front_from k t src).d = create_front_from k t.d src := by
  induction k with
  | zero => intro t src; rfl
  | succ k ih => intro t src; rw [Tracked.create_front_from, ih, create_front_from]; rfl

theorem tracked_create_front_from_life (k : Nat) : ∀ (t : Tracked T) (src : Int),
    (Tracked.create_front_from k t src).life
      = Life.construct_down t.d.BUFFER_SIZE k t.life t.d.begin_index := by
  induction k with
  | zero => intro t src; rfl
  | succ k ih => intro t src; rw [Tracked.create_front_from, ih, Life.construct_down]; rfl

theorem tracked_copy_range_front_loop_d (k : Nat) :
    ∀ (t : Tracked T) (item : Int) (src : TIterator T),
      (Tracked.copy_range_front_loop k t item src).d
        = copy_range_front_loop k t.d item src := by
  induction k with
  | zero => intro t item src; rfl
  | succ k ih =>
    intro t item src
    rw [Tracked.copy_range_front_loop, ih, copy_range_front_loop]

theorem tracked_copy_range_front_loop_life (k : Nat) :
    ∀ (t : Tracked T) (item : Int) (src : TIterator T),
      (Tracked.copy_range_front_loop k t item src).life
        = Life.construct_up t.d.BUFFER_SIZE k t.life item := by
  induction k with
  | zero => intro t item src; rfl
  | succ k ih =>
    intro t item src
    rw [Tracked.copy_range_front_loop, ih, Life.construct_up]

theorem tracked_copy_range_front_d (t : Tracked T) (n : Nat) (src : TIterator T) :
    (t.copy_range_front n src).d = t.d.copy_range_front n src := by
  unfold Tracked.copy_range_front copy_range_front
  split
  · rfl
  · simp only [tracked_copy_range_front_loop_d]

theorem tracked_copy_loop_d (k : Nat) : ∀ (t : Tracked T) (src : TIterator T) (dst : Int),
    (Tracked.copy_loop k t src dst).d = copy_loop k t.d src dst := by
  induction k with
  | zero => intro t src dst; rfl
  | succ k ih => intro t src dst; rw [Tracked.copy_loop, ih, copy_loop]

theorem tracked_copy_loop_life (k : Nat) : ∀ (t : Tracked T) (src : TIterator T) (dst : Int),
    (Tracked.copy_loop k t src dst).life = Life.assign_up t.d.BUFFER_SIZE k t.life dst := by
  induction k with
  | zero => intro t src dst; rfl
  | succ k ih => intro t src dst; rw [Tracked.copy_loop, ih, Life.assign_up]

theorem tracked_fill_loop_d (k : Nat) : ∀ (t : Tracked T) (dst : Int) (v : ValueRef T),
    (Tracked.fill_loop k t dst v).d = fill_loop k t.d dst v := by
  induction k with
  | zero => intro t dst v; rfl
  | succ k ih => intro t dst v; rw [Tracked.fill_loop, ih, fill_loop]

theorem tracked_fill_loop_life (k : Nat) : ∀ (t : Tracked T) (dst : Int) (v : ValueRef T),
    (Tracked.fill_loop k t dst v).life = Life.assign_up t.d.BUFFER_SIZE k t.life dst := by
  induction k with
  | zero => intro t dst v; rfl
  | succ k ih => intro t dst v; rw [Tracked.fill_loop, ih, Life.assign_up]

theorem tracked_copy_backward_loop_d (k : Nat) : ∀ (t : Tracked T) (last d_last : Int),
    (Tracked.copy_backward_loop k t last d_last).d = copy_backward_loop k t.d last d_last := by
  induction k with
  | zero => intro t last d_last; rfl
  | succ k ih => intro t last d_last; rw [Tracked.copy_backward_loop, ih, copy_backward_loop]

theorem tracked_copy_backward_loop_life (k : Nat) : ∀ (t : Tracked T) (last d_last : Int),
    (Tracked.copy_backward_loop k t last d_last).life
      = Life.assign_down t.d.BUFFER_SIZE k t.life d_last := by
  induction k with
  | zero => intro t last d_last; rfl
  | succ k ih =>
    intro t last d_last
    rw [Tracked.copy_backward_loop, ih, Life.assign_down]

theorem tracked_mk_eq {x : Tracked T} {d : ideque T} {l : Life} (h1 : x.d = d)
    (h2 : x.life = l) : x = ⟨d, l⟩ := by
  obtain ⟨xd, xl⟩ := x
  simp only at h1 h2
  rw [h1, h2]

theorem tracked_repeat_front_eq (f : ideque T → T) (k : Nat) (t : Tracked T) :
    Tracked.repeat_op (fun e => e.create_element_front (f e.d)) k t
      = ⟨repeat_op (fun e => e.create_element_front (f e)) k t.d,
          Life.construct_down t.d.BUFFER_SIZE k t.life t.d.begin_index⟩ :=
  tracked_mk_eq (tracked_repeat_front_d f k t) (tracked_repeat_front_life f k t)

theorem tracked_repeat_back_eq (f : ideque T → T) (k : Nat) (t : Tracked T) :
    Tracked.repeat_op (fun e => e.create_element_back (f e.d)) k t
      = ⟨repeat_op (fun e => e.create_element_back (f e)) k t.d,
          Life.construct_up t.d.BUFFER_SIZE k t.life t.d.end_index⟩ :=
  tracked_mk_eq (tracked_repeat_back_d f k t) (tracked_repeat_back_life f k t)

theorem tracked_create_back_from_eq (k : Nat) (t : Tracked T) (src : TIterator T) :
    Tracked.create_back_from k t src
      = ⟨create_back_from k t.d src,
          Life.construct_up t.d.BUFFER_SIZE k t.life t.d.end_index⟩ :=
  tracked_mk_eq (tracked_create_back_from_d k t src) (tracked_create_back_from_life k t src)

theorem tracked_create_front_from_eq (k : Nat) (t : Tracked T) (src : Int) :
    Tracked.create_front_from k t src
      = ⟨create_front_from k t.d src,
          Life.construct_down t.d.BUFFER_SIZE k t.life t.d.begin_index⟩ :=
  tracked_mk_eq (tracked_create_front_from_d k t src) (tracked_create_front_from_life k t src)

theorem tracked_copy_loop_eq (k : Nat) (t : Tracked T) (src : TIterator T) (dst : Int) :
    Tracked.copy_loop k t src dst
      = ⟨copy_loop k t.d src dst, Life.assign_up t.d.BUFFER_SIZE k t.life dst⟩ :=
  tracked_mk_eq (tracked_copy_loop_d k t src dst) (tracked_copy_loop_life k t src dst)

theorem tracked_fill_loop_eq (k : Nat) (t : Tracked T) (dst : Int) (v : ValueRef T) :
    Tracked.fill_loop k t dst v
      = ⟨fill_loop k t.d dst v, Life.assign_up t.d.BUFFER_SIZE k t.life dst⟩ :=
  tracked_mk_eq (tracked_fill_loop_d k t dst v) (tracked_fill_loop_life k t dst v)

theorem tracked_copy_backward_loop_eq (k : Nat) (t : Tracked T) (last d_last : Int) :
    Tracked.copy_backward_loop k t last d_last
      = ⟨copy_backward_loop k t.d last d_last,
          Life.assign_down t.d.BUFFER_SIZE k t.life d_last⟩ :=
  tracked_mk_eq (tracked_copy_backward_loop_d k t last d_last)
    (tracked_copy_backward_loop_life k t last d_last)

theorem live_window_int (M c : Nat) (b e : Int) (buf : Int → T) (l : Life)
    (hl : LiveWindow (⟨M, M + 1, c, b, e, buf⟩ : ideque T) l) :
    ∀ y : Int, (c : Int) - ((M + 1 : Nat) : Int) ≤ y → y < ((M + 1 : Nat) : Int) →
      (l.live (slot (M + 1) b y) = true ↔ 0 ≤ y ∧ y < c) := by
  intro y h1 h2
  by_cases hy : 0 ≤ y
  · have h := hl y.toNat (by simp only; omega)
    simp only at h
    rw [show ((y.toNat : Nat) : Int) = y by omega] at h
    rw [h]
    omega
  · have e1 : slot (M + 1) b y = slot (M + 1) b (y + ((M + 1 : Nat) : Int)) := by
      unfold slot
      rw [← Int.add_assoc, Int.add_emod_self]
    have h := hl (y + ((M + 1 : Nat) : Int)).toNat (by simp only; omega)
    simp only at h
    rw [show (((y + ((M + 1 : Nat) : Int)).toNat : Nat) : Int) = y + ((M + 1 : Nat) : Int)
      by omega] at h
    rw [e1, h]
    omega

theorem tracked_finish (X : Tracked T) (M c' : Nat) (b x' bg e' : Int) (g : Int → T)
    (L : Life) (hX : X = ⟨⟨M, M + 1, c', bg, e', g⟩, L⟩) (hbg : bg = slot (M + 1) b x')
    (hs : L.sound = true)
    (hL : ∀ y : Int, x' ≤ y → y < x' + ((M + 1 : Nat) : Int) →
      (L.live (slot (M + 1) b y) = true ↔ y < x' + c')) :
    X.life.sound = true ∧ LiveWindow X.d X.life ∧ X.d.current_size = c' := by
  subst hX hbg
  refine ⟨hs, ?_, rfl⟩
  intro k hk
  simp only at hk ⊢
  rw [slot_slot, hL (x' + k) (by omega) (by omega)]
  omega

theorem tracked_copy_range_front_eq (B : Nat) (b x : Int) (n : Nat) (t : Tracked T)
    (src : TIterator T) (hd : t.d.BUFFER_SIZE = B) (hB : 0 < B)
    (hR : B < 9223372036854775808) (hb : t.d.begin_index = slot B b x)
    (hne : 0 < t.d.current_size) (hn : n ≤ B) :
    t.copy_range_front n src
      = ⟨t.d.copy_range_front n src, Life.construct_up B n t.life (slot B b (x - n))⟩ := by
  apply tracked_mk_eq (tracked_copy_range_front_d t n src)
  obtain ⟨⟨M, B0, c, bi, ei, buf⟩, l⟩ := t
  simp only at hd hb hne
  subst hd hb
  by_cases h0 : n = 0
  · subst h0
    simp [Tracked.copy_range_front, Life.construct_up]
  · have hemp : (⟨M, B0, c, slot B0 b x, ei, buf⟩ : ideque T).empty = false := by
      simp only [empty, beq_eq_false_iff_ne, ne_eq]
      omega
    have hp : size_pred n = n - 1 := size_pred_of_pos (by omega) (by omega)
    unfold Tracked.copy_range_front
    rw [if_neg h0]
    simp only [hemp, Bool.not_false, if_true, hp, slot_dec hB]
    have hb2 : (if n - 1 > 0 then
          iterator.sub B0 (slot B0 b (x - 1)) (to_difference_type (n - 1))
        else slot B0 b (x - 1)) = slot B0 b (x - n) := by
      split_ifs with h1
      · rw [to_difference_type_of_lt (by omega), slot_sub hB hR _ _ _ (by omega) (by omega)]
        exact slot_congr (by omega)
      · exact slot_congr (by omega)
    rw [hb2, show n - 1 + 1 = n by omega, tracked_copy_range_front_loop_life]

set_option maxHeartbeats 1600000 in
theorem tracked_insert_n_shape (M c i n : Nat) (b : Int) (buf : Int → T) (l : Life)
    (v : ValueRef T)
    (hr : M + 1 < 9223372036854775808) (hz : slot (M + 1) b 0 = b)
    (hcap : c + n ≤ M) (hi0 : 0 < i) (hilt : i < c)
    (hl : LiveWindow (⟨M, M + 1, c, b, slot (M + 1) b c, buf⟩ : ideque T) l)
    (hs : l.sound = true) :
    ∃ (x' bg e' : Int) (g : Int → T) (L : Life),
      Tracked.insert_n ⟨⟨M, M + 1, c, b, slot (M + 1) b c, buf⟩, l⟩ (slot (M + 1) b i) n v
        = ⟨⟨M, M + 1, c + n, bg, e', g⟩, L⟩ ∧ bg = slot (M + 1) b x' ∧ L.sound = true ∧
      ∀ y : Int, x' ≤ y → y < x' + ((M + 1 : Nat) : Int) →
        (L.live (slot (M + 1) b y) = true ↔ y < x' + ((c + n : Nat) : Int)) := by
  have hB : 0 < M + 1 := by omega
  have hbz : b = slot (M + 1) b 0 := hz.symm
  have hL0 := live_window_int M c b _ buf l hl
  have hguard : (c + n) % 18446744073709551616 ≤ M := by
    rw [Nat.mod_eq_of_lt (by omega)]
    exact hcap
  have htn : to_difference_type n = n := to_difference_type_of_lt (by omega)
  have hic : i ≠ c := by omega
  unfold Tracked.insert_n
  simp only [hguard, not_true_eq_false, if_false]
  rw [if_neg (slot_ne_begin hz hi0 (by omega)), if_neg (slot_ne_slot hic (by omega) (by omega))]
  have hd1 : distance (⟨M, M + 1, c, b, slot (M + 1) b c, buf⟩ : ideque T) b
      (slot (M + 1) b i) = i := by
    have := distance_slots (⟨M, M + 1, c, b, slot (M + 1) b c, buf⟩ : ideque T) (M + 1) b 0
      0 i rfl hB hbz (by omega) (by omega) (by omega) (by omega)
    rw [hz] at this
    rw [this]
    ring
  have hd2 : distance (⟨M, M + 1, c, b, slot (M + 1) b c, buf⟩ : ideque T)
      (slot (M + 1) b i) (slot (M + 1) b c) = (c : Int) - i :=
    distance_slots _ (M + 1) b 0 i c rfl hB hbz (by omega) (by omega) (by omega) (by omega)
  have hhalf : to_difference_type (c / 2) = ((c / 2 : Nat) : Int) :=
    to_difference_type_of_lt (by omega)
  simp only [std_distance]
  rw [hd1, hd2, hhalf, to_size_t_of_nat (show i < 9223372036854775808 by omega)]
  have hsz2 : to_size_t ((c : Int) - i) = c - i := by
    rw [show (c : Int) - i = ((c - i : Nat) : Int) by omega]
    exact to_size_t_of_nat (by omega)
  rw [hsz2]
  by_cases hside : (i : Int) ≤ ((c / 2 : Nat) : Int)
  · -- shift the front
    rw [if_pos hside]
    obtain ⟨m, hm⟩ : ∃ m, m = min n i := ⟨_, rfl⟩
    rw [← hm]
    have hm3 : m = n ∨ m = i := by omega
    obtain ⟨p, hp⟩ : ∃ p, p = n - m := ⟨_, rfl⟩
    obtain ⟨q, hq⟩ : ∃ q, q = i - m := ⟨_, rfl⟩
    have hncn : (if n > m then n - m else 0) = p := by
      split_ifs <;> omega
    have hnew : (if n > p then n - p else 0) = m := by
      split_ifs <;> omega
    rw [hncn, hnew, ← hq]
    have hp' : n = m + p := by omega
    have hq' : i = m + q := by omega
    have hpq : p = 0 ∨ q = 0 := by omega
    have ht1 : to_difference_type m = (m : Int) := to_difference_type_of_lt (by omega)
    have ht2 : to_difference_type q = (q : Int) := to_difference_type_of_lt (by omega)
    rw [ht1, ht2]
    clear hm hm3 hp hq hncn hnew ht1 ht2 htn hside hhalf hsz2 hd1 hd2 hguard
    rw [add_begin hz hr _ (by omega) (by omega), slot_sub hB hr _ _ _ (by omega) (by omega)]
    rw [tracked_repeat_front_eq (fun e => e.read v)]
    simp only
    obtain ⟨g1, hg1⟩ := repeat_create_front_shape p
      (⟨M, M + 1, c, b, slot (M + 1) b c, buf⟩ : ideque T) (fun e => e.read v) (M + 1) b 0
      rfl hB hbz (by simp only; omega)
    rw [hg1]
    simp only
    rw [tracked_create_front_from_eq]
    simp only
    obtain ⟨g2, hg2, -⟩ := create_front_from_spec m
      (⟨M, M + 1, c + p, slot (M + 1) b (0 - (p : Int)), slot (M + 1) b c, g1⟩ : ideque T)
      (M + 1) b ((m : Int) - 1) (0 - (p : Int)) rfl hB rfl (by simp only; omega) (by omega)
      (by omega) (by omega)
    rw [hg2]
    simp only
    unfold Tracked.std_copy_n
    rw [slot_sub hB hr _ _ _ (by omega) (by omega), slot_add hB hr _ _ _ (by omega) (by omega)]
    rw [tracked_copy_loop_eq]
    simp only
    obtain ⟨g3, hg3, -⟩ := copy_loop_own q
      (⟨M, M + 1, c + p + m, slot (M + 1) b (0 - (p : Int) - (m : Int)),
        slot (M + 1) b c, g2⟩ : ideque T) (M + 1) b ((i : Int) - (q : Int))
      (0 - (p : Int) - (m : Int) + (m : Int)) rfl hB (by omega) (by omega) (by omega)
    rw [hg3]
    simp only
    unfold Tracked.std_fill_n
    rw [slot_sub hB hr _ _ _ (by omega) (by omega), tracked_fill_loop_eq]
    simp only
    obtain ⟨g4, hg4⟩ := fill_loop_shape m
      (⟨M, M + 1, c + p + m, slot (M + 1) b (0 - (p : Int) - (m : Int)),
        slot (M + 1) b c, g3⟩ : ideque T) (slot (M + 1) b ((i : Int) - (m : Int))) v
    rw [hg4]
    simp only
    have hsize : c + p + m = c + n := by omega
    rw [hsize]
    -- the lifetimes
    obtain ⟨s1, l1⟩ := Life.construct_down_spec (M + 1) b hB p l 0 (by omega) (by
      intro y h1 h2
      rw [Bool.eq_false_iff, Ne, hL0 y (by omega) (by omega)]
      omega)
    rw [hz] at s1 l1
    obtain ⟨s2, l2⟩ := Life.construct_down_spec (M + 1) b hB m
      (Life.construct_down (M + 1) p l b) (0 - (p : Int)) (by omega) (by
      intro y h1 h2
      rw [Bool.eq_false_iff, Ne, l1 y (by omega) (by omega), hL0 y (by omega) (by omega)]
      omega)
    have hlive2 : ∀ y : Int, -(n : Int) ≤ y → y < -(n : Int) + ((M + 1 : Nat) : Int) →
        ((Life.construct_down (M + 1) m (Life.construct_down (M + 1) p l b)
          (slot (M + 1) b (0 - (p : Int)))).live (slot (M + 1) b y) = true
          ↔ y < -(n : Int) + ((c + n : Nat) : Int)) := by
      intro y h1 h2
      rw [l2 y (by omega) (by omega), l1 y (by omega) (by omega), hL0 y (by omega) (by omega)]
      omega
    rw [Life.assign_up_spec (M + 1) b hB q _ _ (by
      intro y h1 h2
      rw [hlive2 y (by omega) (by omega)]
      omega)]
    rw [Life.assign_up_spec (M + 1) b hB m _ _ (by
      intro y h1 h2
      rw [hlive2 y (by omega) (by omega)]
      omega)]
    exact ⟨-(n : Int), _, _, _, _, rfl, slot_congr (by omega), by rw [s2, s1, hs], hlive2⟩
  · -- shift the back
    rw [if_neg hside]
    obtain ⟨m, hm⟩ : ∃ m, m = min n (c - i) := ⟨_, rfl⟩
    rw [← hm]
    have hm3 : m = n ∨ m = c - i := by omega
    obtain ⟨p, hp⟩ : ∃ p, p = n - m := ⟨_, rfl⟩
    obtain ⟨q, hq⟩ : ∃ q, q = c - i - m := ⟨_, rfl⟩
    have hncn : (if n > m then n - m else 0) = p := by
      split_ifs <;> omega
    have hnew : (if n > p then n - p else 0) = m := by
      split_ifs <;> omega
    rw [hncn, hnew, ← hq]
    have hp' : n = m + p := by omega
    have hq' : c = i + m + q := by omega
    have hpq : p = 0 ∨ q = 0 := by omega
    have ht2 : to_difference_type q = (q : Int) := to_difference_type_of_lt (by omega)
    rw [ht2, htn]
    clear hm hm3 hp hq hncn hnew ht2 htn hside hhalf hsz2 hd1 hd2 hguard
    rw [tracked_repeat_back_eq (fun e => e.read v)]
    simp only
    obtain ⟨g1, hg1⟩ := repeat_create_back_shape p
      (⟨M, M + 1, c, b, slot (M + 1) b c, buf⟩ : ideque T) (fun e => e.read v) (M + 1) b c
      rfl hB rfl (by simp only; omega)
    rw [hg1]
    simp only
    rw [slot_add hB hr _ _ _ (by omega) (by omega), tracked_create_back_from_eq]
    simp only
    obtain ⟨g2, hg2, -⟩ := create_back_from_own m
      (⟨M, M + 1, c + p, b, slot (M + 1) b ((c : Int) + (p : Int)), g1⟩ : ideque T)
      (M + 1) b ((i : Int) + (q : Int)) ((c : Int) + (p : Int)) rfl hB rfl
      (by simp only; omega) (by omega) (by omega) (by omega)
    rw [hg2]
    simp only
    unfold Tracked.std_copy_backward
    simp only
    rw [slot_add hB hr _ _ _ (by omega) (by omega), slot_add hB hr _ _ _ (by omega) (by omega),
      slot_add hB hr _ _ _ (by omega) (by omega)]
    rw [distance_slots _ (M + 1) b 0 i ((i : Int) + (q : Int))
      rfl hB hbz (by omega) (by omega) (by omega) (by omega)]
    have hcnt : ((i : Int) + (q : Int) - i).toNat = q := by omega
    rw [hcnt, tracked_copy_backward_loop_eq]
    simp only
    obtain ⟨g3, hg3, -⟩ := copy_backward_loop_spec q
      (⟨M, M + 1, c + p + m, b,
        slot (M + 1) b ((c : Int) + (p : Int) + (m : Int)), g2⟩ : ideque T)
      (M + 1) b ((i : Int) + (q : Int)) ((i : Int) + n + (q : Int)) rfl hB (by omega)
      (by omega) (by omega)
    rw [hg3]
    simp only
    unfold Tracked.std_fill_n
    rw [tracked_fill_loop_eq]
    simp only
    obtain ⟨g4, hg4⟩ := fill_loop_shape m
      (⟨M, M + 1, c + p + m, b,
        slot (M + 1) b ((c : Int) + (p : Int) + (m : Int)), g3⟩ : ideque T)
      (slot (M + 1) b (i : Int)) v
    rw [hg4]
    simp only
    have hsize : c + p + m = c + n := by omega
    rw [hsize]
    -- the lifetimes
    obtain ⟨s1, l1⟩ := Life.construct_up_spec (M + 1) b hB p l c (by omega) (by
      intro y h1 h2
      rw [Bool.eq_false_iff, Ne, hL0 y (by omega) (by omega)]
      omega)
    obtain ⟨s2, l2⟩ := Life.construct_up_spec (M + 1) b hB m
      (Life.construct_up (M + 1) p l (slot (M + 1) b c)) ((c : Int) + (p : Int)) (by omega) (by
      intro y h1 h2
      rw [Bool.eq_false_iff, Ne, l1 y (by omega) (by omega), hL0 y (by omega) (by omega)]
      omega)
    have hlive2 : ∀ y : Int, 0 ≤ y → y < 0 + ((M + 1 : Nat) : Int) →
        ((Life.construct_up (M + 1) m (Life.construct_up (M + 1) p l (slot (M + 1) b c))
          (slot (M + 1) b ((c : Int) + (p : Int)))).live (slot (M + 1) b y) = true
          ↔ y < 0 + ((c + n : Nat) : Int)) := by
      intro y h1 h2
      rw [l2 y (by omega) (by omega), l1 y (by omega) (by omega), hL0 y (by omega) (by omega)]
      omega
    rw [Life.assign_down_spec (M + 1) b hB q _ _ (by
      intro y h1 h2
      rw [hlive2 y (by omega) (by omega)]
      omega)]
    rw [Life.assign_up_spec (M + 1) b hB m _ _ (by
      intro y h1 h2
      rw [hlive2 y (by omega) (by omega)]
      omega)]
    exact ⟨0, _, _, _, _, rfl, hbz, by rw [s2, s1, hs], hlive2⟩

set_option maxHeartbeats 1600000 in
theorem tracked_insert_range_shape (M c i n : Nat) (b : Int) (buf : Int → T) (l : Life)
    (src : Nat → T) (hr : M + 1 < 9223372036854775808) (hz : slot (M + 1) b 0 = b)
    (hcap : c + n ≤ M) (hi0 : 0 < i) (hilt : i < c)
    (hl : LiveWindow (⟨M, M + 1, c, b, slot (M + 1) b c, buf⟩ : ideque T) l)
    (hs : l.sound = true) :
    ∃ (x' bg e' : Int) (g : Int → T) (L : Life),
      Tracked.insert_range ⟨⟨M, M + 1, c, b, slot (M + 1) b c, buf⟩, l⟩ (slot (M + 1) b i) src n
        = ⟨⟨M, M + 1, c + n, bg, e', g⟩, L⟩ ∧ bg = slot (M + 1) b x' ∧ L.sound = true ∧
      ∀ y : Int, x' ≤ y → y < x' + ((M + 1 : Nat) : Int) →
        (L.live (slot (M + 1) b y) = true ↔ y < x' + ((c + n : Nat) : Int)) := by
  have hB : 0 < M + 1 := by omega
  have hbz : b = slot (M + 1) b 0 := hz.symm
  have hL0 := live_window_int M c b _ buf l hl
  have hguard : (c + n) % 18446744073709551616 ≤ M := by
    rw [Nat.mod_eq_of_lt (by omega)]
    exact hcap
  have htn : to_difference_type n = n := to_difference_type_of_lt (by omega)
  have hic : i ≠ c := by omega
  unfold Tracked.insert_range
  simp only [hguard, not_true_eq_false, if_false]
  rw [if_neg (slot_ne_begin hz hi0 (by omega)), if_neg (slot_ne_slot hic (by omega) (by omega))]
  have hd1 : distance (⟨M, M + 1, c, b, slot (M + 1) b c, buf⟩ : ideque T) b
      (slot (M + 1) b i) = i := by
    have := distance_slots (⟨M, M + 1, c, b, slot (M + 1) b c, buf⟩ : ideque T) (M + 1) b 0
      0 i rfl hB hbz (by omega) (by omega) (by omega) (by omega)
    rw [hz] at this
    rw [this]
    ring
  have hd2 : distance (⟨M, M + 1, c, b, slot (M + 1) b c, buf⟩ : ideque T)
      (slot (M + 1) b i) (slot (M + 1) b c) = (c : Int) - i :=
    distance_slots _ (M + 1) b 0 i c rfl hB hbz (by omega) (by omega) (by omega) (by omega)
  have hhalf : to_difference_type (c / 2) = ((c / 2 : Nat) : Int) :=
    to_difference_type_of_lt (by omega)
  simp only [std_distance, advance]
  rw [hd1, hd2, hhalf, to_size_t_of_nat (show i < 9223372036854775808 by omega)]
  have hsz2 : to_size_t ((c : Int) - i) = c - i := by
    rw [show (c : Int) - i = ((c - i : Nat) : Int) by omega]
    exact to_size_t_of_nat (by omega)
  rw [hsz2]
  by_cases hside : (i : Int) < ((c / 2 : Nat) : Int)
  · -- shift the front
    rw [if_pos hside]
    obtain ⟨m, hm⟩ : ∃ m, m = min n i := ⟨_, rfl⟩
    rw [← hm]
    have hm3 : m = n ∨ m = i := by omega
    obtain ⟨p, hp⟩ : ∃ p, p = n - m := ⟨_, rfl⟩
    obtain ⟨q, hq⟩ : ∃ q, q = i - m := ⟨_, rfl⟩
    have hncn : (if n > m then n - m else 0) = p := by
      split_ifs <;> omega
    have hnew : (if n > p then n - p else 0) = m := by
      split_ifs <;> omega
    rw [hncn, hnew, ← hq]
    have hp' : n = m + p := by omega
    have hq' : i = m + q := by omega
    have hpq : p = 0 ∨ q = 0 := by omega
    have ht0 : to_difference_type p = (p : Int) := to_difference_type_of_lt (by omega)
    have ht1 : to_difference_type m = (m : Int) := to_difference_type_of_lt (by omega)
    have ht2 : to_difference_type q = (q : Int) := to_difference_type_of_lt (by omega)
    rw [ht0, ht1, ht2]
    clear hm hm3 hp hq hncn hnew ht0 ht1 ht2 htn hside hhalf hsz2 hd1 hd2 hguard
    rw [tracked_copy_range_front_eq (M + 1) b 0 p
      ⟨⟨M, M + 1, c, b, slot (M + 1) b c, buf⟩, l⟩ (.range src 0) rfl hB hr hbz
      (by simp only; omega) (by omega)]
    simp only
    obtain ⟨g1, hg1, -⟩ := copy_range_front_range p
      (⟨M, M + 1, c, b, slot (M + 1) b c, buf⟩ : ideque T) src 0 (M + 1) b 0 rfl hB hr hbz
      (by simp only; omega) (by omega) (by simp only; omega)
    rw [hg1]
    simp only
    rw [slot_add hB hr _ _ _ (by omega) (by omega)]
    rw [tracked_copy_range_front_eq (M + 1) b (0 - (p : Int)) m
      ⟨⟨M, M + 1, c + p, slot (M + 1) b (0 - (p : Int)), slot (M + 1) b c, g1⟩,
        Life.construct_up (M + 1) p l (slot (M + 1) b (0 - (p : Int)))⟩
      (.own (slot (M + 1) b (0 - (p : Int) + (p : Int)))) rfl hB hr rfl
      (by simp only; omega) (by omega)]
    simp only
    obtain ⟨g2, hg2, -⟩ := copy_range_front_own m
      (⟨M, M + 1, c + p, slot (M + 1) b (0 - (p : Int)), slot (M + 1) b c, g1⟩ : ideque T)
      (M + 1) b (0 - (p : Int) + (p : Int)) (0 - (p : Int)) rfl hB hr rfl
      (by simp only; omega) (by omega) (by simp only; omega) (by omega) (by omega)
    rw [hg2]
    simp only
    unfold Tracked.std_copy_n
    rw [slot_sub hB hr _ _ _ (by omega) (by omega), slot_add hB hr _ _ _ (by omega) (by omega)]
    rw [tracked_copy_loop_eq q]
    simp only
    obtain ⟨g3, hg3, -⟩ := copy_loop_own q
      (⟨M, M + 1, c + p + m, slot (M + 1) b (0 - (p : Int) - (m : Int)),
        slot (M + 1) b c, g2⟩ : ideque T) (M + 1) b ((i : Int) - (q : Int))
      (0 - (p : Int) - (m : Int) + (m : Int)) rfl hB (by omega) (by omega) (by omega)
    rw [hg3]
    simp only
    rw [slot_sub hB hr _ _ _ (by omega) (by omega), tracked_copy_loop_eq m]
    simp only
    obtain ⟨g4, hg4, -⟩ := copy_loop_range m
      (⟨M, M + 1, c + p + m, slot (M + 1) b (0 - (p : Int) - (m : Int)),
        slot (M + 1) b c, g3⟩ : ideque T) src (0 + p) (M + 1) b
      ((i : Int) - (m : Int)) rfl hB
    rw [hg4]
    simp only
    have hsize : c + p + m = c + n := by omega
    rw [hsize]
    -- the lifetimes
    obtain ⟨s1, l1⟩ := Life.construct_up_spec (M + 1) b hB p l (0 - (p : Int)) (by omega) (by
      intro y h1 h2
      rw [Bool.eq_false_iff, Ne, hL0 y (by omega) (by omega)]
      omega)
    obtain ⟨s2, l2⟩ := Life.construct_up_spec (M + 1) b hB m
      (Life.construct_up (M + 1) p l (slot (M + 1) b (0 - (p : Int))))
      (0 - (p : Int) - (m : Int)) (by omega) (by
      intro y h1 h2
      rw [Bool.eq_false_iff, Ne, l1 y (by omega) (by omega), hL0 y (by omega) (by omega)]
      omega)
    have hlive2 : ∀ y : Int, -(n : Int) ≤ y → y < -(n : Int) + ((M + 1 : Nat) : Int) →
        ((Life.construct_up (M + 1) m
          (Life.construct_up (M + 1) p l (slot (M + 1) b (0 - (p : Int))))
          (slot (M + 1) b (0 - (p : Int) - (m : Int)))).live (slot (M + 1) b y) = true
          ↔ y < -(n : Int) + ((c + n : Nat) : Int)) := by
      intro y h1 h2
      rw [l2 y (by omega) (by omega), l1 y (by omega) (by omega), hL0 y (by omega) (by omega)]
      omega
    rw [Life.assign_up_spec (M + 1) b hB q _ _ (by
      intro y h1 h2
      rw [hlive2 y (by omega) (by omega)]
      omega)]
    rw [Life.assign_up_spec (M + 1) b hB m _ _ (by
      intro y h1 h2
      rw [hlive2 y (by omega) (by omega)]
      omega)]
    exact ⟨-(n : Int), _, _, _, _, rfl, slot_congr (by omega), by rw [s2, s1, hs], hlive2⟩
  · -- shift the back
    rw [if_neg hside]
    obtain ⟨m, hm⟩ : ∃ m, m = min n (c - i) := ⟨_, rfl⟩
    rw [← hm]
    have hm3 : m = n ∨ m = c - i := by omega
    obtain ⟨p, hp⟩ : ∃ p, p = n - m := ⟨_, rfl⟩
    obtain ⟨q, hq⟩ : ∃ q, q = c - i - m := ⟨_, rfl⟩
    have hncn : (if n > m then n - m else 0) = p := by
      split_ifs <;> omega
    have hnew : (if n > p then n - p else 0) = m := by
      split_ifs <;> omega
    rw [hncn, hnew, ← hq]
    have hnp : n - p = m := by omega
    rw [hnp]
    have hp' : n = m + p := by omega
    have hq' : c = i + m + q := by omega
    have hpq : p = 0 ∨ q = 0 := by omega
    have ht2 : to_difference_type q = (q : Int) := to_difference_type_of_lt (by omega)
    rw [ht2, htn]
    clear hm hm3 hp hq hncn hnew hnp ht2 htn hside hhalf hsz2 hd1 hd2 hguard
    rw [tracked_create_back_from_eq p]
    simp only
    obtain ⟨g1, hg1, -⟩ := create_back_from_range p
      (⟨M, M + 1, c, b, slot (M + 1) b c, buf⟩ : ideque T) src (0 + m) (M + 1) b c
      rfl hB rfl (by simp only; omega)
    rw [hg1]
    simp only
    rw [slot_add hB hr _ _ _ (by omega) (by omega), tracked_create_back_from_eq m]
    simp only
    obtain ⟨g2, hg2, -⟩ := create_back_from_own m
      (⟨M, M + 1, c + p, b, slot (M + 1) b ((c : Int) + (p : Int)), g1⟩ : ideque T)
      (M + 1) b ((i : Int) + (q : Int)) ((c : Int) + (p : Int)) rfl hB rfl
      (by simp only; omega) (by omega) (by omega) (by omega)
    rw [hg2]
    simp only
    unfold Tracked.std_copy_backward
    simp only
    rw [slot_add hB hr _ _ _ (by omega) (by omega), slot_add hB hr _ _ _ (by omega) (by omega),
      slot_add hB hr _ _ _ (by omega) (by omega)]
    rw [distance_slots _ (M + 1) b 0 i ((i : Int) + (q : Int))
      rfl hB hbz (by omega) (by omega) (by omega) (by omega)]
    have hcnt : ((i : Int) + (q : Int) - i).toNat = q := by omega
    rw [hcnt, tracked_copy_backward_loop_eq]
    simp only
    obtain ⟨g3, hg3, -⟩ := copy_backward_loop_spec q
      (⟨M, M + 1, c + p + m, b,
        slot (M + 1) b ((c : Int) + (p : Int) + (m : Int)), g2⟩ : ideque T)
      (M + 1) b ((i : Int) + (q : Int)) ((i : Int) + n + (q : Int)) rfl hB (by omega)
      (by omega) (by omega)
    rw [hg3]
    simp only
    unfold Tracked.std_copy_n
    rw [tracked_copy_loop_eq m]
    simp only
    obtain ⟨g4, hg4, -⟩ := copy_loop_range m
      (⟨M, M + 1, c + p + m, b,
        slot (M + 1) b ((c : Int) + (p : Int) + (m : Int)), g3⟩ : ideque T)
      src 0 (M + 1) b (i : Int) rfl hB
    rw [hg4]
    simp only
    have hsize : c + p + m = c + n := by omega
    rw [hsize]
    -- the lifetimes
    obtain ⟨s1, l1⟩ := Life.construct_up_spec (M + 1) b hB p l c (by omega) (by
      intro y h1 h2
      rw [Bool.eq_false_iff, Ne, hL0 y (by omega) (by omega)]
      omega)
    obtain ⟨s2, l2⟩ := Life.construct_up_spec (M + 1) b hB m
      (Life.construct_up (M + 1) p l (slot (M + 1) b c)) ((c : Int) + (p : Int)) (by omega) (by
      intro y h1 h2
      rw [Bool.eq_false_iff, Ne, l1 y (by omega) (by omega), hL0 y (by omega) (by omega)]
      omega)
    have hlive2 : ∀ y : Int, 0 ≤ y → y < 0 + ((M + 1 : Nat) : Int) →
        ((Life.construct_up (M + 1) m (Life.construct_up (M + 1) p l (slot (M + 1) b c))
          (slot (M + 1) b ((c : Int) + (p : Int)))).live (slot (M + 1) b y) = true
          ↔ y < 0 + ((c + n : Nat) : Int)) := by
      intro y h1 h2
      rw [l2 y (by omega) (by omega), l1 y (by omega) (by omega), hL0 y (by omega) (by omega)]
      omega
    rw [Life.assign_down_spec (M + 1) b hB q _ _ (by
      intro y h1 h2
      rw [hlive2 y (by omega) (by omega)]
      omega)]
    rw [Life.assign_up_spec (M + 1) b hB m _ _ (by
      intro y h1 h2
      rw [hlive2 y (by omega) (by omega)]
      omega)]
    exact ⟨0, _, _, _, _, rfl, hbz, by rw [s2, s1, hs], hlive2⟩

theorem tracked_insert_n_d (t : Tracked T) (pos : Int) (n : Nat) (v : ValueRef T) :
    (t.insert_n pos n v).d = (t.d.insert_n pos n v).deque := by
  unfold Tracked.insert_n insert_n
  simp only [Tracked.std_copy_n, Tracked.std_fill_n, Tracked.std_copy_backward, std_copy_n,
    std_fill_n, std_copy_backward]
  split_ifs <;>
    simp only [Outcome.deque, tracked_repeat_front_d (fun e => e.read v),
      tracked_repeat_back_d (fun e => e.read v), tracked_create_back_from_d,
      tracked_create_front_from_d, tracked_copy_loop_d, tracked_fill_loop_d,
      tracked_copy_backward_loop_d]

theorem tracked_insert_range_d (t : Tracked T) (pos : Int) (src : Nat → T) (n : Nat) :
    (t.insert_range pos src n).d = (t.d.insert_range pos src n).deque := by
  unfold Tracked.insert_range insert_range
  simp only [Tracked.std_copy_n, Tracked.std_copy_backward, std_copy_n, std_copy_backward]
  split_ifs <;>
    simp only [Outcome.deque, tracked_copy_range_front_d, tracked_create_back_from_d,
      tracked_copy_loop_d, tracked_copy_backward_loop_d]

/-- Claim C32: slot lifetimes during an interior insert.  Start from a deque whose live
slots are exactly the `size` slots from `begin` on, and insert at an interior position
(`0 < i < size`) with `size + n <= capacity`, either `n` copies of a value or a range of
`n` elements; the `value` of the first form is a reference, to an object outside the deque
or to one of its own elements.  The instrumented run changes the deque exactly as the
insert does, every placement construction in it targets a slot that is uninitialized at
that moment and every copy or fill assignment a slot that is live at that moment (`sound`
stays true), and afterwards the live slots are exactly the `size + n` slots from the new
`begin` on. -/
theorem interior_insert_lifetimes (d : ideque T) (l : Life) (i n : Nat)
    (value : ValueRef T) (src : Nat → T) (hinv : Inv d) (hrep : Representable d)
    (hi0 : 0 < i) (hi : i < d.size) (hcap : d.size + n ≤ d.capacity) (hl : LiveWindow d l)
    (hs : l.sound = true) :
    ((Tracked.insert_n ⟨d, l⟩ (d.cursor i) n value).d = (d.insert_n (d.cursor i) n value).deque ∧
      (Tracked.insert_n ⟨d, l⟩ (d.cursor i) n value).life.sound = true ∧
      LiveWindow (Tracked.insert_n ⟨d, l⟩ (d.cursor i) n value).d
        (Tracked.insert_n ⟨d, l⟩ (d.cursor i) n value).life ∧
      (Tracked.insert_n ⟨d, l⟩ (d.cursor i) n value).d.size = d.size + n) ∧
    ((Tracked.insert_range ⟨d, l⟩ (d.cursor i) src n).d
        = (d.insert_range (d.cursor i) src n).deque ∧
      (Tracked.insert_range ⟨d, l⟩ (d.cursor i) src n).life.sound = true ∧
      LiveWindow (Tracked.insert_range ⟨d, l⟩ (d.cursor i) src n).d
        (Tracked.insert_range ⟨d, l⟩ (d.cursor i) src n).life ∧
      (Tracked.insert_range ⟨d, l⟩ (d.cursor i) src n).d.size = d.size + n) := by
  have hcur := cursor_eq_slot hinv hrep i (by
    obtain ⟨h1, _, _, _, _, h6, _⟩ := hinv
    simp only [size] at hi
    omega)
  obtain ⟨M, c, b, buf, rfl, hb0, hb1, hc, hz⟩ := inv_destruct d hinv
  simp only [Representable] at hrep
  simp only [size, capacity] at hi hcap
  simp only at hcur
  rw [hcur]
  refine ⟨⟨tracked_insert_n_d _ _ _ _, ?_⟩, ⟨tracked_insert_range_d _ _ _ _, ?_⟩⟩
  · obtain ⟨x, bg, e, g, L, hX, hbg, hsound, hlive⟩ :=
      tracked_insert_n_shape M c i n b buf l value hrep hz hcap hi0 hi hl hs
    exact tracked_finish _ M (c + n) b x bg e g L hX hbg hsound hlive
  · obtain ⟨x, bg, e, g, L, hX, hbg, hsound, hlive⟩ :=
      tracked_insert_range_shape M c i n b buf l src hrep hz hcap hi0 hi hl hs
    exact tracked_finish _ M (c + n) b x bg e g L hX hbg hsound hlive

theorem interior_insert_lifetimes_witness :
    ((Tracked.insert_n ⟨trio, Life.of trio⟩ (trio.cursor 1) 2
        (.element (trio.cursor 0))).d
        = (trio.insert_n (trio.cursor 1) 2
        (.element (trio.cursor 0))).deque ∧
      (Tracked.insert_n ⟨trio, Life.of trio⟩ (trio.cursor 1) 2
        (.element (trio.cursor 0))).life.sound = true ∧
      LiveWindow (Tracked.insert_n ⟨trio, Life.of trio⟩ (trio.cursor 1) 2
        (.element (trio.cursor 0))).d
        (Tracked.insert_n ⟨trio, Life.of trio⟩ (trio.cursor 1) 2
        (.element (trio.cursor 0))).life ∧
      (Tracked.insert_n ⟨trio, Life.of trio⟩ (trio.cursor 1) 2
        (.element (trio.cursor 0))).d.size = trio.size + 2) ∧
    ((Tracked.insert_range ⟨trio, Life.of trio⟩ (trio.cursor 1) (fun k => 10 + k) 2).d
        = (trio.insert_range (trio.cursor 1) (fun k => 10 + k) 2).deque ∧
      (Tracked.insert_range ⟨trio, Life.of trio⟩ (trio.cursor 1) (fun k => 10 + k) 2).life.sound
        = true ∧
      LiveWindow (Tracked.insert_range ⟨trio, Life.of trio⟩ (trio.cursor 1) (fun k => 10 + k) 2).d
        (Tracked.insert_range ⟨trio, Life.of trio⟩ (trio.cursor 1)
          (fun k => 10 + k) 2).life ∧
      (Tracked.insert_range ⟨trio, Life.of trio⟩ (trio.cursor 1) (fun k => 10 + k) 2).d.size
        = trio.size + 2) :=
  interior_insert_lifetimes trio (Life.of trio) 1 2 (.element (trio.cursor 0))
    (fun k => 10 + k) (by decide) (by decide)
    (by decide) (by decide) (by decide) (by decide) rfl

end ideque

end sstl
